import Mathlib

/-!
# Cache simulator: `src/Cache/cache.c`, `src/Cache/cache.h`

A shallow embedding of the set-associative cache of the repository.

* C arrays reached through pointers (the sets, the lines of a set, the block of a line, the
  memory buffer `start`) are lists; an access outside the list has no result (`none`).
* `long` values are `Int`, `uchar` values are `Nat`; the only `uchar` that is ever incremented,
  `frequency`, is updated modulo 256.
* `1 << i` is an `int` expression: it has a value only for `i < 31`.
* The C functions mutate the lines through pointers; here every function returns the lines it
  leaves behind.
* `extract_bts_from_address` obtains its record from `malloc` and only adds to the three fields:
  what `malloc` left in the record is a parameter (`junk`) of the decoder and of every function
  that calls it; `zero_record` is the record that a heap page never written holds.
* For the stores of `read_byte` a second embedding keeps the blocks of the lines and the memory
  buffer as allocations of one heap (`read_byte_heap`), so that the pointers may alias.

Three smaller parts follow the cache, each in a namespace of its own: the merge sort of
`src/CPU-Scheduler/CPU-Scheduler.c` (`Scheduler`), `cmp` and `extractDirName` of
`src/File-Syncronization-Tool/file_sync.c` (`FileSync`), and the instruction validation of
`src/File-Processesor/file_processor.c` (`FileProcessor`). There `int` values are `Int`, and a
`char` is an `Int` in the range of a signed byte.
-/

namespace Cache

/-! ## Data model (cache.h) -/

/-- Status code `#define COLD_MISS 1`. -/
def COLD_MISS : Nat := 1

/-- Status code `#define CONFLICT_MISS 2`. -/
def CONFLICT_MISS : Nat := 2

/-- Status code `#define CACHE_HIT 3`. -/
def CACHE_HIT : Nat := 3

/-- Record `cache_line_t`: `uchar valid; uchar frequency; long int tag; uchar* block`. -/
structure cache_line_t where
  valid : Nat
  frequency : Nat
  tag : Int
  block : List Nat
deriving DecidableEq

/-- Record `cache_t`: `uchar s, t, b, E; cache_line_t** cache`. -/
structure cache_t where
  s : Nat
  t : Nat
  b : Nat
  E : Nat
  cache : List (List cache_line_t)
deriving DecidableEq

/-- Record `address_t`: `long offset; long set_index; long tag`. -/
structure address_t where
  offset : Int
  set_index : Int
  tag : Int
deriving DecidableEq

/-! ## Memory accesses and machine arithmetic -/

/-- Read of `xs[i]` with `i` a `long`: there is a value only inside the allocation. -/
def load {α : Type} (xs : List α) (i : Int) : Option α :=
  if 0 ≤ i then xs[i.toNat]? else none

/-- Assignment `xs[i] = v` with `i` a `long`: defined only inside the allocation. -/
def store {α : Type} (xs : List α) (i : Int) (v : α) : Option (List α) :=
  if 0 ≤ i ∧ i.toNat < xs.length then some (xs.set i.toNat v) else none

/-- The C expression `1 << i` at type `int` (32 bits): defined only when `2 ^ i` fits. -/
def shl_one (i : Nat) : Option Int :=
  if i < 31 then some (2 ^ i) else none

/-- The statement `field += p` on a `long` field: defined only while the sum is a `long`. -/
def add_long (field p : Int) : Option Int :=
  if -(2 : Int) ^ 63 ≤ field + p ∧ field + p < 2 ^ 63 then some (field + p) else none

/-- An address record whose three fields hold 0, as `malloc` hands it out on a heap page that was
never written. -/
def zero_record : address_t :=
  { offset := 0, set_index := 0, tag := 0 }

/-- The statement `line->frequency += 1` on a `uchar`. -/
def incr_frequency (line : cache_line_t) : cache_line_t :=
  { line with frequency := (line.frequency + 1) % 256 }

/-! ## extract_bts_from_address (cache.c 227-258) -/

/-- The counted loops of `extract_bts_from_address`, started at counter `i` with `n` rounds left:
`for (; i < n; i++) { if (dec_addr % 2) field += (1 << i); dec_addr /= 2; }`.
Returns the shifted address together with the accumulated field. -/
def extract_field : Nat → Nat → Int → Int → Option (Int × Int)
  | 0, _, dec_addr, field => some (dec_addr, field)
  | n + 1, i, dec_addr, field =>
    if dec_addr.tmod 2 ≠ 0 then
      (shl_one i).bind fun p => (add_long field p).bind fun field1 =>
        extract_field n (i + 1) (dec_addr.tdiv 2) field1
    else extract_field n (i + 1) (dec_addr.tdiv 2) field

/-- The tag loop `while (dec_addr) { if (dec_addr % 2) tag += (1 << i); i++; dec_addr /= 2; }`,
unrolled at most `fuel` times; `none` also when the fuel does not suffice. -/
def extract_tag : Nat → Nat → Int → Int → Option Int
  | 0, _, dec_addr, tag => if dec_addr ≠ 0 then none else some tag
  | fuel + 1, i, dec_addr, tag =>
    if dec_addr ≠ 0 then
      if dec_addr.tmod 2 ≠ 0 then
        (shl_one i).bind fun p => (add_long tag p).bind fun tag1 =>
          extract_tag fuel (i + 1) (dec_addr.tdiv 2) tag1
      else extract_tag fuel (i + 1) (dec_addr.tdiv 2) tag
    else some tag

/-- Function `extract_bts_from_address(dec_addr, s, t, b)`. The record is obtained from `malloc`
and the loops only add into its fields, which nothing clears: `junk` stands for the three values
that `malloc` left in the record, and every field comes out as its junk value plus the bits added.
The tag loop halves `dec_addr` each round, so `|dec_addr|` rounds of fuel always suffice. The
parameter `t` is not used by the C code. -/
def extract_bts_from_address (dec_addr : Int) (s _t b : Nat) (junk : address_t) :
    Option address_t :=
  (extract_field b 0 dec_addr junk.offset).bind fun r1 =>
  (extract_field s 0 r1.1 junk.set_index).bind fun r2 =>
  (extract_tag r2.1.natAbs 0 r2.1 junk.tag).bind fun tag =>
  some { offset := r1.2, set_index := r2.2, tag := tag }

/-! ## get_status (cache.c 185-215) -/

/-- The scan `for (i = 0; i < num_of_lines; i++)` of `get_status`, at counter `i` with `n` rounds
left, carrying `min_frequency` and `*line_index`. Returns `(status, *line_index)`. -/
def get_status_loop (set : List cache_line_t) (tag : Int) :
    Nat → Nat → Nat → Nat → Option (Nat × Nat)
  | 0, _, _, line_index => some (CONFLICT_MISS, line_index)
  | n + 1, i, min_frequency, line_index =>
    match set[i]? with
    | none => none
    | some l =>
      if l.valid = 0 then some (COLD_MISS, i)
      else if l.tag = tag then some (CACHE_HIT, i)
      else if l.frequency < min_frequency then get_status_loop set tag n (i + 1) l.frequency i
      else get_status_loop set tag n (i + 1) min_frequency line_index

/-- Function `get_status(set, num_of_lines, tag, &line_index)`: it first reads
`set[0].frequency`, then scans. Returns `(status, *line_index)`. -/
def get_status (set : List cache_line_t) (num_of_lines : Nat) (tag : Int) : Option (Nat × Nat) :=
  match set[0]? with
  | none => none
  | some l0 => get_status_loop set tag num_of_lines 0 l0.frequency 0

/-! ## insert_data_to_block (cache.c 153-171) -/

/-- The alignment loop `while (off % B != 0) off -= 1;`, unrolled at most `fuel` times. -/
def align_loop (B : Int) : Nat → Int → Option Int
  | 0, off => if off.tmod B ≠ 0 then none else some off
  | fuel + 1, off => if off.tmod B ≠ 0 then align_loop B fuel (off - 1) else some off

/-- The copy loop `for (; i < B; i++) line->block[i] = *(start + off + i);` with `n` rounds
left. -/
def copy_loop (start : List Nat) (off : Int) : Nat → Nat → List Nat → Option (List Nat)
  | 0, _, block => some block
  | n + 1, i, block =>
    (load start (off + i)).bind fun v =>
    (store block (i : Int) v).bind fun block1 =>
    copy_loop start off n (i + 1) block1

/-- Function `insert_data_to_block(line, start, off, b, tag)`; returns the line it leaves. The
alignment loop decrements at most `B - 1` times, so `B` rounds of fuel always suffice. -/
def insert_data_to_block (line : cache_line_t) (start : List Nat) (off : Int) (b : Nat)
    (tag : Int) : Option cache_line_t :=
  (shl_one b).bind fun B =>
  (align_loop B B.toNat off).bind fun off1 =>
  (copy_loop start off1 B.toNat 0 line.block).bind fun block1 =>
  some { valid := 1, frequency := 1, tag := tag, block := block1 }

/-! ## read_byte (cache.c 102-138) and write_byte (cache.c 271-288) -/

/-- What a call of `read_byte` leaves behind: the returned byte, the cache after the call, and the
locals `status`, `*addr_type` and `line_index` by which the access was classified. -/
structure read_outcome where
  byte : Nat
  cache : cache_t
  status : Nat
  addr : address_t
  line_index : Nat
deriving DecidableEq

/-- What a call of `write_byte` leaves behind: the cache and the memory after the call, and the
locals `status`, `*addr_type` and `line_index` by which the access was classified. -/
structure write_outcome where
  cache : cache_t
  start : List Nat
  status : Nat
  addr : address_t
  line_index : Nat
deriving DecidableEq

/-- The cache with line `line_index` of set `set_index` replaced by `line`. -/
def put_line (cache : cache_t) (set : List cache_line_t) (set_index : Int) (line_index : Nat)
    (line : cache_line_t) : cache_t :=
  { cache with cache := cache.cache.set set_index.toNat (set.set line_index line) }

/-- Function `read_byte(cache, start, off)`; `junk` is what `malloc` left in the address record
that the call decodes into. -/
def read_byte (cache : cache_t) (start : List Nat) (off : Int) (junk : address_t) :
    Option read_outcome :=
  (extract_bts_from_address off cache.s cache.t cache.b junk).bind fun addr_type =>
  (load cache.cache addr_type.set_index).bind fun set =>
  (get_status set cache.E addr_type.tag).bind fun r =>
  let status := r.1
  let line_index := r.2
  (set[line_index]?).bind fun line =>
  (if status = COLD_MISS ∨ status = CONFLICT_MISS then
      insert_data_to_block line start off cache.b addr_type.tag
    else if status = CACHE_HIT then some (incr_frequency line)
    else some line).bind fun line1 =>
  (load line1.block addr_type.offset).bind fun byte =>
  some { byte := byte
         cache := put_line cache set addr_type.set_index line_index line1
         status := status
         addr := addr_type
         line_index := line_index }

/-- Function `write_byte(cache, start, off, new)`; `junk` is what `malloc` left in the address
record that the call decodes into. -/
def write_byte (cache : cache_t) (start : List Nat) (off : Int) (new : Nat)
    (junk : address_t) : Option write_outcome :=
  (extract_bts_from_address off cache.s cache.t cache.b junk).bind fun addr_type =>
  (load cache.cache addr_type.set_index).bind fun set =>
  (get_status set cache.E addr_type.tag).bind fun r =>
  let status := r.1
  let line_index := r.2
  (if status = CACHE_HIT then
      (set[line_index]?).bind fun line =>
      (store line.block addr_type.offset new).bind fun block1 =>
      some (put_line cache set addr_type.set_index line_index
              { incr_frequency line with block := block1 })
    else some cache).bind fun cache1 =>
  (store start off new).bind fun start1 =>
  some { cache := cache1
         start := start1
         status := status
         addr := addr_type
         line_index := line_index }

/-! ## Observers used to state the properties -/

/-- The lines 105-113 of `read_byte`, which are also the lines 273-277 of `write_byte`: decode the
address, select the set, call `get_status`. Returns `(status, line_index)`. -/
def classify (cache : cache_t) (off : Int) (junk : address_t) : Option (Nat × Nat) :=
  (extract_bts_from_address off cache.s cache.t cache.b junk).bind fun addr_type =>
  (load cache.cache addr_type.set_index).bind fun set =>
  get_status set cache.E addr_type.tag

/-- The line `cache.cache[set_index][line_index]`. -/
def line_at (cache : cache_t) (set_index : Int) (line_index : Nat) : Option cache_line_t :=
  (load cache.cache set_index).bind fun set => set[line_index]?

/-- Line `j` of the set exists, is valid and carries another tag: the scan of `get_status` walks
past it. -/
def passed (set : List cache_line_t) (tag : Int) (j : Nat) : Prop :=
  ∃ l, set[j]? = some l ∧ l.valid ≠ 0 ∧ l.tag ≠ tag

/-- Valid bit, tag and block of every line, set by set, in index order (frequency left out). -/
def contents (cache : cache_t) : List (List (Nat × Int × List Nat)) :=
  cache.cache.map fun set => set.map fun l => (l.valid, l.tag, l.block)

/-- The cache after `k` calls `read_byte(cache, start, off)` in a row, each of which finds `junk`
in its address record. -/
def read_again (start : List Nat) (off : Int) (junk : address_t) : Nat → cache_t → Option cache_t
  | 0, cache => some cache
  | k + 1, cache =>
    (read_byte cache start off junk).bind fun r => read_again start off junk k r.cache

/-- Shape of a cache with `E ≥ 1` as `initialize_cache` allocates it: `2 ^ s` sets of `E` lines,
every block of `2 ^ b` bytes. -/
def wf_cache (c : cache_t) : Prop :=
  0 < c.E ∧ c.cache.length = 2 ^ c.s ∧
    ∀ set ∈ c.cache, set.length = c.E ∧ ∀ l ∈ set, l.block.length = 2 ^ c.b

instance (c : cache_t) : Decidable (wf_cache c) := by
  unfold wf_cache
  infer_instance

/-- The state in which the next `read_byte` at `o` hits line `i` of its set: the lines before `i`
are passed, line `i` is valid with the tag of `o`, holds `byte` at the block offset of `o` and
has frequency `f`. -/
def hit_ready (s b : Nat) (c : cache_t) (o i byte f : Nat) : Prop :=
  wf_cache c ∧ c.s = s ∧ c.b = b ∧
  ∃ set l, c.cache[o / 2 ^ b % 2 ^ s]? = some set ∧
    (∀ j, j < i → passed set ((o / 2 ^ (b + s) : Nat) : Int) j) ∧
    set[i]? = some l ∧ l.valid ≠ 0 ∧ l.tag = ((o / 2 ^ (b + s) : Nat) : Int) ∧
    l.block[o % 2 ^ b]? = some byte ∧ l.frequency = f

/-! ## initialize_cache (cache.c 21-57) -/

/-- Function `initialize_cache(s, t, b, E)`. `int S = 1 << s` and `int B = 1 << b` are computed
first; the loops then allocate `S` sets of `E` lines each and set `frequency = 0`, `valid = 0`,
`tag = 0` in every line. The bytes of a block come from `malloc(B)` and are not written by this
function: `junk i j k` stands for byte `k` of the block of line `j` of set `i`. -/
def initialize_cache (s t b E : Nat) (junk : Nat → Nat → Nat → Nat) : Option cache_t :=
  (shl_one s).bind fun S =>
  (shl_one b).bind fun B =>
  some { s := s, t := t, b := b, E := E
         cache := (List.range S.toNat).map fun i => (List.range E).map fun j =>
           { valid := 0, frequency := 0, tag := 0
             block := (List.range B.toNat).map (junk i j) } }

/-! ## Sequences of calls -/

/-- One call issued by the driver: `read_byte(cache, start, off)` or
`write_byte(cache, start, off, new)`, together with the values `junk` that `malloc` left in the
address record of that call. -/
inductive access where
  | read (off : Int) (junk : address_t)
  | write (off : Int) (new : Nat) (junk : address_t)
deriving DecidableEq

/-- The lines and the memory after one call. `read_byte` and `insert_data_to_block` contain no
assignment through `start` (the blocks they assign to are separate allocations), so after a read
the memory is the buffer that was passed in; `write_byte` leaves the memory it stored to. -/
def step (cache : cache_t) (start : List Nat) : access → Option (cache_t × List Nat)
  | access.read off junk => (read_byte cache start off junk).map fun r => (r.cache, start)
  | access.write off new junk =>
    (write_byte cache start off new junk).map fun w => (w.cache, w.start)

/-- The lines and the memory after a sequence of calls, issued in order. -/
def run : List access → cache_t → List Nat → Option (cache_t × List Nat)
  | [], cache, start => some (cache, start)
  | a :: rest, cache, start => (step cache start a).bind fun p => run rest p.1 p.2

/-- The set index that a call decodes from its offset and the junk of its record. -/
def access_set (s t b : Nat) : access → Option Int
  | access.read off junk => (extract_bts_from_address off s t b junk).map fun a => a.set_index
  | access.write off _ junk => (extract_bts_from_address off s t b junk).map fun a => a.set_index

/-- Every valid bit is 0 or 1, the two values the code assigns to it. -/
def valid_bits (c : cache_t) : Prop :=
  ∀ set ∈ c.cache, ∀ l ∈ set, l.valid = 0 ∨ l.valid = 1

instance (c : cache_t) : Decidable (valid_bits c) := by
  unfold valid_bits
  infer_instance

/-! ## The state at the moment an access leaves an allocation -/

/-- The copy loop of `insert_data_to_block` followed until it is done (flag `true`) or until its
next statement would access outside `start` or outside the block (flag `false`); returns the block
as it is at that moment. -/
def copy_loop_upto (start : List Nat) (off : Int) : Nat → Nat → List Nat → List Nat × Bool
  | 0, _, block => (block, true)
  | n + 1, i, block =>
    match load start (off + i) with
    | none => (block, false)
    | some v =>
      match store block (i : Int) v with
      | none => (block, false)
      | some block1 => copy_loop_upto start off n (i + 1) block1

/-- Function `insert_data_to_block` followed up to the same moment: the line as the statements
`line->valid = 1; line->frequency = 1; line->tag = tag;` and the rounds of the copy loop executed
so far leave it, and whether the loop was completed. -/
def insert_data_to_block_upto (line : cache_line_t) (start : List Nat) (off : Int) (b : Nat)
    (tag : Int) : Option (cache_line_t × Bool) :=
  (shl_one b).bind fun B =>
  (align_loop B B.toNat off).bind fun off1 =>
  some ({ valid := 1, frequency := 1, tag := tag
          block := (copy_loop_upto start off1 B.toNat 0 line.block).1 },
        (copy_loop_upto start off1 B.toNat 0 line.block).2)

/-- Cache `c1` differs from `c` at most in the line `line_index` of set `set_index`: same
`s, t, b, E`, same number of sets, same number of lines in every set, and every line at another
position is the line that was there. -/
def only_line_changed (c c1 : cache_t) (set_index : Int) (line_index : Nat) : Prop :=
  c1.s = c.s ∧ c1.t = c.t ∧ c1.b = c.b ∧ c1.E = c.E ∧
  c1.cache.length = c.cache.length ∧
  (∀ sj : Nat, (c1.cache[sj]?).map List.length = (c.cache[sj]?).map List.length) ∧
  ∀ sj lj : Nat, ¬ ((sj : Int) = set_index ∧ lj = line_index) →
    line_at c1 (sj : Int) lj = line_at c (sj : Int) lj

/-! ## Concrete states used to instantiate the theorems -/

/-- A cold cache with `s = 1`, `b = 1`, `E = 2`: two sets of two invalid lines, two-byte blocks. -/
def demo_cache : cache_t :=
  { s := 1, t := 0, b := 1, E := 2
    cache := [[⟨0, 0, 0, [0, 0]⟩, ⟨0, 0, 0, [0, 0]⟩], [⟨0, 0, 0, [0, 0]⟩, ⟨0, 0, 0, [0, 0]⟩]] }

/-- The cache `demo_cache` after `read_byte` at offset 5: line 0 of set 0 holds the block 4-5. -/
def warm_cache : cache_t :=
  { s := 1, t := 0, b := 1, E := 2
    cache := [[⟨1, 1, 1, [14, 15]⟩, ⟨0, 0, 0, [0, 0]⟩], [⟨0, 0, 0, [0, 0]⟩, ⟨0, 0, 0, [0, 0]⟩]] }

/-- An eight-byte memory. -/
def demo_mem : List Nat := [10, 11, 12, 13, 14, 15, 16, 17]

/-- A one-line cache (`s = 0`, `b = 0`, `E = 1`) whose line has been hit up to frequency 255. -/
def full_counter_cache : cache_t :=
  { s := 0, t := 0, b := 0, E := 1, cache := [[⟨1, 255, 0, [7]⟩]] }

/-- A full three-line set with frequencies 4, 2, 2 and tags 10, 11, 12. -/
def full_set : List cache_line_t := [⟨1, 4, 10, [0]⟩, ⟨1, 2, 11, [0]⟩, ⟨1, 2, 12, [0]⟩]

/-- A set whose line 1 is invalid while line 2 is valid and carries tag 7. -/
def gap_set : List cache_line_t := [⟨1, 1, 5, [0]⟩, ⟨0, 0, 0, [0]⟩, ⟨1, 3, 7, [0]⟩]

/-- A full two-line set whose line 1 carries tag 7. -/
def pair_set : List cache_line_t := [⟨1, 1, 5, [0]⟩, ⟨1, 3, 7, [0]⟩]

/-- The byte pattern "all zero" for the blocks that `malloc` hands to `initialize_cache`. -/
def zero_junk : Nat → Nat → Nat → Nat := fun _ _ _ => 0

/-- The cache `demo_cache` after `read_byte` at offset 2: line 0 of set 1 holds the block 2-3. -/
def demo_cache_after_2 : cache_t :=
  { s := 1, t := 0, b := 1, E := 2
    cache := [[⟨0, 0, 0, [0, 0]⟩, ⟨0, 0, 0, [0, 0]⟩], [⟨1, 1, 0, [12, 13]⟩, ⟨0, 0, 0, [0, 0]⟩]] }

/-- A three-byte memory: with two-byte blocks the block of offset 2 reaches beyond it. -/
def short_mem : List Nat := [10, 11, 12]

/-- A twenty-byte memory. -/
def long_mem : List Nat := List.range 20

/-! ## Invariants of the reachable states -/

/-- A call that decodes into a zeroed record and whose accesses stay inside a memory of `n` bytes
with blocks of `2 ^ b` bytes: a read at a non-negative offset whose aligned block lies inside the
memory, or a write at an offset inside the memory. -/
def access_ok (b n : Nat) : access → Prop
  | access.read off junk =>
    junk = zero_record ∧ 0 ≤ off ∧ off.toNat - off.toNat % 2 ^ b + 2 ^ b ≤ n
  | access.write off _ junk => junk = zero_record ∧ 0 ≤ off ∧ off.toNat < n

instance (b n : Nat) (a : access) : Decidable (access_ok b n a) := by
  cases a <;> (unfold access_ok; infer_instance)

/-- The value of the latest `write_byte` to offset `o` in a sequence of calls, if there is one. -/
def latest_write : List access → Int → Option Nat
  | [], _ => none
  | a :: rest, o =>
    match latest_write rest o with
    | some v => some v
    | none =>
      match a with
      | access.write off v _ => if off = o then some v else none
      | access.read _ _ => none

/-- Within each set the valid lines form a prefix in index order. -/
def valid_prefix (c : cache_t) : Prop :=
  ∀ (si i j : Nat) (li lj : cache_line_t), line_at c (si : Int) i = some li →
    line_at c (si : Int) j = some lj → j < i → li.valid ≠ 0 → lj.valid ≠ 0

/-- No two valid lines of the same set carry the same tag. -/
def unique_tags (c : cache_t) : Prop :=
  ∀ (si i j : Nat) (li lj : cache_line_t), line_at c (si : Int) i = some li →
    line_at c (si : Int) j = some lj → li.valid ≠ 0 → lj.valid ≠ 0 → li.tag = lj.tag → i = j

/-- Every valid line holds the bytes that the memory holds at the addresses of its block: the
line in set `si` with tag `g` covers the addresses `g * 2^(s+b) + si * 2^b + k`, `k < 2^b`. -/
def coherent (c : cache_t) (mem : List Nat) : Prop :=
  ∀ (si li : Nat) (line : cache_line_t), line_at c (si : Int) li = some line → line.valid ≠ 0 →
    ∃ g : Nat, line.tag = (g : Int) ∧ ∀ k, k < 2 ^ c.b →
      g * 2 ^ (c.s + c.b) + si * 2 ^ c.b + k < mem.length ∧
      line.block[k]? = mem[g * 2 ^ (c.s + c.b) + si * 2 ^ c.b + k]?

/-- The invariant of the reachable states: allocated shape, valid prefix, unique tags, coherence
with the memory. -/
def cache_inv (c : cache_t) (mem : List Nat) : Prop :=
  wf_cache c ∧ valid_prefix c ∧ unique_tags c ∧ coherent c mem

/-- A short sequence of calls on an eight-byte memory: a read that fills a line, a write that
hits it, a write that misses, and a read at the offset of that write. -/
def demo_ops : List access :=
  [access.read 5 zero_record, access.write 5 99 zero_record, access.write 2 7 zero_record,
    access.read 2 zero_record]

/-- A call that decodes into a zeroed record, at a non-negative offset that lies in the block of
offset `o`, for blocks of `2 ^ b` bytes. -/
def same_block (b o : Nat) : access → Prop
  | access.read off junk => junk = zero_record ∧ 0 ≤ off ∧ off.toNat / 2 ^ b = o / 2 ^ b
  | access.write off _ junk => junk = zero_record ∧ 0 ≤ off ∧ off.toNat / 2 ^ b = o / 2 ^ b

instance (b o : Nat) (a : access) : Decidable (same_block b o a) := by
  cases a <;> (unfold same_block; infer_instance)

/-- A run of 255 calls in the block of offset 5: 127 reads at offset 5 and 128 writes at
offset 4. -/
def demo_hits : List access :=
  List.replicate 127 (access.read 5 zero_record) ++
    List.replicate 128 (access.write 4 9 zero_record)

/-- A leftover address record: offset and set index 0, tag 4. -/
def leftover_tag : address_t := { offset := 0, set_index := 0, tag := 4 }

/-- A leftover address record: offset and set index 0, tag 1. -/
def leftover_one : address_t := { offset := 0, set_index := 0, tag := 1 }

/-- A leftover address record: offset and tag 0, set index 2. -/
def leftover_set : address_t := { offset := 0, set_index := 2, tag := 0 }

/-- An address record every byte of which holds `0x01`: each of the three 8-byte fields is
`0x0101010101010101`. -/
def perturbed_record : address_t :=
  { offset := 72340172838076673, set_index := 72340172838076673, tag := 72340172838076673 }

/-- The cache `demo_cache` after `read_byte` at offset 5 with `leftover_tag` in its address
record: line 0 of set 0 holds the block 4-5 under tag 5. -/
def leftover_cache : cache_t :=
  { s := 1, t := 0, b := 1, E := 2
    cache := [[⟨1, 1, 5, [14, 15]⟩, ⟨0, 0, 0, [0, 0]⟩], [⟨0, 0, 0, [0, 0]⟩, ⟨0, 0, 0, [0, 0]⟩]] }

/-- The read at offset 5 with `leftover_tag` in its address record, 255 times. -/
def leftover_hits : List access := List.replicate 255 (access.read 5 leftover_tag)

/-- Four calls, three of them with leftovers in their address records. -/
def leftover_ops : List access :=
  [access.read 5 leftover_tag, access.write 4 9 leftover_tag, access.read 2 leftover_one,
    access.write 7 3 zero_record]

/-- The cache that `leftover_ops` leave from `demo_cache` on `demo_mem`. -/
def leftover_ops_cache : cache_t :=
  { s := 1, t := 0, b := 1, E := 2
    cache := [[⟨1, 2, 5, [9, 15]⟩, ⟨0, 0, 0, [0, 0]⟩], [⟨1, 2, 1, [12, 3]⟩, ⟨0, 0, 0, [0, 0]⟩]] }

/-- The cache that `initialize_cache(0, 0, 0, 1)` returns on blocks of zero bytes. -/
def one_line_cache : cache_t :=
  { s := 0, t := 0, b := 0, E := 1, cache := [[⟨0, 0, 0, [0]⟩]] }

/-- The cache that `initialize_cache(0, 0, 0, 2)` returns on blocks of zero bytes. -/
def two_line_cache : cache_t :=
  { s := 0, t := 0, b := 0, E := 2, cache := [[⟨0, 0, 0, [0]⟩, ⟨0, 0, 0, [0]⟩]] }

/-- The status, the decoded set index and the line index that a call reports, if it returns. -/
def access_report (cache : cache_t) (start : List Nat) : access → Option (Nat × Int × Nat)
  | access.read off junk =>
    (read_byte cache start off junk).map fun r => (r.status, r.addr.set_index, r.line_index)
  | access.write off new junk =>
    (write_byte cache start off new junk).map fun w => (w.status, w.addr.set_index, w.line_index)

/-- Every call of the sequence, issued in order from the given state, returns and is classified
CACHE_HIT on line `line_index` of set `set_index`. -/
def all_hits (set_index : Int) (line_index : Nat) : List access → cache_t → List Nat → Bool
  | [], _, _ => true
  | a :: rest, cache, start =>
    decide (access_report cache start a = some (CACHE_HIT, set_index, line_index)) &&
      match step cache start a with
      | some p => all_hits set_index line_index rest p.1 p.2
      | none => false

/-- The reports of the calls of a sequence, issued in order: for each call its status, decoded
set index and line index. There is a result only when every call returns. -/
def run_reports : List access → cache_t → List Nat → Option (List (Nat × Int × Nat))
  | [], _, _ => some []
  | a :: rest, cache, start =>
    (access_report cache start a).bind fun x =>
    (step cache start a).bind fun p =>
    (run_reports rest p.1 p.2).map fun xs => x :: xs

/-! ## The stores of read_byte, with the blocks and the memory as allocations of one heap

Above, the blocks of the lines and the memory buffer are separate values. Here they are
allocations of one heap, named by handles, so that a `block` pointer and the `start` pointer may
name the same allocation. A heap is the list of its allocations; a handle is a position in it.
An access outside an allocation has no defined result. -/

/-- Record `cache_line_t` with `block` as a pointer: the handle of the allocation that
`initialize_cache` obtained for it. -/
structure line_ref where
  valid : Nat
  frequency : Nat
  tag : Int
  block : Nat
deriving DecidableEq

/-- Record `cache_t` whose lines hold block pointers. -/
structure cache_ref where
  s : Nat
  t : Nat
  b : Nat
  E : Nat
  cache : List (List line_ref)
deriving DecidableEq

/-- The fields of a line that `get_status` reads: valid bit, frequency and tag. -/
def line_ref.header (l : line_ref) : cache_line_t :=
  { valid := l.valid, frequency := l.frequency, tag := l.tag, block := [] }

/-- The copy loop `for (; i < B; i++) line->block[i] = *(start + off + i);` on the heap, with `n`
rounds left: each round reads one byte of the allocation `start` and stores it into the
allocation `block`. -/
def copy_loop_heap (start block : Nat) (off : Int) :
    Nat → Nat → List (List Nat) → Option (List (List Nat))
  | 0, _, heap => some heap
  | n + 1, i, heap =>
    (heap[start]?).bind fun mem =>
    (load mem (off + i)).bind fun v =>
    (heap[block]?).bind fun blk =>
    (store blk (i : Int) v).bind fun blk1 =>
    copy_loop_heap start block off n (i + 1) (heap.set block blk1)

/-- Function `insert_data_to_block(line, start, off, b, tag)` on the heap. -/
def insert_data_to_block_heap (line : line_ref) (heap : List (List Nat)) (start : Nat)
    (off : Int) (b : Nat) (tag : Int) : Option (line_ref × List (List Nat)) :=
  (shl_one b).bind fun B =>
  (align_loop B B.toNat off).bind fun off1 =>
  (copy_loop_heap start line.block off1 B.toNat 0 heap).bind fun heap1 =>
  some ({ valid := 1, frequency := 1, tag := tag, block := line.block }, heap1)

/-- What a call of `read_byte` leaves behind on the heap: the returned byte, the lines, the heap,
and the locals by which the access was classified. -/
structure heap_outcome where
  byte : Nat
  cache : cache_ref
  heap : List (List Nat)
  status : Nat
  addr : address_t
  line_index : Nat
deriving DecidableEq

/-- Function `read_byte(cache, start, off)` on the heap; `start` is the handle of the memory
buffer and `junk` is what `malloc` left in the address record. -/
def read_byte_heap (cache : cache_ref) (heap : List (List Nat)) (start : Nat) (off : Int)
    (junk : address_t) : Option heap_outcome :=
  (extract_bts_from_address off cache.s cache.t cache.b junk).bind fun addr_type =>
  (load cache.cache addr_type.set_index).bind fun set =>
  (get_status (set.map line_ref.header) cache.E addr_type.tag).bind fun r =>
  let status := r.1
  let line_index := r.2
  (set[line_index]?).bind fun line =>
  (if status = COLD_MISS ∨ status = CONFLICT_MISS then
      insert_data_to_block_heap line heap start off cache.b addr_type.tag
    else if status = CACHE_HIT then
      some ({ line with frequency := (line.frequency + 1) % 256 }, heap)
    else some (line, heap)).bind fun p =>
  (p.2[p.1.block]?).bind fun blk =>
  (load blk addr_type.offset).bind fun byte =>
  some { byte := byte
         cache := { cache with
           cache := cache.cache.set addr_type.set_index.toNat (set.set line_index p.1) }
         heap := p.2
         status := status
         addr := addr_type
         line_index := line_index }

/-- The shape that `initialize_cache` allocates, on the heap: `E ≥ 1`, `2 ^ s` sets of `E` lines,
and every block pointer names an allocation of `2 ^ b` bytes. -/
def wf_ref (c : cache_ref) (heap : List (List Nat)) : Prop :=
  0 < c.E ∧ c.cache.length = 2 ^ c.s ∧
    ∀ set ∈ c.cache, set.length = c.E ∧
      ∀ l ∈ set, ∃ blk, heap[l.block]? = some blk ∧ blk.length = 2 ^ c.b

/-- The allocation `start` is no block of the cache. -/
def separate (c : cache_ref) (start : Nat) : Prop :=
  ∀ set ∈ c.cache, ∀ l ∈ set, l.block ≠ start

instance (c : cache_ref) (start : Nat) : Decidable (separate c start) := by
  unfold separate
  infer_instance

/-- The value of a line on the heap: its fields, with the block pointer replaced by the bytes of
the allocation that it names. -/
def line_ref.deref (heap : List (List Nat)) (l : line_ref) : cache_line_t :=
  { valid := l.valid, frequency := l.frequency, tag := l.tag, block := heap.getD l.block [] }

/-- The value of a cache on the heap. -/
def cache_ref.deref (heap : List (List Nat)) (c : cache_ref) : cache_t :=
  { s := c.s, t := c.t, b := c.b, E := c.E
    cache := c.cache.map fun set => set.map (line_ref.deref heap) }

/-- Every line owns its block: every block pointer names an allocation, and no two lines of the
cache name the same one. -/
def own_blocks (c : cache_ref) (heap : List (List Nat)) : Prop :=
  (∀ set ∈ c.cache, ∀ l ∈ set, l.block < heap.length) ∧
  ∀ (i j i1 j1 : Nat) (set set1 : List line_ref) (l l1 : line_ref),
    c.cache[i]? = some set → set[j]? = some l → c.cache[i1]? = some set1 → set1[j1]? = some l1 →
    l.block = l1.block → i = i1 ∧ j = j1

/-- A heap of five allocations: the eight-byte memory `demo_mem` at handle 0 and four blocks of
two bytes at handles 1 to 4. -/
def demo_heap : List (List Nat) := [demo_mem, [0, 0], [0, 0], [0, 0], [0, 0]]

/-- The cold cache with `s = 1`, `b = 1`, `E = 2` whose four lines point to the blocks 1 to 4 of
`demo_heap`. -/
def demo_ref : cache_ref :=
  { s := 1, t := 0, b := 1, E := 2
    cache := [[⟨0, 0, 0, 1⟩, ⟨0, 0, 0, 2⟩], [⟨0, 0, 0, 3⟩, ⟨0, 0, 0, 4⟩]] }

/-- A one-line cache (`s = 0`, `b = 1`, `E = 1`) whose block pointer names the allocation that is
also passed as the memory. -/
def aliased_ref : cache_ref :=
  { s := 0, t := 0, b := 1, E := 1, cache := [[⟨0, 0, 0, 0⟩]] }

end Cache

namespace Scheduler

/-! ## CPU scheduler: sort (CPU-Scheduler.c 228-338) -/

/-- Enumeration `sort_by`: `ARRIVAL, SHORTEST_JOB, PRIORITY`. -/
inductive sort_by where
  | ARRIVAL
  | SHORTEST_JOB
  | PRIORITY
deriving DecidableEq

/-- Record `P`: `char Name[51]; char Description[101]; int Arrival_Time; int Burst_Time;
int Remaining_Time; int Priority; pid_t pid`. -/
structure P where
  Name : List Nat
  Description : List Nat
  Arrival_Time : Int
  Burst_Time : Int
  Remaining_Time : Int
  Priority : Int
  pid : Int
deriving DecidableEq

/-- Function `cmp_arrival`: `return (a1.Arrival_Time <= a2.Arrival_Time);`. -/
def cmp_arrival (a1 a2 : P) : Int :=
  if a1.Arrival_Time ≤ a2.Arrival_Time then 1 else 0

/-- Function `cmp_shortest_job`: `return (a1.Burst_Time <= a2.Burst_Time);`. -/
def cmp_shortest_job (a1 a2 : P) : Int :=
  if a1.Burst_Time ≤ a2.Burst_Time then 1 else 0

/-- Function `cmp_priority`: `return (a1.Priority <= a2.Priority);`. -/
def cmp_priority (a1 a2 : P) : Int :=
  if a1.Priority ≤ a2.Priority then 1 else 0

/-- Read of `arr[i]` with `i` an `int`: there is a value only inside the array. -/
def load (arr : List P) (i : Int) : Option P :=
  if 0 ≤ i then arr[i.toNat]? else none

/-- Assignment `arr[i] = v` with `i` an `int`: defined only inside the array. -/
def store (arr : List P) (i : Int) (v : P) : Option (List P) :=
  if 0 ≤ i ∧ i.toNat < arr.length then some (arr.set i.toNat v) else none

/-- Loop `for (i = 0; i < n; i++) X[i] = arr[base + i];` of `merge`, from index `i` on with
`n - i` elements still to copy: the elements stored into the local array `X`, in order. -/
def copy_out (arr : List P) (base : Int) : Nat → Int → Option (List P)
  | 0, _ => some []
  | n + 1, i =>
    (load arr (base + i)).bind fun x =>
      (copy_out arr base n (i + 1)).map fun xs => x :: xs

/-- Loop `while (i < n1 && j < n2)` of `merge`, with `n1`, `n2` the sizes of `L` and `R`:
`arr[k++] = L[i++]` if `cmp(L[i], R[j])` is non-zero, `arr[k++] = R[j++]` otherwise. The result
is the state `(i, j, k, arr)` at the exit of the loop; `none` stands for an access outside an
array, or for the fuel ending before the loop does. -/
def merge_both (cmp : P → P → Int) (L R : List P) :
    Nat → Nat → Nat → Int → List P → Option (Nat × Nat × Int × List P)
  | 0, i, j, k, arr => if i < L.length ∧ j < R.length then none else some (i, j, k, arr)
  | fuel + 1, i, j, k, arr =>
    if i < L.length ∧ j < R.length then
      (L[i]?).bind fun l => (R[j]?).bind fun r =>
        if cmp l r ≠ 0 then
          (store arr k l).bind fun arr1 => merge_both cmp L R fuel (i + 1) j (k + 1) arr1
        else
          (store arr k r).bind fun arr1 => merge_both cmp L R fuel i (j + 1) (k + 1) arr1
    else some (i, j, k, arr)

/-- Loops `while (i < n1) arr[k++] = L[i++];` and `while (j < n2) arr[k++] = R[j++];` of
`merge`, for the local array `X` and its index `i`: the state `(k, arr)` at the exit. -/
def drain (X : List P) : Nat → Nat → Int → List P → Option (Int × List P)
  | 0, i, k, arr => if i < X.length then none else some (k, arr)
  | fuel + 1, i, k, arr =>
    if i < X.length then
      (X[i]?).bind fun x => (store arr k x).bind fun arr1 => drain X fuel (i + 1) (k + 1) arr1
    else some (k, arr)

/-- Function `merge(arr, left, mid, right, cmp)`. `n1 = mid - left + 1` and `n2 = right - mid`
are the sizes of the variable-length arrays `L` and `R`, which have to be positive. The three
loops get `n1 + n2`, `n1` and `n2` steps of fuel, one for each element they can move. -/
def merge (arr : List P) (left mid right : Int) (cmp : P → P → Int) : Option (List P) :=
  let n1 := mid - left + 1
  let n2 := right - mid
  if n1 ≤ 0 ∨ n2 ≤ 0 then none
  else
    (copy_out arr left n1.toNat 0).bind fun L =>
    (copy_out arr (mid + 1) n2.toNat 0).bind fun R =>
    (merge_both cmp L R (n1.toNat + n2.toNat) 0 0 left arr).bind fun st =>
    (drain L n1.toNat st.1 st.2.2.1 st.2.2.2).bind fun st1 =>
    (drain R n2.toNat st.2.1 st1.1 st1.2).map fun st2 => st2.2

/-- Function `mergeSort(arr, left, right, cmp)`: `if (left < right)`, sort `left..mid` and
`mid + 1..right` with `mid = left + (right - left) / 2`, then `merge`. The fuel bounds the depth
of the recursion; `none` stands for the fuel ending first or an access outside the array. -/
def mergeSort (cmp : P → P → Int) : Nat → List P → Int → Int → Option (List P)
  | 0, arr, left, right => if left < right then none else some arr
  | fuel + 1, arr, left, right =>
    if left < right then
      (mergeSort cmp fuel arr left (left + (right - left).tdiv 2)).bind fun a1 =>
      (mergeSort cmp fuel a1 (left + (right - left).tdiv 2 + 1) right).bind fun a2 =>
      merge a2 left (left + (right - left).tdiv 2) right cmp
    else some arr

/-- Function `sort(p_array, len, sortby)`: `mergeSort(p_array, 0, len - 1, cmp)` with the
comparison of the criterion. -/
def sort (fuel : Nat) (p_array : List P) (len : Int) : sort_by → Option (List P)
  | sort_by.ARRIVAL => mergeSort cmp_arrival fuel p_array 0 (len - 1)
  | sort_by.SHORTEST_JOB => mergeSort cmp_shortest_job fuel p_array 0 (len - 1)
  | sort_by.PRIORITY => mergeSort cmp_priority fuel p_array 0 (len - 1)

/-- The field that a criterion compares: `Arrival_Time`, `Burst_Time` or `Priority`. -/
def sort_key : sort_by → P → Int
  | sort_by.ARRIVAL, p => p.Arrival_Time
  | sort_by.SHORTEST_JOB, p => p.Burst_Time
  | sort_by.PRIORITY, p => p.Priority

/-- The comparison function that `sort` passes to `mergeSort` for a criterion. -/
def sort_cmp : sort_by → P → P → Int
  | sort_by.ARRIVAL => cmp_arrival
  | sort_by.SHORTEST_JOB => cmp_shortest_job
  | sort_by.PRIORITY => cmp_priority

/-- The sequence that the three loops of `merge` write for local arrays `L` and `R`: the head of
`L` while `cmp` of the two heads is non-zero, the head of `R` otherwise, and the rest of one array
when the other is used up. -/
def merge_lists (cmp : P → P → Int) : List P → List P → List P
  | [], R => R
  | l :: L, [] => l :: L
  | l :: L, r :: R =>
    if cmp l r ≠ 0 then l :: merge_lists cmp L (r :: R) else r :: merge_lists cmp (l :: L) R
termination_by L R => L.length + R.length

/-- A process with the given name byte and the three key fields. -/
def proc (name : Nat) (arrival burst priority : Int) : P :=
  { Name := [name], Description := [], Arrival_Time := arrival, Burst_Time := burst
    Remaining_Time := burst, Priority := priority, pid := 0 }

/-- Four processes, out of order for every criterion. -/
def demo_procs : List P :=
  [proc 1 3 5 2, proc 2 1 9 1, proc 3 2 5 4, proc 4 0 1 3]

end Scheduler

namespace FileSync

/-! ## File synchronisation tool: cmp and extractDirName (file_sync.c 81-100, 163-190) -/

/-- The `char` that a pointer into a string points at: the first of the remaining characters,
and the terminator 0 when none remains. A `char` is signed on x86-64 Linux: bytes from 0x80 on
are the negative values -128..-1. -/
def deref (str : List Int) : Int :=
  str.headD 0

/-- The statements of `cmp` after its loop, on the characters `*str1` and `*str2`:
`if (*str1 == *str2) return 0; return ((*str1 - *str2) > 0) ? 1 : 2;`. -/
def cmp_exit (c1 c2 : Int) : Int :=
  if c1 = c2 then 0 else if c1 - c2 > 0 then 1 else 2

/-- Function `cmp(str1, str2)`. The loop runs while `*str1 != 0 && *str2 != 0`, returns 1 if
`*str1 > *str2`, 2 if `*str1 < *str2`, and advances both pointers otherwise. -/
def cmp : List Int → List Int → Int
  | [], str2 => cmp_exit 0 (deref str2)
  | c1 :: _, [] => cmp_exit c1 0
  | c1 :: str1, c2 :: str2 =>
    if c1 ≠ 0 ∧ c2 ≠ 0 then
      if c1 > c2 then 1 else if c1 < c2 then 2 else cmp str1 str2
    else cmp_exit c1 c2

/-- Loop `for (int i = 0; i < len; i++) if (path[i] == '/') lastIndex = i;` of
`extractDirName`, from index `i` on with `len - i` steps to go: the final `lastIndex`. -/
def scan_slash (path : List Char) : Nat → Nat → Nat → Nat
  | 0, _, lastIndex => lastIndex
  | n + 1, i, lastIndex =>
    scan_slash path n (i + 1) (if path[i]? = some '/' then i else lastIndex)

/-- Function `extractDirName(path)`, on the characters of `path` before its terminator:
`len = strlen(path)`, `lastIndex = 0`, the loop, and `return (path + lastIndex + 1)`. The result
is the string that the returned pointer points at; there is none when the pointer lies beyond the
terminator. -/
def extractDirName (path : List Char) : Option (List Char) :=
  if scan_slash path path.length 0 0 + 1 ≤ path.length then
    some (path.drop (scan_slash path path.length 0 0 + 1))
  else none

/-- Lexicographic order on strings, a proper prefix being smaller than its extension. -/
def lex_lt : List Int → List Int → Prop
  | [], [] => False
  | [], _ :: _ => True
  | _ :: _, [] => False
  | a :: as, b :: bs => a < b ∨ (a = b ∧ lex_lt as bs)

instance : DecidableRel lex_lt := by
  intro s1
  induction s1 with
  | nil => intro s2; cases s2 <;> (unfold lex_lt; infer_instance)
  | cons a as ih =>
    intro s2
    cases s2 with
    | nil => unfold lex_lt; infer_instance
    | cons b bs =>
      unfold lex_lt
      exact @instDecidableOr _ _ _ (@instDecidableAnd _ _ _ (ih bs))

end FileSync

namespace FileProcessor

/-! ## File processor: instruction validation (file_processor.c 111-182, 250-273) -/

/-- Enumerator `READ` of `enum instruction_type { READ, WRITE, QUIT, INVALID }`. -/
def READ : Int := 0

/-- Enumerator `WRITE`. -/
def WRITE : Int := 1

/-- Enumerator `QUIT`. -/
def QUIT : Int := 2

/-- Enumerator `INVALID`. -/
def INVALID : Int := 3

/-- Record `instruction`: `char type; int start_offset; int end_offset; char * text`. -/
structure instruction where
  type : Int
  start_offset : Int
  end_offset : Int
  text : List Nat
deriving DecidableEq

/-- Function `is_instruction_valid(ins)`, with `data_file.file_size` as a parameter. -/
def is_instruction_valid (ins : instruction) (file_size : Int) : Int :=
  if ins.start_offset < 0 ∨ ins.end_offset < 0 then 0
  else if ins.start_offset > ins.end_offset then 0
  else if ins.type = READ then
    if ins.end_offset ≥ file_size then 0 else 1
  else
    if ins.start_offset ≥ file_size then 0 else 1

/-- One well-formed line of the request file as `fetch_next_instruction` scans it: the type
character, then two integers for `R`, one integer and the rest of the line for `W`, nothing more
for `Q`; `other` is any other type character. -/
inductive request where
  | R (start_offset end_offset : Int)
  | W (start_offset : Int) (text : List Nat)
  | Q
  | other

/-- Function `fetch_next_instruction(ins)` on the next line of the request file: the record
that `*ins` holds at the return. For `W` only `start_offset` is scanned before the validation;
`assign_text_string` stores the rest of the line if the instruction is valid. -/
def fetch_next_instruction (ins : instruction) (file_size : Int) : request → instruction
  | request.R s e =>
    if is_instruction_valid { ins with type := READ, start_offset := s, end_offset := e }
        file_size = 0 then
      { ins with type := INVALID, start_offset := s, end_offset := e }
    else { ins with type := READ, start_offset := s, end_offset := e }
  | request.W s text =>
    if is_instruction_valid { ins with type := WRITE, start_offset := s } file_size = 0 then
      { ins with type := INVALID, start_offset := s }
    else { ins with type := WRITE, start_offset := s, text := text }
  | request.Q => { ins with type := QUIT }
  | request.other => ins

/-- The record that `run` passes to the first `fetch_next_instruction`: `start_offset = 0`,
`end_offset = 0`, an empty text; `type` is not initialised and stands as a parameter. -/
def initial_instruction (type : Int) : instruction :=
  { type := type, start_offset := 0, end_offset := 0, text := [] }

end FileProcessor

namespace Cache

/-! ## Lemmas: address decoding -/

theorem shl_one_of_lt {i : Nat} (h : i < 31) : shl_one i = some ((2 : Int) ^ i) := by
  simp [shl_one, h]

theorem pow_lt_of_mul_lt {a i : Nat} (ha : 0 < a) (h : a * 2 ^ i < 2 ^ 31) : i < 31 := by
  have h1 : 2 ^ i ≤ a * 2 ^ i := Nat.le_mul_of_pos_left _ ha
  exact (Nat.pow_lt_pow_iff_right (by norm_num : 1 < 2)).mp (lt_of_le_of_lt h1 h)

theorem tmod_two_natCast (k : Nat) : ((k : Int).tmod 2 ≠ 0) ↔ k % 2 = 1 := by
  rw [Int.tmod_eq_emod (Int.ofNat_nonneg k) (by norm_num)]
  omega

theorem tdiv_two_natCast (k : Nat) : (k : Int).tdiv 2 = ((k / 2 : Nat) : Int) := by
  rw [Int.tdiv_eq_ediv (Int.ofNat_nonneg k) (by norm_num)]
  omega

theorem add_long_of_bounds {field p : Int} (h1 : -(2 : Int) ^ 63 ≤ field + p)
    (h2 : field + p < 2 ^ 63) : add_long field p = some (field + p) := by
  unfold add_long
  rw [if_pos ⟨h1, h2⟩]

theorem extract_field_natCast (n : Nat) : ∀ (i k : Nat) (acc : Int),
    (k % 2 ^ n) * 2 ^ i < 2 ^ 31 → -(2 : Int) ^ 63 ≤ acc →
    acc + (((k % 2 ^ n) * 2 ^ i : Nat) : Int) < 2 ^ 63 →
    extract_field n i (k : Int) acc
      = some (((k / 2 ^ n : Nat) : Int), acc + (((k % 2 ^ n) * 2 ^ i : Nat) : Int)) := by
  induction n with
  | zero => intro i k acc _ _ _; simp [extract_field, Nat.mod_one]
  | succ n ih =>
    intro i k acc h hlo hhi
    have hmod : k % 2 ^ (n + 1) = k % 2 + 2 * (k / 2 % 2 ^ n) := by
      rw [pow_succ', Nat.mod_mul]
    have hdiv : k / 2 ^ (n + 1) = k / 2 / 2 ^ n := by
      rw [pow_succ, mul_comm, Nat.div_div_eq_div_mul]
    have hrec : (k / 2 % 2 ^ n) * 2 ^ (i + 1) < 2 ^ 31 := by
      have : (k / 2 % 2 ^ n) * 2 ^ (i + 1) ≤ (k % 2 ^ (n + 1)) * 2 ^ i := by
        rw [hmod, pow_succ]
        nlinarith [Nat.zero_le (k % 2), Nat.zero_le (2 ^ i)]
      omega
    have hsum : (((k % 2 ^ (n + 1)) * 2 ^ i : Nat) : Int)
        = ((k % 2 : Nat) : Int) * 2 ^ i + (((k / 2 % 2 ^ n) * 2 ^ (i + 1) : Nat) : Int) := by
      rw [hmod, pow_succ]
      push_cast
      ring
    have hpos : (0 : Int) ≤ (((k / 2 % 2 ^ n) * 2 ^ (i + 1) : Nat) : Int) := Int.natCast_nonneg _
    have hpow : (0 : Int) < 2 ^ i := by positivity
    rw [hsum] at hhi
    rw [extract_field, tdiv_two_natCast]
    by_cases hb : k % 2 = 1
    · have hi : i < 31 := pow_lt_of_mul_lt (a := k % 2 ^ (n + 1)) (by omega) h
      rw [hb] at hhi
      simp only [Nat.cast_one, one_mul] at hhi
      rw [if_pos ((tmod_two_natCast k).mpr hb), shl_one_of_lt hi, Option.some_bind,
        add_long_of_bounds (by omega) (by omega), Option.some_bind,
        ih (i + 1) (k / 2) _ hrec (by omega) (by omega), hdiv, hsum, hb]
      congr 2
      push_cast
      ring
    · have hb0 : k % 2 = 0 := by omega
      rw [hb0] at hhi
      simp only [Nat.cast_zero, zero_mul, zero_add] at hhi
      rw [if_neg (fun hc => hb ((tmod_two_natCast k).mp hc)),
        ih (i + 1) (k / 2) _ hrec hlo hhi, hdiv, hsum, hb0]
      congr 2
      push_cast
      ring

theorem extract_tag_natCast (fuel : Nat) : ∀ (i k : Nat) (acc : Int),
    k ≤ fuel → k * 2 ^ i < 2 ^ 31 → -(2 : Int) ^ 63 ≤ acc →
    acc + ((k * 2 ^ i : Nat) : Int) < 2 ^ 63 →
    extract_tag fuel i (k : Int) acc = some (acc + ((k * 2 ^ i : Nat) : Int)) := by
  induction fuel with
  | zero =>
    intro i k acc hk _ _ _
    have : k = 0 := by omega
    subst this
    simp [extract_tag]
  | succ fuel ih =>
    intro i k acc hk h hlo hhi
    rw [extract_tag]
    by_cases hk0 : k = 0
    · subst hk0; simp
    · have hne : (k : Int) ≠ 0 := by exact_mod_cast hk0
      rw [if_pos hne, tdiv_two_natCast]
      have hrec : (k / 2) * 2 ^ (i + 1) < 2 ^ 31 := by
        have : (k / 2) * 2 ^ (i + 1) ≤ k * 2 ^ i := by
          rw [pow_succ]
          have h2 : k / 2 * 2 ≤ k := Nat.div_mul_le_self k 2
          calc k / 2 * (2 ^ i * 2) = (k / 2 * 2) * 2 ^ i := by ring
            _ ≤ k * 2 ^ i := Nat.mul_le_mul_right _ h2
        omega
      have hfuel : k / 2 ≤ fuel := by omega
      have hk2 : k = 2 * (k / 2) + k % 2 := by omega
      have hsum : ((k * 2 ^ i : Nat) : Int)
          = ((k % 2 : Nat) : Int) * 2 ^ i + (((k / 2) * 2 ^ (i + 1) : Nat) : Int) := by
        conv_lhs => rw [hk2]
        rw [pow_succ]
        push_cast
        ring
      have hpos : (0 : Int) ≤ (((k / 2) * 2 ^ (i + 1) : Nat) : Int) := Int.natCast_nonneg _
      have hpow : (0 : Int) < 2 ^ i := by positivity
      rw [hsum] at hhi
      by_cases hb : k % 2 = 1
      · have hi : i < 31 := pow_lt_of_mul_lt (a := k) (by omega) h
        rw [hb] at hhi
        simp only [Nat.cast_one, one_mul] at hhi
        rw [if_pos ((tmod_two_natCast k).mpr hb), shl_one_of_lt hi, Option.some_bind,
          add_long_of_bounds (by omega) (by omega), Option.some_bind,
          ih (i + 1) (k / 2) _ hfuel hrec (by omega) (by omega), hsum, hb]
        congr 1
        push_cast
        ring
      · have hb0 : k % 2 = 0 := by omega
        rw [hb0] at hhi
        simp only [Nat.cast_zero, zero_mul, zero_add] at hhi
        rw [if_neg (fun hc => hb ((tmod_two_natCast k).mp hc)),
          ih (i + 1) (k / 2) _ hfuel hrec hlo hhi, hsum, hb0]
        congr 1
        push_cast
        ring

/-- In the range where no `1 << i` and no `long` sum overflows, every field that the decoder
returns is the junk of the record plus the bit field of the address. -/
theorem extract_bts_from_address_junk (o s t b : Nat) (junk : address_t)
    (h1 : o % 2 ^ b < 2 ^ 31) (h2 : o / 2 ^ b % 2 ^ s < 2 ^ 31) (h3 : o / 2 ^ (b + s) < 2 ^ 31)
    (hlo : -(2 : Int) ^ 63 ≤ junk.offset ∧ -(2 : Int) ^ 63 ≤ junk.set_index ∧
      -(2 : Int) ^ 63 ≤ junk.tag)
    (hhi : junk.offset + ((o % 2 ^ b : Nat) : Int) < 2 ^ 63 ∧
      junk.set_index + ((o / 2 ^ b % 2 ^ s : Nat) : Int) < 2 ^ 63 ∧
      junk.tag + ((o / 2 ^ (b + s) : Nat) : Int) < 2 ^ 63) :
    extract_bts_from_address (o : Int) s t b junk
      = some { offset := junk.offset + ((o % 2 ^ b : Nat) : Int)
               set_index := junk.set_index + ((o / 2 ^ b % 2 ^ s : Nat) : Int)
               tag := junk.tag + ((o / 2 ^ (b + s) : Nat) : Int) } := by
  have e1 := extract_field_natCast b 0 o junk.offset (by simpa using h1) hlo.1
    (by simpa using hhi.1)
  have e2 := extract_field_natCast s 0 (o / 2 ^ b) junk.set_index (by simpa using h2) hlo.2.1
    (by simpa using hhi.2.1)
  have hdd : o / 2 ^ b / 2 ^ s = o / 2 ^ (b + s) := by
    rw [Nat.div_div_eq_div_mul, pow_add]
  have e3 := extract_tag_natCast (o / 2 ^ (b + s)) 0 (o / 2 ^ (b + s)) junk.tag le_rfl
    (by simpa using h3) hlo.2.2 (by simpa using hhi.2.2)
  simp only [extract_bts_from_address, e1, Option.some_bind, e2, hdd, Int.natAbs_ofNat, e3]
  simp

/-- In the range where no `1 << i` overflows, the decoder returns the three bit fields when the
record it decodes into starts zeroed. -/
theorem extract_bts_from_address_eq (o s t b : Nat)
    (h1 : o % 2 ^ b < 2 ^ 31) (h2 : o / 2 ^ b % 2 ^ s < 2 ^ 31) (h3 : o / 2 ^ (b + s) < 2 ^ 31) :
    extract_bts_from_address (o : Int) s t b zero_record
      = some { offset := ((o % 2 ^ b : Nat) : Int)
               set_index := ((o / 2 ^ b % 2 ^ s : Nat) : Int)
               tag := ((o / 2 ^ (b + s) : Nat) : Int) } := by
  have h := extract_bts_from_address_junk o s t b zero_record h1 h2 h3
    (by simp only [zero_record]; norm_num)
    (by simp only [zero_record]; refine ⟨?_, ?_, ?_⟩ <;> omega)
  rw [h]
  simp [zero_record]

/-! ## Lemmas: the scan of get_status -/

theorem get_status_loop_step {set : List cache_line_t} {tag : Int} {i : Nat}
    (h : passed set tag i) (n m li : Nat) :
    ∃ m1 li1, get_status_loop set tag (n + 1) i m li = get_status_loop set tag n (i + 1) m1 li1 := by
  obtain ⟨l, hl, hv, ht⟩ := h
  by_cases hf : l.frequency < m
  · exact ⟨l.frequency, i, by simp [get_status_loop, hl, hv, ht, hf]⟩
  · exact ⟨m, li, by simp [get_status_loop, hl, hv, ht, hf]⟩

theorem get_status_loop_cold (set : List cache_line_t) (tag : Int) (n : Nat) :
    ∀ (i m li k : Nat), k < n → (∀ j, i ≤ j → j < i + k → passed set tag j) →
      (∃ l, set[i + k]? = some l ∧ l.valid = 0) →
      get_status_loop set tag n i m li = some (COLD_MISS, i + k) := by
  induction n with
  | zero => intro i m li k hk; omega
  | succ n ih =>
    intro i m li k hk hpass hinv
    cases k with
    | zero =>
      obtain ⟨l, hl, hv⟩ := hinv
      simp at hl
      simp [get_status_loop, hl, hv]
    | succ k =>
      obtain ⟨m1, li1, hstep⟩ := get_status_loop_step (hpass i le_rfl (by omega)) n m li
      rw [hstep, ih (i + 1) m1 li1 k (by omega) (fun j h1 h2 => hpass j (by omega) (by omega))
        (by rw [show i + 1 + k = i + (k + 1) by omega]; exact hinv)]
      congr 2
      omega

theorem get_status_loop_hit (set : List cache_line_t) (tag : Int) (n : Nat) :
    ∀ (i m li k : Nat), k < n → (∀ j, i ≤ j → j < i + k → passed set tag j) →
      (∃ l, set[i + k]? = some l ∧ l.valid ≠ 0 ∧ l.tag = tag) →
      get_status_loop set tag n i m li = some (CACHE_HIT, i + k) := by
  induction n with
  | zero => intro i m li k hk; omega
  | succ n ih =>
    intro i m li k hk hpass hinv
    cases k with
    | zero =>
      obtain ⟨l, hl, hv, ht⟩ := hinv
      simp at hl
      simp [get_status_loop, hl, hv, ht]
    | succ k =>
      obtain ⟨m1, li1, hstep⟩ := get_status_loop_step (hpass i le_rfl (by omega)) n m li
      rw [hstep, ih (i + 1) m1 li1 k (by omega) (fun j h1 h2 => hpass j (by omega) (by omega))
        (by rw [show i + 1 + k = i + (k + 1) by omega]; exact hinv)]
      congr 2
      omega

theorem get_status_loop_hit_inv {set : List cache_line_t} {tag : Int} (n : Nat) :
    ∀ (i m li r : Nat), get_status_loop set tag n i m li = some (CACHE_HIT, r) →
      i ≤ r ∧ r < i + n ∧ (∃ l, set[r]? = some l ∧ l.valid ≠ 0 ∧ l.tag = tag) ∧
      ∀ j, i ≤ j → j < r → passed set tag j := by
  induction n with
  | zero =>
    intro i m li r h
    simp [get_status_loop, CONFLICT_MISS, CACHE_HIT] at h
  | succ n ih =>
    intro i m li r h
    rw [get_status_loop] at h
    cases hl : set[i]? with
    | none => simp [hl] at h
    | some l =>
      simp only [hl] at h
      by_cases hv : l.valid = 0
      · simp [hv, COLD_MISS, CACHE_HIT] at h
      · by_cases ht : l.tag = tag
        · simp only [hv, ht, if_false, if_true, Option.some.injEq, Prod.mk.injEq, true_and] at h
          subst h
          exact ⟨le_rfl, by omega, ⟨l, hl, hv, ht⟩, fun j h1 h2 => by omega⟩
        · have hp : passed set tag i := ⟨l, hl, hv, ht⟩
          have hrec : ∃ m1 li1, get_status_loop set tag n (i + 1) m1 li1 = some (CACHE_HIT, r) := by
            by_cases hf : l.frequency < m
            · exact ⟨_, _, by simpa [hv, ht, hf] using h⟩
            · exact ⟨_, _, by simpa [hv, ht, hf] using h⟩
          obtain ⟨m1, li1, hrec⟩ := hrec
          obtain ⟨h1, h2, h3, h4⟩ := ih (i + 1) m1 li1 r hrec
          refine ⟨by omega, by omega, h3, fun j hj1 hj2 => ?_⟩
          by_cases hji : j = i
          · subst hji; exact hp
          · exact h4 j (by omega) hj2

/-- Scan over lines that are all passed: the result is CONFLICT_MISS, and the index is either the
carried candidate (nothing seen was strictly below `m`) or the first line that reaches the least
frequency seen, which is then strictly below `m`. -/
theorem get_status_loop_conflict {set : List cache_line_t} {tag : Int} (n : Nat) :
    ∀ (i m li : Nat), (∀ j, i ≤ j → j < i + n → passed set tag j) →
      ∃ r, get_status_loop set tag n i m li = some (CONFLICT_MISS, r) ∧
        ((r = li ∧ ∀ j l, i ≤ j → j < i + n → set[j]? = some l → m ≤ l.frequency) ∨
         (i ≤ r ∧ r < i + n ∧ ∃ v, set[r]? = some v ∧ v.frequency < m ∧
            (∀ j l, i ≤ j → j < r → set[j]? = some l → v.frequency < l.frequency) ∧
            (∀ j l, i ≤ j → j < i + n → set[j]? = some l → v.frequency ≤ l.frequency))) := by
  induction n with
  | zero =>
    intro i m li _
    exact ⟨li, by simp [get_status_loop], Or.inl ⟨rfl, fun j l h1 h2 => by omega⟩⟩
  | succ n ih =>
    intro i m li hpass
    obtain ⟨l, hl, hv, ht⟩ := hpass i le_rfl (by omega)
    have hpass1 : ∀ j, i + 1 ≤ j → j < i + 1 + n → passed set tag j :=
      fun j h1 h2 => hpass j (by omega) (by omega)
    by_cases hf : l.frequency < m
    · obtain ⟨r, hr, hcase⟩ := ih (i + 1) l.frequency i hpass1
      refine ⟨r, by simpa [get_status_loop, hl, hv, ht, hf] using hr, Or.inr ?_⟩
      rcases hcase with ⟨hri, hmin⟩ | ⟨h1, h2, v, hv1, hv2, hv3, hv4⟩
      · subst hri
        refine ⟨le_rfl, by omega, l, hl, hf, fun j w h1 h2 => by omega, fun j w h1 h2 hw => ?_⟩
        by_cases hji : j = r
        · subst hji; rw [hl] at hw; cases hw; exact le_rfl
        · exact hmin j w (by omega) (by omega) hw
      · refine ⟨by omega, by omega, v, hv1, by omega, fun j w h3 h4 hw => ?_,
          fun j w h3 h4 hw => ?_⟩
        · by_cases hji : j = i
          · subst hji; rw [hl] at hw; cases hw; exact hv2
          · exact hv3 j w (by omega) h4 hw
        · by_cases hji : j = i
          · subst hji; rw [hl] at hw; cases hw; exact le_of_lt hv2
          · exact hv4 j w (by omega) (by omega) hw
    · obtain ⟨r, hr, hcase⟩ := ih (i + 1) m li hpass1
      refine ⟨r, by simpa [get_status_loop, hl, hv, ht, hf] using hr, ?_⟩
      rcases hcase with ⟨hri, hmin⟩ | ⟨h1, h2, v, hv1, hv2, hv3, hv4⟩
      · refine Or.inl ⟨hri, fun j w h1 h2 hw => ?_⟩
        by_cases hji : j = i
        · subst hji; rw [hl] at hw; cases hw; omega
        · exact hmin j w (by omega) (by omega) hw
      · refine Or.inr ⟨by omega, by omega, v, hv1, hv2, fun j w h3 h4 hw => ?_,
          fun j w h3 h4 hw => ?_⟩
        · by_cases hji : j = i
          · subst hji; rw [hl] at hw; cases hw; omega
          · exact hv3 j w (by omega) h4 hw
        · by_cases hji : j = i
          · subst hji; rw [hl] at hw; cases hw; omega
          · exact hv4 j w (by omega) (by omega) hw

theorem get_status_loop_inv {set : List cache_line_t} {tag : Int} (n : Nat) :
    ∀ (i m li st r : Nat), get_status_loop set tag n i m li = some (st, r) →
      (st = COLD_MISS ∧ i ≤ r ∧ r < i + n ∧ (∃ l, set[r]? = some l ∧ l.valid = 0) ∧
          ∀ j, i ≤ j → j < r → passed set tag j) ∨
      (st = CACHE_HIT ∧ i ≤ r ∧ r < i + n ∧ (∃ l, set[r]? = some l ∧ l.valid ≠ 0 ∧ l.tag = tag) ∧
          ∀ j, i ≤ j → j < r → passed set tag j) ∨
      (st = CONFLICT_MISS ∧ (r = li ∨ (i ≤ r ∧ r < i + n)) ∧
          ∀ j, i ≤ j → j < i + n → passed set tag j) := by
  induction n with
  | zero =>
    intro i m li st r h
    simp only [get_status_loop, Option.some.injEq, Prod.mk.injEq] at h
    exact Or.inr (Or.inr ⟨h.1.symm, Or.inl h.2.symm, fun j h1 h2 => by omega⟩)
  | succ n ih =>
    intro i m li st r h
    rw [get_status_loop] at h
    cases hl : set[i]? with
    | none => simp [hl] at h
    | some l =>
      simp only [hl] at h
      by_cases hv : l.valid = 0
      · simp only [hv, if_true, Option.some.injEq, Prod.mk.injEq] at h
        obtain ⟨h1, h2⟩ := h
        subst h1 h2
        exact Or.inl ⟨rfl, le_rfl, by omega, ⟨l, hl, hv⟩, fun j h1 h2 => by omega⟩
      · by_cases ht : l.tag = tag
        · simp only [hv, ht, if_false, if_true, Option.some.injEq, Prod.mk.injEq] at h
          obtain ⟨h1, h2⟩ := h
          subst h1 h2
          exact Or.inr (Or.inl ⟨rfl, le_rfl, by omega, ⟨l, hl, hv, ht⟩, fun j h1 h2 => by omega⟩)
        · have hp : passed set tag i := ⟨l, hl, hv, ht⟩
          have hext : ∀ r1, (∀ j, i + 1 ≤ j → j < r1 → passed set tag j) →
              ∀ j, i ≤ j → j < r1 → passed set tag j := by
            intro r1 hq j h1 h2
            by_cases hji : j = i
            · subst hji; exact hp
            · exact hq j (by omega) h2
          have hrec : ∃ m1 li1, (li1 = li ∨ li1 = i) ∧
              get_status_loop set tag n (i + 1) m1 li1 = some (st, r) := by
            by_cases hf : l.frequency < m
            · exact ⟨_, _, Or.inr rfl, by simpa [hv, ht, hf] using h⟩
            · exact ⟨_, _, Or.inl rfl, by simpa [hv, ht, hf] using h⟩
          obtain ⟨m1, li1, hli1, hrec⟩ := hrec
          rcases ih (i + 1) m1 li1 st r hrec with ⟨h1, h2, h3, h4, h5⟩ | ⟨h1, h2, h3, h4, h5⟩ |
            ⟨h1, h2, h5⟩
          · exact Or.inl ⟨h1, by omega, by omega, h4, hext r h5⟩
          · exact Or.inr (Or.inl ⟨h1, by omega, by omega, h4, hext r h5⟩)
          · refine Or.inr (Or.inr ⟨h1, ?_, fun j hj1 hj2 => hext (i + 1 + n) h5 j hj1 (by omega)⟩)
            rcases h2 with h2 | h2
            · rcases hli1 with h6 | h6
              · exact Or.inl (h2.trans h6)
              · exact Or.inr ⟨by omega, by omega⟩
            · exact Or.inr ⟨by omega, by omega⟩

theorem get_status_loop_total (set : List cache_line_t) (tag : Int) (n : Nat) :
    ∀ (i m li : Nat), i + n ≤ set.length →
      ∃ p, get_status_loop set tag n i m li = some p := by
  induction n with
  | zero => intro i m li _; exact ⟨_, rfl⟩
  | succ n ih =>
    intro i m li h
    have hi : i < set.length := by omega
    rw [get_status_loop, List.getElem?_eq_getElem hi]
    simp only
    split_ifs
    · exact ⟨_, rfl⟩
    · exact ⟨_, rfl⟩
    · exact ih _ _ _ (by omega)
    · exact ih _ _ _ (by omega)

theorem get_status_eq_loop {set : List cache_line_t} (h : 0 < set.length) (n : Nat) (tag : Int) :
    get_status set n tag = get_status_loop set tag n 0 (set[0]).frequency 0 := by
  simp [get_status, List.getElem?_eq_getElem h]

/-- On a set of `E ≥ 1` lines `get_status` always returns, and what it returns says how far the
scan went. -/
theorem get_status_cases {set : List cache_line_t} (tag : Int) (h : 0 < set.length) :
    ∃ st r, get_status set set.length tag = some (st, r) ∧ r < set.length ∧
      ((st = COLD_MISS ∧ (∃ l, set[r]? = some l ∧ l.valid = 0) ∧
          ∀ j, j < r → passed set tag j) ∨
       (st = CACHE_HIT ∧ (∃ l, set[r]? = some l ∧ l.valid ≠ 0 ∧ l.tag = tag) ∧
          ∀ j, j < r → passed set tag j) ∨
       (st = CONFLICT_MISS ∧ ∀ j, j < set.length → passed set tag j)) := by
  obtain ⟨⟨st, r⟩, hp⟩ :=
    get_status_loop_total set tag set.length 0 (set[0]).frequency 0 (by omega)
  refine ⟨st, r, by rw [get_status_eq_loop h, hp], ?_⟩
  rcases get_status_loop_inv _ _ _ _ _ _ hp with ⟨h1, _, h3, h4, h5⟩ | ⟨h1, _, h3, h4, h5⟩ |
    ⟨h1, h2, h5⟩
  · exact ⟨by omega, Or.inl ⟨h1, h4, fun j hj => h5 j (by omega) hj⟩⟩
  · exact ⟨by omega, Or.inr (Or.inl ⟨h1, h4, fun j hj => h5 j (by omega) hj⟩)⟩
  · exact ⟨by omega, Or.inr (Or.inr ⟨h1, fun j hj => h5 j (by omega) (by omega)⟩)⟩

/-! ## Lemmas: line fill -/

theorem load_natCast {α : Type} (xs : List α) (i : Nat) : load xs (i : Int) = xs[i]? := by
  simp [load]

theorem store_natCast {α : Type} (xs : List α) (i : Nat) (v : α) (h : i < xs.length) :
    store xs (i : Int) v = some (xs.set i v) := by
  simp [store, h]

theorem tmod_ne_zero_iff_emod (off B : Int) : off.tmod B ≠ 0 ↔ off % B ≠ 0 := by
  constructor
  · intro h hc
    exact h (Int.tmod_eq_zero_of_dvd (Int.dvd_of_emod_eq_zero hc))
  · intro h hc
    exact h (Int.emod_eq_zero_of_dvd (Int.dvd_of_tmod_eq_zero hc))

theorem emod_pred (off B : Int) (hB : 0 < B) (h : off % B ≠ 0) :
    (off - 1) % B = off % B - 1 := by
  have h0 : 0 ≤ off % B := Int.emod_nonneg _ (ne_of_gt hB)
  have h1 : off % B < B := Int.emod_lt_of_pos _ hB
  have h2 : off - 1 = (off % B - 1) + B * (off / B) := by
    have := Int.emod_add_ediv off B
    omega
  rw [h2, Int.add_mul_emod_self_left]
  exact Int.emod_eq_of_lt (by omega) (by omega)

/-- The alignment loop stops, with enough fuel, at the greatest multiple of `B` below `off`. -/
theorem align_loop_eq (B : Int) (hB : 0 < B) (fuel : Nat) :
    ∀ off : Int, (off % B).toNat ≤ fuel → align_loop B fuel off = some (off - off % B) := by
  induction fuel with
  | zero =>
    intro off h
    have h0 : 0 ≤ off % B := Int.emod_nonneg _ (ne_of_gt hB)
    have hz : off % B = 0 := by omega
    have : ¬ off.tmod B ≠ 0 := fun hc => (tmod_ne_zero_iff_emod off B).mp hc hz
    simp [align_loop, this, hz]
  | succ fuel ih =>
    intro off h
    have h0 : 0 ≤ off % B := Int.emod_nonneg _ (ne_of_gt hB)
    rw [align_loop]
    by_cases hz : off % B = 0
    · have : ¬ off.tmod B ≠ 0 := fun hc => (tmod_ne_zero_iff_emod off B).mp hc hz
      simp [this, hz]
    · have hp := emod_pred off B hB hz
      rw [if_pos ((tmod_ne_zero_iff_emod off B).mpr hz), ih (off - 1) (by omega), hp]
      congr 1
      omega

theorem copy_loop_spec (start : List Nat) (off : Nat) (n : Nat) :
    ∀ (i : Nat) (block : List Nat), off + i + n ≤ start.length → i + n ≤ block.length →
      ∃ block1, copy_loop start (off : Int) n i block = some block1 ∧
        block1.length = block.length ∧
        ∀ k, block1[k]? = if i ≤ k ∧ k < i + n then start[off + k]? else block[k]? := by
  induction n with
  | zero =>
    intro i block _ _
    exact ⟨block, rfl, rfl, fun k => by rw [if_neg (by omega)]⟩
  | succ n ih =>
    intro i block h1 h2
    have hs : off + i < start.length := by omega
    have hi : i < block.length := by omega
    obtain ⟨block1, hb1, hb2, hb3⟩ := ih (i + 1) (block.set i start[off + i])
      (by omega) (by rw [List.length_set]; omega)
    refine ⟨block1, ?_, by rw [hb2, List.length_set], fun k => ?_⟩
    · rw [copy_loop, show ((off : Int) + (i : Int)) = ((off + i : Nat) : Int) by push_cast; rfl,
        load_natCast, List.getElem?_eq_getElem hs, Option.some_bind, store_natCast _ _ _ hi,
        Option.some_bind, hb1]
    · rw [hb3 k, List.getElem?_set]
      by_cases hk : i = k
      · subst hk
        simp [hi, List.getElem?_eq_getElem hs]
      · by_cases hk1 : i + 1 ≤ k ∧ k < i + 1 + n
        · rw [if_pos hk1, if_pos (by omega)]
        · rw [if_neg hk1, if_neg hk, if_neg (by omega)]

/-- Fill of a line whose block has `2 ^ b` bytes from an aligned block inside the memory. -/
theorem insert_data_to_block_spec (line : cache_line_t) (start : List Nat) (o b : Nat) (tag : Int)
    (hb : b < 31) (hlen : line.block.length = 2 ^ b)
    (hin : o - o % 2 ^ b + 2 ^ b ≤ start.length) :
    ∃ line1, insert_data_to_block line start (o : Int) b tag = some line1 ∧
      line1.valid = 1 ∧ line1.frequency = 1 ∧ line1.tag = tag ∧
      line1.block.length = 2 ^ b ∧
      ∀ k, k < 2 ^ b → line1.block[k]? = start[o - o % 2 ^ b + k]? := by
  have hB : (0 : Int) < 2 ^ b := by positivity
  have hBn : ((2 : Int) ^ b).toNat = 2 ^ b := by
    rw [show ((2 : Int) ^ b) = ((2 ^ b : Nat) : Int) by push_cast; rfl, Int.toNat_ofNat]
  have hmod : ((o : Int) % 2 ^ b) = ((o % 2 ^ b : Nat) : Int) := by push_cast; rfl
  have hlt : o % 2 ^ b < 2 ^ b := Nat.mod_lt _ (by positivity)
  have hal := align_loop_eq (2 ^ b) hB (2 ^ b) (o : Int) (by rw [hmod, Int.toNat_ofNat]; omega)
  have hle : o % 2 ^ b ≤ o := Nat.mod_le _ _
  have hoff : (o : Int) - (o : Int) % 2 ^ b = ((o - o % 2 ^ b : Nat) : Int) := by
    rw [hmod]; omega
  obtain ⟨block1, hc1, hc2, hc3⟩ := copy_loop_spec start (o - o % 2 ^ b) (2 ^ b) 0 line.block
    (by omega) (by omega)
  refine ⟨{ valid := 1, frequency := 1, tag := tag, block := block1 }, ?_, rfl, rfl, rfl,
    by simp only; omega, fun k hk => ?_⟩
  · simp only [insert_data_to_block, shl_one_of_lt hb, Option.some_bind, hBn, hal, hoff, hc1]
  · simp only [hc3 k]
    rw [if_pos (by omega)]

/-! ## Lemmas: lookup, read and write -/

theorem wf_cache_set {c : cache_t} (hwf : wf_cache c) (o : Nat) :
    ∃ set, c.cache[o / 2 ^ c.b % 2 ^ c.s]? = some set ∧ set.length = c.E ∧ 0 < set.length ∧
      ∀ l ∈ set, l.block.length = 2 ^ c.b := by
  obtain ⟨hE, hS, hsets⟩ := hwf
  have hlt : o / 2 ^ c.b % 2 ^ c.s < c.cache.length := by
    rw [hS]; exact Nat.mod_lt _ (by positivity)
  refine ⟨c.cache[o / 2 ^ c.b % 2 ^ c.s], List.getElem?_eq_getElem hlt, ?_⟩
  obtain ⟨h1, h2⟩ := hsets _ (List.getElem_mem hlt)
  exact ⟨h1, by omega, h2⟩

theorem extract_bts_from_address_small (o s t b : Nat) (h : o < 2 ^ 31) :
    extract_bts_from_address (o : Int) s t b zero_record
      = some { offset := ((o % 2 ^ b : Nat) : Int)
               set_index := ((o / 2 ^ b % 2 ^ s : Nat) : Int)
               tag := ((o / 2 ^ (b + s) : Nat) : Int) } :=
  extract_bts_from_address_eq o s t b
    (lt_of_le_of_lt (Nat.mod_le _ _) h)
    (lt_of_le_of_lt ((Nat.mod_le _ _).trans (Nat.div_le_self _ _)) h)
    (lt_of_le_of_lt (Nat.div_le_self _ _) h)

/-- Under the shape invariant the common first lines of `read_byte` and `write_byte` succeed. -/
theorem lookup_spec {c : cache_t} (hwf : wf_cache c) (o : Nat) (ho : o < 2 ^ 31) :
    ∃ set st r line,
      extract_bts_from_address (o : Int) c.s c.t c.b zero_record
        = some { offset := ((o % 2 ^ c.b : Nat) : Int)
                 set_index := ((o / 2 ^ c.b % 2 ^ c.s : Nat) : Int)
                 tag := ((o / 2 ^ (c.b + c.s) : Nat) : Int) } ∧
      c.cache[o / 2 ^ c.b % 2 ^ c.s]? = some set ∧
      set.length = c.E ∧ (∀ l ∈ set, l.block.length = 2 ^ c.b) ∧
      get_status set c.E ((o / 2 ^ (c.b + c.s) : Nat) : Int) = some (st, r) ∧
      set[r]? = some line ∧ line.block.length = 2 ^ c.b ∧
      ((st = COLD_MISS ∧ line.valid = 0 ∧
          ∀ j, j < r → passed set ((o / 2 ^ (c.b + c.s) : Nat) : Int) j) ∨
       (st = CACHE_HIT ∧ line.valid ≠ 0 ∧ line.tag = ((o / 2 ^ (c.b + c.s) : Nat) : Int) ∧
          ∀ j, j < r → passed set ((o / 2 ^ (c.b + c.s) : Nat) : Int) j) ∨
       (st = CONFLICT_MISS ∧
          ∀ j, j < set.length → passed set ((o / 2 ^ (c.b + c.s) : Nat) : Int) j)) := by
  obtain ⟨set, hset, hlen, hpos, hblk⟩ := wf_cache_set hwf o
  obtain ⟨st, r, hst, hr, hcase⟩ := get_status_cases ((o / 2 ^ (c.b + c.s) : Nat) : Int) hpos
  rw [hlen] at hst
  have hline : set[r]? = some set[r] := List.getElem?_eq_getElem hr
  refine ⟨set, st, r, set[r], extract_bts_from_address_small o _ _ _ ho, hset, hlen, hblk, hst,
    hline, hblk _ (List.getElem_mem hr), ?_⟩
  rcases hcase with ⟨h1, ⟨l, hl, hv⟩, h3⟩ | ⟨h1, ⟨l, hl, hv, ht⟩, h3⟩ | ⟨h1, h3⟩
  · rw [hline] at hl; cases hl
    exact Or.inl ⟨h1, hv, h3⟩
  · rw [hline] at hl; cases hl
    exact Or.inr (Or.inl ⟨h1, hv, ht, h3⟩)
  · exact Or.inr (Or.inr ⟨h1, h3⟩)

theorem status_ne : CACHE_HIT ≠ COLD_MISS ∧ CACHE_HIT ≠ CONFLICT_MISS ∧ COLD_MISS ≠ CONFLICT_MISS := by
  decide

/-- Write-through for a call whose address record starts zeroed. For every cache of the allocated
shape, every memory buffer (sized by an `int`, as the driver allocates it) and every in-bounds
offset `o` and byte `v`, `write_byte` returns, and the memory it leaves is the old memory with
position `o` set to `v`: position `o` holds `v` and every other byte is unchanged, whichever of
the three statuses the access was given. -/
theorem write_byte_write_through_zeroed (c : cache_t) (start : List Nat) (o v : Nat)
    (hwf : wf_cache c) (ho : o < start.length) (hlen : start.length < 2 ^ 31) :
    ∃ w, write_byte c start (o : Int) v zero_record = some w ∧
      (w.status = CACHE_HIT ∨ w.status = COLD_MISS ∨ w.status = CONFLICT_MISS) ∧
      w.start = start.set o v ∧ w.start[o]? = some v ∧ ∀ k, k ≠ o → w.start[k]? = start[k]? := by
  obtain ⟨set, st, r, line, hext, hset, -, -, hst, hline, hblen, hcase⟩ :=
    lookup_spec hwf o (by omega)
  have hoff : o % 2 ^ c.b < line.block.length := by
    rw [hblen]; exact Nat.mod_lt _ (by positivity)
  have hmem : ∀ k, k ≠ o → (start.set o v)[k]? = start[k]? := by
    intro k hk
    rw [List.getElem?_set, if_neg (fun h => hk h.symm)]
  by_cases hhit : st = CACHE_HIT
  · refine ⟨_, by
      simp only [write_byte, hext, Option.some_bind, load_natCast, hset, hst, hhit, if_true,
        hline, store_natCast _ _ _ hoff, store_natCast _ _ _ ho]; rfl, ?_, rfl,
      List.getElem?_set_self ho, hmem⟩
    exact Or.inl rfl
  · refine ⟨_, by
      simp only [write_byte, hext, Option.some_bind, load_natCast, hset, hst, hhit, if_false,
        store_natCast _ _ _ ho]; rfl, ?_, rfl, List.getElem?_set_self ho, hmem⟩
    rcases hcase with ⟨h1, _⟩ | ⟨h1, _⟩ | ⟨h1, _⟩
    · exact Or.inr (Or.inl h1)
    · exact absurd h1 hhit
    · exact Or.inr (Or.inr h1)

theorem read_byte_unfold {junk : address_t} (c : cache_t) (start : List Nat) (off : Int) (a : address_t)
    (set : List cache_line_t) (st r : Nat) (line : cache_line_t)
    (hext : extract_bts_from_address off c.s c.t c.b junk = some a)
    (hset : load c.cache a.set_index = some set)
    (hst : get_status set c.E a.tag = some (st, r)) (hline : set[r]? = some line) :
    read_byte c start off junk =
      (if st = COLD_MISS ∨ st = CONFLICT_MISS then insert_data_to_block line start off c.b a.tag
        else if st = CACHE_HIT then some (incr_frequency line)
        else some line).bind fun line1 =>
      (load line1.block a.offset).bind fun byte =>
      some { byte := byte
             cache := put_line c set a.set_index r line1
             status := st
             addr := a
             line_index := r } := by
  simp only [read_byte, hext, Option.some_bind, hset, hst, hline]

theorem line_at_put_line (c : cache_t) (set : List cache_line_t) (si r : Nat)
    (line1 : cache_line_t) (hsi : si < c.cache.length) (hr : r < set.length) :
    line_at (put_line c set (si : Int) r line1) (si : Int) r = some line1 := by
  simp [line_at, put_line, load_natCast, List.getElem?_set_self hsi, List.getElem?_set_self hr]

theorem block_bound {b : Nat} {start : List Nat} {o : Nat} (hlen : start.length < 2 ^ 31)
    (hin : o - o % 2 ^ b + 2 ^ b ≤ start.length) : b < 31 ∧ o < start.length := by
  have h1 : 2 ^ b < 2 ^ 31 := by omega
  have h2 : o % 2 ^ b < 2 ^ b := Nat.mod_lt _ (by positivity)
  have h3 : o % 2 ^ b ≤ o := Nat.mod_le _ _
  exact ⟨(Nat.pow_lt_pow_iff_right (by norm_num : 1 < 2)).mp h1, by omega⟩

/-- A read with the aligned block inside the memory: what `read_byte` returns, in terms of the
set, the line picked by `get_status` and the line that replaces it. -/
theorem read_byte_spec {c : cache_t} (hwf : wf_cache c) (start : List Nat) (o : Nat)
    (hlen : start.length < 2 ^ 31) (hin : o - o % 2 ^ c.b + 2 ^ c.b ≤ start.length) :
    ∃ set st r line line1 byte,
      c.cache[o / 2 ^ c.b % 2 ^ c.s]? = some set ∧
      set.length = c.E ∧ (∀ l ∈ set, l.block.length = 2 ^ c.b) ∧
      get_status set c.E ((o / 2 ^ (c.b + c.s) : Nat) : Int) = some (st, r) ∧
      set[r]? = some line ∧
      read_byte c start (o : Int) zero_record = some
        { byte := byte
          cache := put_line c set ((o / 2 ^ c.b % 2 ^ c.s : Nat) : Int) r line1
          status := st
          addr := { offset := ((o % 2 ^ c.b : Nat) : Int)
                    set_index := ((o / 2 ^ c.b % 2 ^ c.s : Nat) : Int)
                    tag := ((o / 2 ^ (c.b + c.s) : Nat) : Int) }
          line_index := r } ∧
      line1.block.length = 2 ^ c.b ∧ line1.block[o % 2 ^ c.b]? = some byte ∧
      line1.valid ≠ 0 ∧ line1.tag = ((o / 2 ^ (c.b + c.s) : Nat) : Int) ∧
      (∀ j, j < r → passed set ((o / 2 ^ (c.b + c.s) : Nat) : Int) j) ∧
      ((st = CACHE_HIT ∧ line1 = incr_frequency line) ∨
       ((st = COLD_MISS ∨ st = CONFLICT_MISS) ∧ line1.valid = 1 ∧ line1.frequency = 1 ∧
          ∀ k, k < 2 ^ c.b → line1.block[k]? = start[o - o % 2 ^ c.b + k]?)) := by
  obtain ⟨hb, ho⟩ := block_bound hlen hin
  obtain ⟨set, st, r, line, hext, hset, hsl, hblk, hst, hline, hblen, hcase⟩ :=
    lookup_spec hwf o (by omega)
  have hunf := read_byte_unfold c start (o : Int) _ set st r line hext
    (by rw [load_natCast]; exact hset) hst hline
  have hoff : o % 2 ^ c.b < 2 ^ c.b := Nat.mod_lt _ (by positivity)
  have hrlt : r < set.length := by
    by_contra hc
    rw [List.getElem?_eq_none (by omega)] at hline
    cases hline
  have hpass : ∀ j, j < r → passed set ((o / 2 ^ (c.b + c.s) : Nat) : Int) j := by
    rcases hcase with ⟨_, _, h⟩ | ⟨_, _, _, h⟩ | ⟨_, h⟩
    · exact h
    · exact h
    · exact fun j hj => h j (by omega)
  have hmiss : st = COLD_MISS ∨ st = CONFLICT_MISS →
      ∃ line1 byte, read_byte c start (o : Int) zero_record = some
        { byte := byte
          cache := put_line c set ((o / 2 ^ c.b % 2 ^ c.s : Nat) : Int) r line1
          status := st
          addr := { offset := ((o % 2 ^ c.b : Nat) : Int)
                    set_index := ((o / 2 ^ c.b % 2 ^ c.s : Nat) : Int)
                    tag := ((o / 2 ^ (c.b + c.s) : Nat) : Int) }
          line_index := r } ∧
        line1.block.length = 2 ^ c.b ∧ line1.block[o % 2 ^ c.b]? = some byte ∧
        line1.valid ≠ 0 ∧ line1.tag = ((o / 2 ^ (c.b + c.s) : Nat) : Int) ∧
        line1.valid = 1 ∧ line1.frequency = 1 ∧
        ∀ k, k < 2 ^ c.b → line1.block[k]? = start[o - o % 2 ^ c.b + k]? := by
    intro hm
    obtain ⟨line1, hins, hv, hf, ht, hl, hcopy⟩ :=
      insert_data_to_block_spec line start o c.b ((o / 2 ^ (c.b + c.s) : Nat) : Int) hb hblen hin
    have hbyte : line1.block[o % 2 ^ c.b]? = some (line1.block[o % 2 ^ c.b]) :=
      List.getElem?_eq_getElem (by omega)
    refine ⟨line1, line1.block[o % 2 ^ c.b], ?_, hl, hbyte, by omega, ht, hv, hf, hcopy⟩
    rw [hunf, if_pos hm, hins, Option.some_bind, load_natCast, hbyte, Option.some_bind]
  rcases hcase with ⟨h1, _, _⟩ | ⟨h1, hv, ht, _⟩ | ⟨h1, _⟩
  · obtain ⟨line1, byte, e1, e2, e3, e4, e5, e6, e7, e8⟩ := hmiss (Or.inl h1)
    exact ⟨set, st, r, line, line1, byte, hset, hsl, hblk, hst, hline, e1, e2, e3, e4, e5, hpass,
      Or.inr ⟨Or.inl h1, e6, e7, e8⟩⟩
  · have hbyte : (incr_frequency line).block[o % 2 ^ c.b]? = some (line.block[o % 2 ^ c.b]) :=
      List.getElem?_eq_getElem (l := line.block) (by omega)
    refine ⟨set, st, r, line, incr_frequency line, line.block[o % 2 ^ c.b], hset, hsl, hblk, hst,
      hline, ?_, hblen, hbyte, hv, ht, hpass, Or.inl ⟨h1, rfl⟩⟩
    have hne : ¬ (st = COLD_MISS ∨ st = CONFLICT_MISS) := by
      rw [h1]; decide
    rw [hunf, if_neg hne, if_pos h1, Option.some_bind, load_natCast, hbyte, Option.some_bind]
  · obtain ⟨line1, byte, e1, e2, e3, e4, e5, e6, e7, e8⟩ := hmiss (Or.inr h1)
    exact ⟨set, st, r, line, line1, byte, hset, hsl, hblk, hst, hline, e1, e2, e3, e4, e5, hpass,
      Or.inr ⟨Or.inr h1, e6, e7, e8⟩⟩

/-- Line fill on a read miss, for a call whose address record starts zeroed. For every cache of
the allocated shape and every offset whose aligned block lies inside the memory (a buffer sized by
an `int`), `read_byte` returns, and when the access was classified COLD_MISS or CONFLICT_MISS the
selected line of the selected set afterwards has valid = 1, frequency = 1, the tag of the offset
and a block of `2 ^ b` bytes with `block[k] = mem[blockStart + k]`, where `blockStart = off - off
mod 2 ^ b`. -/
theorem read_byte_miss_fills_line (c : cache_t) (start : List Nat) (o : Nat)
    (hwf : wf_cache c) (hlen : start.length < 2 ^ 31)
    (hin : o - o % 2 ^ c.b + 2 ^ c.b ≤ start.length) :
    ∃ r, read_byte c start (o : Int) zero_record = some r ∧
      r.addr.set_index = ((o / 2 ^ c.b % 2 ^ c.s : Nat) : Int) ∧
      r.addr.tag = ((o / 2 ^ (c.b + c.s) : Nat) : Int) ∧
      (r.status = COLD_MISS ∨ r.status = CONFLICT_MISS →
        ∃ line, line_at r.cache r.addr.set_index r.line_index = some line ∧
          line.valid = 1 ∧ line.frequency = 1 ∧ line.tag = r.addr.tag ∧
          line.block.length = 2 ^ c.b ∧
          ∀ k, k < 2 ^ c.b → line.block[k]? = start[o - o % 2 ^ c.b + k]? ∧
            o - o % 2 ^ c.b + k < start.length) := by
  obtain ⟨set, st, r, line, line1, byte, hset, hsl, hblk, hst, hline, hread, hbl, hbyte, hv, ht,
    hpass, hcase⟩ := read_byte_spec hwf start o hlen hin
  refine ⟨_, hread, rfl, rfl, fun hm => ?_⟩
  have hsi : o / 2 ^ c.b % 2 ^ c.s < c.cache.length := by
    by_contra hc
    rw [List.getElem?_eq_none (by omega)] at hset
    cases hset
  have hr : r < set.length := by
    by_contra hc
    rw [List.getElem?_eq_none (by omega)] at hline
    cases hline
  rcases hcase with ⟨h1, _⟩ | ⟨_, h2, h3, h4⟩
  · exfalso
    simp only at hm
    rw [h1] at hm
    revert hm
    decide
  · refine ⟨line1, line_at_put_line c set _ r line1 hsi hr, h2, h3, ht, hbl, fun k hk => ?_⟩
    exact ⟨h4 k hk, by omega⟩

/-! ## Classification by get_status and address decoding -/

/-- Claim C3 (eviction correctness). For every set of `E ≥ 1` lines that are all valid and none of
whose tags equals the target tag, `get_status` returns CONFLICT_MISS, and the returned index `i`
is the smallest index whose frequency is at most the frequency of every line of the set: line `i`
has the least frequency, and every index that has the least frequency is at least `i`. -/
theorem get_status_evicts_min_frequency (set : List cache_line_t) (E : Nat) (tag : Int)
    (hE : 0 < E) (hlen : set.length = E) (hfull : ∀ l ∈ set, l.valid ≠ 0 ∧ l.tag ≠ tag) :
    ∃ i v, get_status set E tag = some (CONFLICT_MISS, i) ∧ i < E ∧ set[i]? = some v ∧
      (∀ l ∈ set, v.frequency ≤ l.frequency) ∧
      (∀ j w, set[j]? = some w → (∀ l ∈ set, w.frequency ≤ l.frequency) → i ≤ j) := by
  subst hlen
  have hpass : ∀ j, 0 ≤ j → j < 0 + set.length → passed set tag j := by
    intro j _ hj
    have hj2 : j < set.length := by omega
    exact ⟨set[j], List.getElem?_eq_getElem hj2, hfull _ (List.getElem_mem hj2)⟩
  have hidx : ∀ l ∈ set, ∃ j, j < set.length ∧ set[j]? = some l := by
    intro l hl
    obtain ⟨j, hj, rfl⟩ := List.getElem_of_mem hl
    exact ⟨j, hj, List.getElem?_eq_getElem hj⟩
  obtain ⟨r, hr, hcase⟩ := get_status_loop_conflict set.length 0 (set[0]).frequency 0 hpass
  rw [← get_status_eq_loop hE] at hr
  rcases hcase with ⟨hr0, hmin⟩ | ⟨_, h2, v, hv1, _, hv3, hv4⟩
  · subst hr0
    refine ⟨0, set[0], hr, hE, List.getElem?_eq_getElem hE, fun l hl => ?_, fun j w _ _ => by omega⟩
    obtain ⟨j, hj, hjl⟩ := hidx l hl
    exact hmin j l (by omega) (by omega) hjl
  · refine ⟨r, v, hr, by omega, hv1, fun l hl => ?_, fun j w hw hwmin => ?_⟩
    · obtain ⟨j, hj, hjl⟩ := hidx l hl
      exact hv4 j l (by omega) (by omega) hjl
    · by_contra hc
      have h3 := hv3 j w (by omega) (by omega) hw
      have h4 := hwmin v (List.getElem?_mem hv1)
      omega

/-- Witness for C3: in `full_set` (frequencies 4, 2, 2) the victim is line 1, the first of the two
lines of least frequency. -/
theorem get_status_evicts_min_frequency_witness :
    0 < 3 ∧ full_set.length = 3 ∧ (∀ l ∈ full_set, l.valid ≠ 0 ∧ l.tag ≠ 5) ∧
    ∃ i v, get_status full_set 3 5 = some (CONFLICT_MISS, i) ∧ i < 3 ∧ full_set[i]? = some v ∧
      (∀ l ∈ full_set, v.frequency ≤ l.frequency) ∧
      (∀ j w, full_set[j]? = some w → (∀ l ∈ full_set, w.frequency ≤ l.frequency) → i ≤ j) :=
  ⟨by decide, by decide, by decide,
    get_status_evicts_min_frequency full_set 3 5 (by decide) (by decide) (by decide)⟩

/-- Claim C4 (address round trip), evaluated where it breaks. At `dec_addr = 2^31` with
`s = t = b = 0` the tag loop reaches `i = 31` with the last bit set and evaluates `1 << 31`, which
is not an `int`: whatever the record held, the call yields no triple, so none with
`o = tag * 2^(s+b) + set_index * 2^b + offset`. And the fields are only added to: decoded into a
record in which `malloc` left `(2, 1, 4)`, the address 5 comes out as `(2, 1, 9)`, which is no
decomposition of 5. -/
theorem extract_bts_from_address_at_two_pow_31 :
    (∀ junk, extract_bts_from_address 2147483648 0 0 0 junk = none) ∧
    (∀ junk, ¬ ∃ a, extract_bts_from_address 2147483648 0 0 0 junk = some a ∧
      (2147483648 : Int) = a.tag * 2 ^ (0 + 0) + a.set_index * 2 ^ 0 + a.offset) ∧
    extract_bts_from_address 5 0 0 0 ⟨2, 1, 4⟩ = some { offset := 2, set_index := 1, tag := 9 } ∧
    (5 : Int) ≠ 9 * 2 ^ (0 + 0) + 1 * 2 ^ 0 + 2 := by
  have h : ∀ junk, extract_bts_from_address 2147483648 0 0 0 junk = none := by
    intro junk
    simp [extract_bts_from_address, extract_field, extract_tag, shl_one, Int.tmod, Int.tdiv]
  refine ⟨h, ?_, by decide, by decide⟩
  rintro junk ⟨a, ha, -⟩
  rw [h junk] at ha
  cases ha

/-- The parameter `t` does not enter the computation of `extract_bts_from_address`. -/
theorem extract_bts_from_address_t_unused (dec_addr : Int) (s t1 t2 b : Nat) (junk : address_t) :
    extract_bts_from_address dec_addr s t1 b junk = extract_bts_from_address dec_addr s t2 b junk :=
  rfl

/-- Claim C5 (exact decomposition arithmetic), evaluated where it breaks. With `b = 32` the offset
loop adds `1 << 31` for bit 31 of `dec_addr = 2^31`, and with `s = b = 1` the tag loop adds
`1 << 31` for bit 33 of `dec_addr = 2^33`: whatever the record held, the call yields neither
`offset = o mod 2^b` nor `tag = o div 2^(b+s)`. Below that range, decoded into a zeroed record,
the fields are exact and the tag is not cut to `t` bits: 1023 with `s = 1`, `t = 2`, `b = 2` gives
offset 3, set index 1 and tag 127. Decoded into a record in which `malloc` left the tag 4, the
same address gives tag 131. -/
theorem extract_bts_from_address_field_overflow :
    (∀ junk, extract_bts_from_address 2147483648 0 0 32 junk = none) ∧
    (∀ junk, ¬ ∃ a, extract_bts_from_address 2147483648 0 0 32 junk = some a ∧
      a.offset = 2147483648 % 2 ^ 32) ∧
    (∀ junk, extract_bts_from_address 8589934592 1 0 1 junk = none) ∧
    (∀ junk, ¬ ∃ a, extract_bts_from_address 8589934592 1 0 1 junk = some a ∧
      a.tag = 8589934592 / 2 ^ (1 + 1)) ∧
    extract_bts_from_address 1023 1 2 2 zero_record
      = some { offset := 3, set_index := 1, tag := 127 } ∧
    extract_bts_from_address 1023 1 2 2 ⟨0, 0, 4⟩
      = some { offset := 3, set_index := 1, tag := 131 } := by
  have h1 : ∀ junk, extract_bts_from_address 2147483648 0 0 32 junk = none := by
    intro junk
    simp [extract_bts_from_address, extract_field, extract_tag, shl_one, Int.tmod, Int.tdiv]
  have h2 : ∀ junk, extract_bts_from_address 8589934592 1 0 1 junk = none := by
    intro junk
    simp [extract_bts_from_address, extract_field, extract_tag, shl_one, Int.tmod, Int.tdiv]
  refine ⟨h1, ?_, h2, ?_, by decide, by decide⟩
  · rintro junk ⟨a, ha, -⟩
    rw [h1 junk] at ha
    cases ha
  · rintro junk ⟨a, ha, -⟩
    rw [h2 junk] at ha
    cases ha

/-- Claim C9 (invalid-line short-circuit). If line `i < E` is invalid and every line before it is
valid with another tag, `get_status` returns COLD_MISS with index `i`, whatever the lines after
`i` contain; in particular it does not return CACHE_HIT. -/
theorem get_status_invalid_short_circuit (set : List cache_line_t) (E : Nat) (tag : Int) (i : Nat)
    (hi : i < E) (hinv : ∃ l, set[i]? = some l ∧ l.valid = 0)
    (hbefore : ∀ j, j < i → ∃ l, set[j]? = some l ∧ l.valid ≠ 0 ∧ l.tag ≠ tag) :
    get_status set E tag = some (COLD_MISS, i) ∧
      ∀ r, get_status set E tag ≠ some (CACHE_HIT, r) := by
  have hpos : 0 < set.length := by
    obtain ⟨l, hl, _⟩ := hinv
    by_contra hc
    rw [List.getElem?_eq_none (by omega)] at hl
    cases hl
  have h := get_status_loop_cold set tag E 0 (set[0]).frequency 0 i hi
    (fun j _ hj => hbefore j (by omega)) (by simpa using hinv)
  rw [← get_status_eq_loop hpos, Nat.zero_add] at h
  refine ⟨h, fun r hr => ?_⟩
  rw [h] at hr
  revert hr
  simp [COLD_MISS, CACHE_HIT]

/-- Witness for C9: in `gap_set` line 1 is invalid and line 2 is valid with the target tag 7; the
result is COLD_MISS at index 1. -/
theorem get_status_invalid_short_circuit_witness :
    1 < 3 ∧ (∃ l, gap_set[1]? = some l ∧ l.valid = 0) ∧
    (∃ l, gap_set[2]? = some l ∧ l.valid ≠ 0 ∧ l.tag = 7) ∧
    get_status gap_set 3 7 = some (COLD_MISS, 1) ∧
    ∀ r, get_status gap_set 3 7 ≠ some (CACHE_HIT, r) :=
  ⟨by decide, ⟨⟨0, 0, 0, [0]⟩, by decide, by decide⟩,
    ⟨⟨1, 3, 7, [0]⟩, by decide, by decide, by decide⟩,
    get_status_invalid_short_circuit gap_set 3 7 1 (by decide)
      ⟨⟨0, 0, 0, [0]⟩, by decide, by decide⟩
      (fun j hj => by
        have hj0 : j = 0 := by omega
        subst hj0
        exact ⟨⟨1, 1, 5, [0]⟩, by decide, by decide, by decide⟩)⟩

/-- Claim C10 (hit classification). For every set of `E` lines and target tag, `get_status`
returns CACHE_HIT with index `i` if and only if line `i` is valid with the target tag and every
line before it is valid with another tag. The three status codes are pairwise different, and on a
set with at least one line `get_status` returns exactly one pair, whose status is one of the
three. -/
theorem get_status_hit_iff (set : List cache_line_t) (E : Nat) (tag : Int)
    (hlen : set.length = E) :
    (∀ i, get_status set E tag = some (CACHE_HIT, i) ↔
      ((∃ l, set[i]? = some l ∧ l.valid ≠ 0 ∧ l.tag = tag) ∧
        ∀ j, j < i → ∃ l, set[j]? = some l ∧ l.valid ≠ 0 ∧ l.tag ≠ tag)) ∧
    (CACHE_HIT ≠ COLD_MISS ∧ CACHE_HIT ≠ CONFLICT_MISS ∧ COLD_MISS ≠ CONFLICT_MISS) ∧
    (0 < E → ∃ st i, get_status set E tag = some (st, i) ∧ i < E ∧
      (∀ p, get_status set E tag = some p → p = (st, i)) ∧
      (st = CACHE_HIT ∨ st = COLD_MISS ∨ st = CONFLICT_MISS)) := by
  subst hlen
  refine ⟨fun i => ⟨fun h => ?_, fun h => ?_⟩, status_ne, fun hE => ?_⟩
  · have hpos : 0 < set.length := by
      by_contra hc
      have h0 : set[0]? = none := List.getElem?_eq_none (by omega)
      simp [get_status, h0] at h
    rw [get_status_eq_loop hpos] at h
    obtain ⟨_, _, h3, h4⟩ := get_status_loop_hit_inv _ _ _ _ _ h
    exact ⟨h3, fun j hj => h4 j (by omega) hj⟩
  · obtain ⟨⟨l, hl, hv, ht⟩, hbefore⟩ := h
    have hilt : i < set.length := by
      by_contra hc
      rw [List.getElem?_eq_none (by omega)] at hl
      cases hl
    have h := get_status_loop_hit set tag set.length 0 (set[0]).frequency 0 i
      hilt (fun j _ hj => hbefore j (by omega)) ⟨l, by simpa using hl, hv, ht⟩
    rw [← get_status_eq_loop (by omega), Nat.zero_add] at h
    exact h
  · obtain ⟨st, r, hst, hr, hcase⟩ := get_status_cases tag hE
    refine ⟨st, r, hst, hr, fun p hp => ?_, ?_⟩
    · rw [hst] at hp
      cases hp
      rfl
    · rcases hcase with ⟨h1, _⟩ | ⟨h1, _⟩ | ⟨h1, _⟩
      · exact Or.inr (Or.inl h1)
      · exact Or.inl h1
      · exact Or.inr (Or.inr h1)

/-- Witness for C10: in `pair_set` the target tag 7 is found on line 1. -/
theorem get_status_hit_iff_witness :
    pair_set.length = 2 ∧ get_status pair_set 2 7 = some (CACHE_HIT, 1) ∧
    ∃ st i, get_status pair_set 2 7 = some (st, i) ∧ i < 2 ∧
      (∀ p, get_status pair_set 2 7 = some p → p = (st, i)) ∧
      (st = CACHE_HIT ∨ st = COLD_MISS ∨ st = CONFLICT_MISS) :=
  ⟨by decide,
    ((get_status_hit_iff pair_set 2 7 (by decide)).1 1).2
      ⟨⟨⟨1, 3, 7, [0]⟩, by decide, by decide, by decide⟩, fun j hj => by
        have hj0 : j = 0 := by omega
        subst hj0
        exact ⟨⟨1, 1, 5, [0]⟩, by decide, by decide, by decide⟩⟩,
    (get_status_hit_iff pair_set 2 7 (by decide)).2.2 (by decide)⟩

/-! ## Repeated reads, write misses, frequency counting -/

theorem set_eq_self_of_getElem? {α : Type} (xs : List α) (i : Nat) (x : α)
    (h : xs[i]? = some x) : xs.set i x = xs := by
  apply List.ext_getElem?
  intro k
  rw [List.getElem?_set]
  by_cases hk : i = k
  · subst hk
    have hi : i < xs.length := by
      by_contra hc
      rw [List.getElem?_eq_none (by omega)] at h
      cases h
    rw [if_pos rfl, if_pos hi, h]
  · rw [if_neg hk]

theorem getElem?_some_lt {α : Type} {xs : List α} {i : Nat} {x : α} (h : xs[i]? = some x) :
    i < xs.length := by
  by_contra hc
  rw [List.getElem?_eq_none (by omega)] at h
  cases h

theorem put_line_cache (c : cache_t) (set : List cache_line_t) (si r : Nat)
    (line1 : cache_line_t) :
    (put_line c set (si : Int) r line1).cache = c.cache.set si (set.set r line1) := rfl

theorem line_at_natCast (c : cache_t) (si r : Nat) :
    line_at c (si : Int) r = (c.cache[si]?).bind fun set => set[r]? := by
  rw [line_at, load_natCast]

theorem wf_put_line {c : cache_t} (hwf : wf_cache c) (set : List cache_line_t) (si r : Nat)
    (line1 : cache_line_t) (hset : c.cache[si]? = some set)
    (hbl : line1.block.length = 2 ^ c.b) :
    wf_cache (put_line c set (si : Int) r line1) := by
  obtain ⟨hE, hS, hsets⟩ := hwf
  obtain ⟨hsl, hsb⟩ := hsets set (List.getElem?_mem hset)
  refine ⟨hE, by simp [put_line, hS], fun set1 hmem => ?_⟩
  simp only [put_line, Int.toNat_ofNat] at hmem
  rcases List.mem_or_eq_of_mem_set hmem with h | h
  · exact hsets set1 h
  · subst h
    refine ⟨by rw [List.length_set]; exact hsl, fun l hl => ?_⟩
    rcases List.mem_or_eq_of_mem_set hl with h2 | h2
    · exact hsb l h2
    · subst h2; exact hbl

theorem contents_put_line_incr (c : cache_t) (set : List cache_line_t) (si r : Nat)
    (line : cache_line_t) (hset : c.cache[si]? = some set) (hline : set[r]? = some line) :
    contents (put_line c set (si : Int) r (incr_frequency line)) = contents c := by
  simp only [contents, put_line, Int.toNat_ofNat, List.map_set, incr_frequency]
  have h1 : (set.map fun l => (l.valid, l.tag, l.block)).set r (line.valid, line.tag, line.block)
      = set.map fun l => (l.valid, l.tag, l.block) :=
    set_eq_self_of_getElem? _ _ _ (by rw [List.getElem?_map, hline]; rfl)
  rw [h1]
  exact set_eq_self_of_getElem? _ _ _ (by rw [List.getElem?_map, hset]; rfl)

theorem get_status_hit_of {set : List cache_line_t} {tag : Int} {i : Nat} {l : cache_line_t}
    (hbefore : ∀ j, j < i → passed set tag j) (hl : set[i]? = some l) (hv : l.valid ≠ 0)
    (ht : l.tag = tag) : get_status set set.length tag = some (CACHE_HIT, i) := by
  have hilt := getElem?_some_lt hl
  have h := get_status_loop_hit set tag set.length 0 (set[0]).frequency 0 i
    hilt (fun j _ hj => hbefore j (by omega)) ⟨l, by simpa using hl, hv, ht⟩
  rw [← get_status_eq_loop (by omega), Nat.zero_add] at h
  exact h

/-- A read in a `hit_ready` state is a hit on line `i`, returns `byte`, changes only the
frequency of that line and leaves a `hit_ready` state. -/
theorem read_byte_hit_step {s b : Nat} {c : cache_t} {o i byte f : Nat} (start : List Nat)
    (ho : o < 2 ^ 31) (h : hit_ready s b c o i byte f) :
    ∃ r, read_byte c start (o : Int) zero_record = some r ∧ r.status = CACHE_HIT ∧ r.line_index = i ∧
      r.byte = byte ∧ contents r.cache = contents c ∧
      r.addr.set_index = ((o / 2 ^ b % 2 ^ s : Nat) : Int) ∧
      line_at r.cache ((o / 2 ^ b % 2 ^ s : Nat) : Int) i
        = (line_at c ((o / 2 ^ b % 2 ^ s : Nat) : Int) i).map incr_frequency ∧
      hit_ready s b r.cache o i byte ((f + 1) % 256) := by
  obtain ⟨hwf, hs, hb, set, l, hset, hbefore, hl, hv, ht, hbyte, hf⟩ := h
  subst hs hb
  have hsl : set.length = c.E := (hwf.2.2 set (List.getElem?_mem hset)).1
  have hst := get_status_hit_of hbefore hl hv ht
  rw [hsl] at hst
  have hunf := read_byte_unfold c start (o : Int) _ set CACHE_HIT i l
    (extract_bts_from_address_small o c.s c.t c.b ho) (by rw [load_natCast]; exact hset) hst hl
  have hne : ¬ (CACHE_HIT = COLD_MISS ∨ CACHE_HIT = CONFLICT_MISS) := by decide
  have hbyte2 : (incr_frequency l).block[o % 2 ^ c.b]? = some byte := hbyte
  rw [if_neg hne, if_pos rfl, Option.some_bind, load_natCast, hbyte2, Option.some_bind] at hunf
  have hsi := getElem?_some_lt hset
  have hil := getElem?_some_lt hl
  refine ⟨_, hunf, rfl, rfl, rfl, contents_put_line_incr c set _ i l hset hl, rfl, ?_, ?_⟩
  · simp only
    rw [line_at_put_line c set _ i _ hsi hil, line_at_natCast, hset, Option.some_bind, hl]
    rfl
  · refine ⟨wf_put_line hwf set _ i _ hset ((hwf.2.2 set (List.getElem?_mem hset)).2 l
        (List.getElem?_mem hl)), rfl, rfl, set.set i (incr_frequency l), incr_frequency l, ?_, ?_,
      List.getElem?_set_self hil, hv, ht, hbyte, ?_⟩
    · rw [put_line_cache, List.getElem?_set_self hsi]
    · intro j hj
      obtain ⟨w, hw, hwv, hwt⟩ := hbefore j hj
      exact ⟨w, by rw [List.getElem?_set, if_neg (by omega)]; exact hw, hwv, hwt⟩
    · simp [incr_frequency, hf]

theorem read_again_hits {s b : Nat} {o i byte : Nat} (start : List Nat) (ho : o < 2 ^ 31)
    (k : Nat) : ∀ (c : cache_t) (f : Nat), f < 256 → hit_ready s b c o i byte f →
      ∃ ck, read_again start (o : Int) zero_record k c = some ck ∧ contents ck = contents c ∧
        hit_ready s b ck o i byte ((f + k) % 256) := by
  induction k with
  | zero =>
    intro c f hf h
    refine ⟨c, rfl, rfl, ?_⟩
    rw [Nat.add_zero, Nat.mod_eq_of_lt hf]
    exact h
  | succ k ih =>
    intro c f _ h
    obtain ⟨r, hr, -, -, -, hc, -, -, hready⟩ := read_byte_hit_step start ho h
    obtain ⟨ck, hck, hcc, hready2⟩ := ih r.cache _ (Nat.mod_lt _ (by norm_num)) hready
    refine ⟨ck, by rw [read_again, hr, Option.some_bind, hck], hcc.trans hc, ?_⟩
    have : ((f + 1) % 256 + k) % 256 = (f + (k + 1)) % 256 := by omega
    rw [this] at hready2
    exact hready2

/-- The first read at `o`, whatever its status, leaves a `hit_ready` state for `o`. -/
theorem read_byte_makes_hit_ready {c : cache_t} (hwf : wf_cache c) (start : List Nat) (o : Nat)
    (hlen : start.length < 2 ^ 31) (hin : o - o % 2 ^ c.b + 2 ^ c.b ≤ start.length) :
    ∃ r1 f, read_byte c start (o : Int) zero_record = some r1 ∧ f < 256 ∧
      r1.addr.set_index = ((o / 2 ^ c.b % 2 ^ c.s : Nat) : Int) ∧
      (r1.status = COLD_MISS ∨ r1.status = CONFLICT_MISS → f = 1) ∧
      hit_ready c.s c.b r1.cache o r1.line_index r1.byte f := by
  obtain ⟨set, st, r, line, line1, byte, hset, hsl, hblk, hst, hline, hread, hbl, hbyte, hv, ht,
    hpass, hcase⟩ := read_byte_spec hwf start o hlen hin
  have hsi := getElem?_some_lt hset
  have hr := getElem?_some_lt hline
  have hready : hit_ready c.s c.b
      (put_line c set ((o / 2 ^ c.b % 2 ^ c.s : Nat) : Int) r line1) o r byte line1.frequency := by
    refine ⟨wf_put_line hwf set _ r _ hset hbl, rfl, rfl, set.set r line1, line1, ?_, ?_,
      List.getElem?_set_self hr, hv, ht, hbyte, rfl⟩
    · rw [put_line_cache, List.getElem?_set_self hsi]
    · intro j hj
      obtain ⟨w, hw, hwv, hwt⟩ := hpass j hj
      exact ⟨w, by rw [List.getElem?_set, if_neg (by omega)]; exact hw, hwv, hwt⟩
  refine ⟨_, line1.frequency, hread, ?_, rfl, fun hm => ?_, hready⟩
  · rcases hcase with ⟨_, h2⟩ | ⟨_, _, h3, _⟩
    · rw [h2]
      exact Nat.mod_lt _ (by norm_num)
    · omega
  · rcases hcase with ⟨h1, _⟩ | ⟨_, _, h3, _⟩
    · exfalso
      simp only at hm
      rw [h1] at hm
      revert hm
      decide
    · exact h3

theorem write_byte_unfold {junk : address_t} (c : cache_t) (start : List Nat) (off : Int) (new : Nat)
    (a : address_t) (set : List cache_line_t) (st r : Nat)
    (hext : extract_bts_from_address off c.s c.t c.b junk = some a)
    (hset : load c.cache a.set_index = some set)
    (hst : get_status set c.E a.tag = some (st, r)) :
    write_byte c start off new junk =
      (if st = CACHE_HIT then
          (set[r]?).bind fun line =>
          (store line.block a.offset new).bind fun block1 =>
          some (put_line c set a.set_index r { incr_frequency line with block := block1 })
        else some c).bind fun cache1 =>
      (store start off new).bind fun start1 =>
      some { cache := cache1
             start := start1
             status := st
             addr := a
             line_index := r } := by
  simp only [write_byte, hext, Option.some_bind, hset, hst]

theorem classify_unfold {junk : address_t} (c : cache_t) (off : Int) (a : address_t) (set : List cache_line_t)
    (hext : extract_bts_from_address off c.s c.t c.b junk = some a)
    (hset : load c.cache a.set_index = some set) :
    classify c off junk = get_status set c.E a.tag := by
  simp only [classify, hext, Option.some_bind, hset]

theorem miss_ne_hit {st : Nat} (h : st = COLD_MISS ∨ st = CONFLICT_MISS) : st ≠ CACHE_HIT := by
  rcases h with h | h <;> rw [h] <;> decide

/-- Write-no-allocate, for calls whose address records start zeroed. For every cache of the
allocated shape and every in-bounds offset, `write_byte` returns, and if the access was classified
COLD_MISS or CONFLICT_MISS the cache it leaves is the cache it was given (no line of any set
changed in valid, frequency, tag or block); a `read_byte` at the same offset issued right after it
(aligned block inside the memory) is classified with the same miss status on the same line, not as
a hit. -/
theorem write_byte_no_allocate (c : cache_t) (start : List Nat) (o v : Nat)
    (hwf : wf_cache c) (ho : o < start.length) (hlen : start.length < 2 ^ 31) :
    ∃ w, write_byte c start (o : Int) v zero_record = some w ∧
      (w.status = COLD_MISS ∨ w.status = CONFLICT_MISS →
        w.cache = c ∧
        (o - o % 2 ^ c.b + 2 ^ c.b ≤ start.length →
          ∃ r, read_byte w.cache w.start (o : Int) zero_record = some r ∧ r.status = w.status ∧
            r.line_index = w.line_index ∧ r.status ≠ CACHE_HIT)) := by
  obtain ⟨set, st, r, line, hext, hset, -, -, hst, hline, hblen, -⟩ :=
    lookup_spec hwf o (by omega)
  have hunf := write_byte_unfold c start (o : Int) v _ set st r hext
    (by rw [load_natCast]; exact hset) hst
  have hoff : o % 2 ^ c.b < line.block.length := by
    rw [hblen]; exact Nat.mod_lt _ (by positivity)
  by_cases hhit : st = CACHE_HIT
  · rw [if_pos hhit, hline, Option.some_bind, store_natCast _ _ _ hoff, Option.some_bind,
      Option.some_bind, store_natCast _ _ _ ho, Option.some_bind] at hunf
    exact ⟨_, hunf, fun hm => absurd hhit (miss_ne_hit hm)⟩
  · rw [if_neg hhit, Option.some_bind, store_natCast _ _ _ ho, Option.some_bind] at hunf
    refine ⟨_, hunf, fun hm => ⟨rfl, fun hin => ?_⟩⟩
    have hlen2 : (start.set o v).length < 2 ^ 31 := by rw [List.length_set]; exact hlen
    have hin2 : o - o % 2 ^ c.b + 2 ^ c.b ≤ (start.set o v).length := by
      rw [List.length_set]; exact hin
    obtain ⟨set2, st2, r2, line2, line1, byte, hset2, -, -, hst2, -, hread, -⟩ :=
      read_byte_spec hwf (start.set o v) o hlen2 hin2
    rw [hset] at hset2
    cases hset2
    rw [hst] at hst2
    cases hst2
    exact ⟨_, hread, rfl, rfl, hhit⟩

/-- Hit idempotence, for calls whose address records start zeroed. For every cache of the
allocated shape (`E ≥ 1`), memory and offset whose aligned block lies inside the memory, the first
`read_byte(o)` returns, and each further `read_byte(o)` with no other access in between (after any
number `k` of such reads) is classified CACHE_HIT on the line index of the first call, returns the
byte of the first call, and leaves the valid bit, tag and block of every line as they were. -/
theorem read_byte_repeated_hits (c : cache_t) (start : List Nat) (o : Nat)
    (hwf : wf_cache c) (hlen : start.length < 2 ^ 31)
    (hin : o - o % 2 ^ c.b + 2 ^ c.b ≤ start.length) :
    ∃ r1, read_byte c start (o : Int) zero_record = some r1 ∧
      ∀ k, ∃ ck r, read_again start (o : Int) zero_record k r1.cache = some ck ∧
        read_byte ck start (o : Int) zero_record = some r ∧
        r.status = CACHE_HIT ∧ r.line_index = r1.line_index ∧ r.byte = r1.byte ∧
        contents r.cache = contents ck ∧ contents ck = contents r1.cache := by
  obtain ⟨hb, ho⟩ := block_bound hlen hin
  obtain ⟨r1, f, hr1, hf, -, -, hready⟩ := read_byte_makes_hit_ready hwf start o hlen hin
  refine ⟨r1, hr1, fun k => ?_⟩
  obtain ⟨ck, hck, hcc, hready2⟩ := read_again_hits start (by omega) k r1.cache f hf hready
  obtain ⟨r, hr, h1, h2, h3, h4, -⟩ := read_byte_hit_step start (by omega) hready2
  exact ⟨ck, r, hck, hr, h1, h2, h3, h4, hcc⟩

/-- Frequency counting modulo 256, for calls whose address records start zeroed. For every cache
of the allocated shape and offset `o` in `int` range: a `read_byte` classified CACHE_HIT on line
`i` returns and leaves that line with frequency `(f + 1) mod 256`, where `f` was its frequency
before, everything else in the line unchanged; this is `f + 1` whenever `f < 255`. Hence a line
that is filled by a miss (aligned block inside the memory) and then hit `k` times in a row has
frequency `(1 + k) mod 256`. -/
theorem read_byte_hit_frequency_zeroed (c : cache_t) (start : List Nat) (o : Nat)
    (hwf : wf_cache c) (ho : o < 2 ^ 31) :
    (∀ i, classify c (o : Int) zero_record = some (CACHE_HIT, i) →
      ∃ r line, read_byte c start (o : Int) zero_record = some r ∧ r.status = CACHE_HIT ∧
        r.line_index = i ∧ line_at c r.addr.set_index i = some line ∧
        line_at r.cache r.addr.set_index i
          = some { line with frequency := (line.frequency + 1) % 256 } ∧
        (line.frequency < 255 → (line.frequency + 1) % 256 = line.frequency + 1)) ∧
    (start.length < 2 ^ 31 → o - o % 2 ^ c.b + 2 ^ c.b ≤ start.length →
      ∃ r1, read_byte c start (o : Int) zero_record = some r1 ∧
        (r1.status = COLD_MISS ∨ r1.status = CONFLICT_MISS →
          ∀ k, ∃ ck l, read_again start (o : Int) zero_record k r1.cache = some ck ∧
            line_at ck r1.addr.set_index r1.line_index = some l ∧
            l.frequency = (1 + k) % 256)) := by
  constructor
  · intro i hcl
    obtain ⟨set, st, r, line, hext, hset, -, -, hst, hline, hblen, hcase⟩ := lookup_spec hwf o ho
    rw [classify_unfold c (o : Int) _ set hext (by rw [load_natCast]; exact hset), hst] at hcl
    cases hcl
    rcases hcase with ⟨h1, _⟩ | ⟨_, hv, ht, hbefore⟩ | ⟨h1, _⟩
    · exact absurd h1.symm (miss_ne_hit (Or.inl rfl))
    · have hoff : o % 2 ^ c.b < line.block.length := by
        rw [hblen]; exact Nat.mod_lt _ (by positivity)
      have hready : hit_ready c.s c.b c o i (line.block[o % 2 ^ c.b]) line.frequency :=
        ⟨hwf, rfl, rfl, set, line, hset, hbefore, hline, hv, ht, List.getElem?_eq_getElem hoff,
          rfl⟩
      obtain ⟨res, hres, h1, h2, -, -, h5, h6, -⟩ := read_byte_hit_step start ho hready
      have hla : line_at c ((o / 2 ^ c.b % 2 ^ c.s : Nat) : Int) i = some line := by
        rw [line_at_natCast, hset, Option.some_bind, hline]
      rw [hla] at h6
      refine ⟨res, line, hres, h1, h2, by rw [h5]; exact hla, by rw [h5]; exact h6, fun hlt => ?_⟩
      exact Nat.mod_eq_of_lt (by omega)
    · exact absurd h1.symm (miss_ne_hit (Or.inr rfl))
  · intro hlen hin
    obtain ⟨r1, f, hr1, -, hsi, hf1, hready⟩ := read_byte_makes_hit_ready hwf start o hlen hin
    refine ⟨r1, hr1, fun hm k => ?_⟩
    have hf : f = 1 := hf1 hm
    subst hf
    obtain ⟨ck, hck, -, -, -, -, set, l, h1, -, h2, -, -, -, h3⟩ :=
      read_again_hits start ho k r1.cache 1 (by norm_num) hready
    refine ⟨ck, l, hck, ?_, h3⟩
    obtain ⟨-, hs, hb, -⟩ := hready
    rw [hsi, line_at_natCast, h1, Option.some_bind, h2]

/-! ## Instances on concrete states -/

/-- Counterexample to C8 as stated: in `full_counter_cache` the line has frequency 255; the read
at offset 0 is a CACHE_HIT and leaves it with frequency 0, not 256. -/
theorem read_byte_hit_wraps_at_255 :
    (line_at full_counter_cache 0 0).map (fun l => l.frequency) = some 255 ∧
    (read_byte full_counter_cache [7] 0 zero_record).map (fun r => r.status) = some CACHE_HIT ∧
    (read_byte full_counter_cache [7] 0 zero_record).bind
      (fun r => (line_at r.cache 0 0).map (fun l => l.frequency)) = some 0 ∧
    ¬ ((read_byte full_counter_cache [7] 0 zero_record).bind
      (fun r => (line_at r.cache 0 0).map (fun l => l.frequency)) = some (255 + 1)) := by
  decide

/-! ## Inversion: what a returning call has done -/

theorem load_some_iff {α : Type} {xs : List α} {i : Int} {x : α} (h : load xs i = some x) :
    ∃ k : Nat, i = (k : Int) ∧ xs[k]? = some x := by
  unfold load at h
  by_cases hi : 0 ≤ i
  · rw [if_pos hi] at h
    exact ⟨i.toNat, (Int.toNat_of_nonneg hi).symm, h⟩
  · rw [if_neg hi] at h
    cases h

theorem store_some_iff {α : Type} {xs : List α} {i : Int} {v : α} {ys : List α}
    (h : store xs i v = some ys) :
    ∃ k : Nat, i = (k : Int) ∧ k < xs.length ∧ ys = xs.set k v := by
  unfold store at h
  by_cases hi : 0 ≤ i ∧ i.toNat < xs.length
  · rw [if_pos hi] at h
    cases h
    exact ⟨i.toNat, (Int.toNat_of_nonneg hi.1).symm, hi.2, rfl⟩
  · rw [if_neg hi] at h
    cases h

theorem copy_loop_length (start : List Nat) (off : Int) (n : Nat) :
    ∀ (i : Nat) (block block1 : List Nat), copy_loop start off n i block = some block1 →
      block1.length = block.length := by
  induction n with
  | zero =>
    intro i block block1 h
    simp only [copy_loop, Option.some.injEq] at h
    rw [h]
  | succ n ih =>
    intro i block block1 h
    rw [copy_loop] at h
    cases hl : load start (off + i) with
    | none => rw [hl] at h; cases h
    | some v =>
      rw [hl, Option.some_bind] at h
      cases hs : store block (i : Int) v with
      | none => rw [hs] at h; cases h
      | some block2 =>
        rw [hs, Option.some_bind] at h
        obtain ⟨k, -, -, hk⟩ := store_some_iff hs
        rw [ih _ _ _ h, hk, List.length_set]

theorem insert_data_to_block_inv {line : cache_line_t} {start : List Nat} {off : Int} {b : Nat}
    {tag : Int} {line1 : cache_line_t}
    (h : insert_data_to_block line start off b tag = some line1) :
    line1.valid = 1 ∧ line1.frequency = 1 ∧ line1.tag = tag ∧
      line1.block.length = line.block.length := by
  unfold insert_data_to_block at h
  cases hB : shl_one b with
  | none => rw [hB] at h; cases h
  | some B =>
    rw [hB, Option.some_bind] at h
    cases ha : align_loop B B.toNat off with
    | none => rw [ha] at h; cases h
    | some off1 =>
      rw [ha, Option.some_bind] at h
      cases hc : copy_loop start off1 B.toNat 0 line.block with
      | none => rw [hc] at h; cases h
      | some block1 =>
        rw [hc, Option.some_bind] at h
        cases h
        exact ⟨rfl, rfl, rfl, copy_loop_length _ _ _ _ _ _ hc⟩

theorem get_status_status {set : List cache_line_t} {E : Nat} {tag : Int} {st r : Nat}
    (h : get_status set E tag = some (st, r)) :
    st = COLD_MISS ∨ st = CACHE_HIT ∨ st = CONFLICT_MISS := by
  unfold get_status at h
  cases h0 : set[0]? with
  | none => rw [h0] at h; cases h
  | some l0 =>
    rw [h0] at h
    rcases get_status_loop_inv _ _ _ _ _ _ h with ⟨h1, _⟩ | ⟨h1, _⟩ | ⟨h1, _⟩
    · exact Or.inl h1
    · exact Or.inr (Or.inl h1)
    · exact Or.inr (Or.inr h1)

/-- What a returning `read_byte` has done: it replaced line `line_index` of the decoded set by
`line1`, which is the filled line on a miss and the old line with its frequency incremented on a
hit. -/
theorem read_byte_inv {junk : address_t} {c : cache_t} {start : List Nat} {off : Int} {r : read_outcome}
    (h : read_byte c start off junk = some r) :
    ∃ (si : Nat) (set : List cache_line_t) (line line1 : cache_line_t),
      extract_bts_from_address off c.s c.t c.b junk = some r.addr ∧
      r.addr.set_index = (si : Int) ∧ c.cache[si]? = some set ∧
      get_status set c.E r.addr.tag = some (r.status, r.line_index) ∧
      set[r.line_index]? = some line ∧
      r.cache = put_line c set (si : Int) r.line_index line1 ∧
      load line1.block r.addr.offset = some r.byte ∧
      line1.block.length = line.block.length ∧
      (((r.status = COLD_MISS ∨ r.status = CONFLICT_MISS) ∧
          insert_data_to_block line start off c.b r.addr.tag = some line1) ∨
       (r.status = CACHE_HIT ∧ line1 = incr_frequency line)) := by
  unfold read_byte at h
  cases hext : extract_bts_from_address off c.s c.t c.b junk with
  | none => rw [hext] at h; cases h
  | some a =>
    rw [hext, Option.some_bind] at h
    cases hset : load c.cache a.set_index with
    | none => rw [hset] at h; cases h
    | some set =>
      rw [hset, Option.some_bind] at h
      cases hst : get_status set c.E a.tag with
      | none => rw [hst] at h; cases h
      | some p =>
        obtain ⟨st, li⟩ := p
        rw [hst, Option.some_bind] at h
        simp only at h
        cases hline : set[li]? with
        | none => rw [hline] at h; cases h
        | some line =>
          rw [hline, Option.some_bind] at h
          obtain ⟨si, hsi, hsi2⟩ := load_some_iff hset
          have key : ∀ line1, load line1.block a.offset = some r.byte →
              r = { byte := r.byte, cache := put_line c set a.set_index li line1, status := st,
                    addr := a, line_index := li } →
              line1.block.length = line.block.length →
              (((st = COLD_MISS ∨ st = CONFLICT_MISS) ∧
                  insert_data_to_block line start off c.b a.tag = some line1) ∨
                (st = CACHE_HIT ∧ line1 = incr_frequency line)) →
              ∃ (si : Nat) (set : List cache_line_t) (line line1 : cache_line_t),
                some a = some r.addr ∧
                r.addr.set_index = (si : Int) ∧ c.cache[si]? = some set ∧
                get_status set c.E r.addr.tag = some (r.status, r.line_index) ∧
                set[r.line_index]? = some line ∧
                r.cache = put_line c set (si : Int) r.line_index line1 ∧
                load line1.block r.addr.offset = some r.byte ∧
                line1.block.length = line.block.length ∧
                (((r.status = COLD_MISS ∨ r.status = CONFLICT_MISS) ∧
                    insert_data_to_block line start off c.b r.addr.tag = some line1) ∨
                 (r.status = CACHE_HIT ∧ line1 = incr_frequency line)) := by
            intro line1 hb hr hlen hcase
            rw [hr]
            exact ⟨si, set, line, line1, rfl, hsi, hsi2, hst, hline, by rw [hsi], hb, hlen, hcase⟩
          by_cases hm : st = COLD_MISS ∨ st = CONFLICT_MISS
          · rw [if_pos hm] at h
            cases hins : insert_data_to_block line start off c.b a.tag with
            | none => rw [hins] at h; cases h
            | some line1 =>
              rw [hins, Option.some_bind] at h
              cases hb : load line1.block a.offset with
              | none => rw [hb] at h; cases h
              | some byte =>
                rw [hb, Option.some_bind] at h
                cases h
                exact key line1 hb rfl (insert_data_to_block_inv hins).2.2.2 (Or.inl ⟨hm, hins⟩)
          · have hhit : st = CACHE_HIT := by
              rcases get_status_status hst with h1 | h1 | h1
              · exact absurd (Or.inl h1) hm
              · exact h1
              · exact absurd (Or.inr h1) hm
            rw [if_neg hm, if_pos hhit, Option.some_bind] at h
            cases hb : load (incr_frequency line).block a.offset with
            | none => rw [hb] at h; cases h
            | some byte =>
              rw [hb, Option.some_bind] at h
              cases h
              exact key (incr_frequency line) hb rfl rfl (Or.inr ⟨hhit, rfl⟩)

/-- What a returning `write_byte` has done: it stored `new` at `off` in the memory, and on a hit
it replaced the hit line by the same line with frequency incremented and block byte set; on a
miss it left the cache as it was. -/
theorem write_byte_inv {junk : address_t} {c : cache_t} {start : List Nat} {off : Int} {new : Nat}
    {w : write_outcome} (h : write_byte c start off new junk = some w) :
    ∃ (si : Nat) (set : List cache_line_t),
      extract_bts_from_address off c.s c.t c.b junk = some w.addr ∧
      w.addr.set_index = (si : Int) ∧ c.cache[si]? = some set ∧
      get_status set c.E w.addr.tag = some (w.status, w.line_index) ∧
      store start off new = some w.start ∧
      ((w.status = CACHE_HIT ∧ ∃ line block1, set[w.line_index]? = some line ∧
          store line.block w.addr.offset new = some block1 ∧
          w.cache = put_line c set (si : Int) w.line_index
            { incr_frequency line with block := block1 }) ∨
       ((w.status = COLD_MISS ∨ w.status = CONFLICT_MISS) ∧ w.cache = c)) := by
  unfold write_byte at h
  cases hext : extract_bts_from_address off c.s c.t c.b junk with
  | none => rw [hext] at h; cases h
  | some a =>
    rw [hext, Option.some_bind] at h
    cases hset : load c.cache a.set_index with
    | none => rw [hset] at h; cases h
    | some set =>
      rw [hset, Option.some_bind] at h
      cases hst : get_status set c.E a.tag with
      | none => rw [hst] at h; cases h
      | some p =>
        obtain ⟨st, li⟩ := p
        rw [hst, Option.some_bind] at h
        simp only at h
        obtain ⟨si, hsi, hsi2⟩ := load_some_iff hset
        by_cases hhit : st = CACHE_HIT
        · rw [if_pos hhit] at h
          cases hline : set[li]? with
          | none => rw [hline] at h; cases h
          | some line =>
            rw [hline, Option.some_bind] at h
            cases hb : store line.block a.offset new with
            | none => rw [hb] at h; cases h
            | some block1 =>
              rw [hb, Option.some_bind, Option.some_bind] at h
              cases hs : store start off new with
              | none => rw [hs] at h; cases h
              | some start1 =>
                rw [hs, Option.some_bind] at h
                cases h
                exact ⟨si, set, rfl, hsi, hsi2, hst, rfl,
                  Or.inl ⟨hhit, line, block1, hline, hb, by rw [hsi]⟩⟩
        · rw [if_neg hhit, Option.some_bind] at h
          cases hs : store start off new with
          | none => rw [hs] at h; cases h
          | some start1 =>
            rw [hs, Option.some_bind] at h
            cases h
            refine ⟨si, set, rfl, hsi, hsi2, hst, rfl, Or.inr ⟨?_, rfl⟩⟩
            rcases get_status_status hst with h1 | h1 | h1
            · exact Or.inl h1
            · exact absurd h1 hhit
            · exact Or.inr h1

/-- Replacing one line leaves every other position as it was. -/
theorem line_at_put_line_other (c : cache_t) (set : List cache_line_t) (si li : Nat)
    (line1 : cache_line_t) (hset : c.cache[si]? = some set) (sj lj : Nat)
    (hne : ¬ (sj = si ∧ lj = li)) :
    line_at (put_line c set (si : Int) li line1) (sj : Int) lj = line_at c (sj : Int) lj := by
  rw [line_at_natCast, line_at_natCast, put_line_cache, List.getElem?_set]
  by_cases hs : si = sj
  · subst hs
    rw [if_pos rfl, if_pos (getElem?_some_lt hset), hset, Option.some_bind, Option.some_bind,
      List.getElem?_set, if_neg (fun h => hne ⟨rfl, h.symm⟩)]
  · rw [if_neg hs]

theorem put_line_shape (c : cache_t) (set : List cache_line_t) (si li : Nat)
    (line1 : cache_line_t) (hset : c.cache[si]? = some set) :
    (put_line c set (si : Int) li line1).s = c.s ∧ (put_line c set (si : Int) li line1).t = c.t ∧
    (put_line c set (si : Int) li line1).b = c.b ∧ (put_line c set (si : Int) li line1).E = c.E ∧
    (put_line c set (si : Int) li line1).cache.length = c.cache.length ∧
    ∀ sj : Nat, ((put_line c set (si : Int) li line1).cache[sj]?).map List.length
      = (c.cache[sj]?).map List.length := by
  refine ⟨rfl, rfl, rfl, rfl, by rw [put_line_cache, List.length_set], fun sj => ?_⟩
  rw [put_line_cache, List.getElem?_set]
  by_cases hs : si = sj
  · subst hs
    rw [if_pos rfl, if_pos (getElem?_some_lt hset), hset]
    simp
  · rw [if_neg hs]

theorem wf_read_byte {junk : address_t} {c : cache_t} {start : List Nat} {off : Int} {r : read_outcome}
    (hwf : wf_cache c) (h : read_byte c start off junk = some r) : wf_cache r.cache := by
  obtain ⟨si, set, line, line1, -, -, hset, -, hline, hc, -, hlen, -⟩ := read_byte_inv h
  rw [hc]
  refine wf_put_line hwf set si _ line1 hset ?_
  rw [hlen]
  exact (hwf.2.2 set (List.getElem?_mem hset)).2 line (List.getElem?_mem hline)

theorem wf_write_byte {junk : address_t} {c : cache_t} {start : List Nat} {off : Int} {new : Nat}
    {w : write_outcome} (hwf : wf_cache c) (h : write_byte c start off new junk = some w) :
    wf_cache w.cache := by
  obtain ⟨si, set, -, -, hset, -, -, hcase⟩ := write_byte_inv h
  rcases hcase with ⟨-, line, block1, hline, hb, hc⟩ | ⟨-, hc⟩
  · rw [hc]
    refine wf_put_line hwf set si _ _ hset ?_
    obtain ⟨k, -, -, hk⟩ := store_some_iff hb
    simp only [incr_frequency]
    rw [hk, List.length_set]
    exact (hwf.2.2 set (List.getElem?_mem hset)).2 line (List.getElem?_mem hline)
  · rw [hc]
    exact hwf

/-! ## Memory, write hits, in-place update, valid bits -/

/-- A write at an in-bounds offset: what `write_byte` returns, in terms of the set and the line
picked by `get_status`. -/
theorem write_byte_spec {c : cache_t} (hwf : wf_cache c) (start : List Nat) (o v : Nat)
    (ho : o < start.length) (hlen : start.length < 2 ^ 31) :
    ∃ set st r line w,
      c.cache[o / 2 ^ c.b % 2 ^ c.s]? = some set ∧
      get_status set c.E ((o / 2 ^ (c.b + c.s) : Nat) : Int) = some (st, r) ∧
      set[r]? = some line ∧ o % 2 ^ c.b < line.block.length ∧
      write_byte c start (o : Int) v zero_record = some w ∧
      w.start = start.set o v ∧ w.status = st ∧ w.line_index = r ∧
      w.addr = { offset := ((o % 2 ^ c.b : Nat) : Int)
                 set_index := ((o / 2 ^ c.b % 2 ^ c.s : Nat) : Int)
                 tag := ((o / 2 ^ (c.b + c.s) : Nat) : Int) } ∧
      ((st = CACHE_HIT ∧ w.cache = put_line c set ((o / 2 ^ c.b % 2 ^ c.s : Nat) : Int) r
          { incr_frequency line with block := line.block.set (o % 2 ^ c.b) v }) ∨
       ((st = COLD_MISS ∨ st = CONFLICT_MISS) ∧ w.cache = c)) := by
  obtain ⟨set, st, r, line, hext, hset, -, -, hst, hline, hblen, hcase⟩ :=
    lookup_spec hwf o (by omega)
  have hunf := write_byte_unfold c start (o : Int) v _ set st r hext
    (by rw [load_natCast]; exact hset) hst
  have hoff : o % 2 ^ c.b < line.block.length := by
    rw [hblen]; exact Nat.mod_lt _ (by positivity)
  by_cases hhit : st = CACHE_HIT
  · rw [if_pos hhit, hline, Option.some_bind, store_natCast _ _ _ hoff, Option.some_bind,
      Option.some_bind, store_natCast _ _ _ ho, Option.some_bind] at hunf
    exact ⟨set, st, r, line, _, hset, hst, hline, hoff, hunf, rfl, rfl, rfl, rfl,
      Or.inl ⟨hhit, rfl⟩⟩
  · rw [if_neg hhit, Option.some_bind, store_natCast _ _ _ ho, Option.some_bind] at hunf
    refine ⟨set, st, r, line, _, hset, hst, hline, hoff, hunf, rfl, rfl, rfl, rfl,
      Or.inr ⟨?_, rfl⟩⟩
    rcases hcase with ⟨h1, _⟩ | ⟨h1, _⟩ | ⟨h1, _⟩
    · exact Or.inl h1
    · exact absurd h1 hhit
    · exact Or.inr h1

theorem only_line_changed_put_line (c : cache_t) (set : List cache_line_t) (si li : Nat)
    (line1 : cache_line_t) (hset : c.cache[si]? = some set) :
    only_line_changed c (put_line c set (si : Int) li line1) (si : Int) li := by
  obtain ⟨h1, h2, h3, h4, h5, h6⟩ := put_line_shape c set si li line1 hset
  refine ⟨h1, h2, h3, h4, h5, h6, fun sj lj hne => ?_⟩
  exact line_at_put_line_other c set si li line1 hset sj lj
    (fun h => hne ⟨by rw [h.1], h.2⟩)

theorem only_line_changed_refl (c : cache_t) (si : Int) (li : Nat) :
    only_line_changed c c si li :=
  ⟨rfl, rfl, rfl, rfl, rfl, fun _ => rfl, fun _ _ _ => rfl⟩

theorem only_line_changed_read {junk : address_t} {c : cache_t} {start : List Nat} {off : Int} {r : read_outcome}
    (h : read_byte c start off junk = some r) :
    only_line_changed c r.cache r.addr.set_index r.line_index := by
  obtain ⟨si, set, line, line1, -, hsi, hset, -, -, hc, -⟩ := read_byte_inv h
  rw [hc, hsi]
  exact only_line_changed_put_line c set si _ line1 hset

theorem only_line_changed_write {junk : address_t} {c : cache_t} {start : List Nat} {off : Int} {new : Nat}
    {w : write_outcome} (h : write_byte c start off new junk = some w) :
    only_line_changed c w.cache w.addr.set_index w.line_index := by
  obtain ⟨si, set, -, hsi, hset, -, -, hcase⟩ := write_byte_inv h
  rcases hcase with ⟨-, line, block1, -, -, hc⟩ | ⟨-, hc⟩
  · rw [hc, hsi]
    exact only_line_changed_put_line c set si _ _ hset
  · rw [hc]
    exact only_line_changed_refl c _ _

/-- Write hit update, for a call whose address record starts zeroed. For every cache of the
allocated shape and every in-bounds offset `o`: a `write_byte` classified CACHE_HIT on line `i`
returns and leaves line `i` with frequency `(f + 1) mod 256` (which is `f + 1` whenever
`f < 255`) and with `block[o mod 2^b] = v`; valid bit, tag and every other block byte of the line
are unchanged. -/
theorem write_byte_hit_update_zeroed (c : cache_t) (start : List Nat) (o v : Nat)
    (hwf : wf_cache c) (ho : o < start.length) (hlen : start.length < 2 ^ 31) (i : Nat)
    (hcl : classify c (o : Int) zero_record = some (CACHE_HIT, i)) :
    ∃ w line, write_byte c start (o : Int) v zero_record = some w ∧ w.status = CACHE_HIT ∧
      w.line_index = i ∧ w.addr.offset = ((o % 2 ^ c.b : Nat) : Int) ∧
      o % 2 ^ c.b < line.block.length ∧
      line_at c w.addr.set_index i = some line ∧
      line_at w.cache w.addr.set_index i
        = some { valid := line.valid
                 frequency := (line.frequency + 1) % 256
                 tag := line.tag
                 block := line.block.set (o % 2 ^ c.b) v } ∧
      (line.frequency < 255 → (line.frequency + 1) % 256 = line.frequency + 1) := by
  obtain ⟨set, st, r, line, w, hset, hst, hline, hoff, hw, -, h3, h4, h5, hcase⟩ :=
    write_byte_spec hwf start o v ho hlen
  have hext := extract_bts_from_address_small o c.s c.t c.b (by omega)
  rw [classify_unfold c (o : Int) _ set hext (by rw [load_natCast]; exact hset), hst] at hcl
  cases hcl
  rcases hcase with ⟨-, hc⟩ | ⟨hm, -⟩
  · refine ⟨w, line, hw, h3, h4, by rw [h5], hoff, ?_, ?_, fun hlt => Nat.mod_eq_of_lt (by omega)⟩
    · rw [h5, line_at_natCast, hset, Option.some_bind, hline]
    · rw [h5, hc, line_at_put_line c set _ i _ (getElem?_some_lt hset) (getElem?_some_lt hline)]
      rfl
  · exact absurd rfl (miss_ne_hit hm)

/-- With a decoded record that indexes inside the cache and the block, and an offset inside the
memory, `write_byte` returns. -/
theorem write_byte_returns {junk : address_t} {c : cache_t} (hwf : wf_cache c) (start : List Nat)
    (o v : Nat) (ho : o < start.length) {a : address_t}
    (hext : extract_bts_from_address (o : Int) c.s c.t c.b junk = some a)
    (hs0 : 0 ≤ a.set_index) (hs1 : a.set_index < 2 ^ c.s)
    (hb0 : 0 ≤ a.offset) (hb1 : a.offset < 2 ^ c.b) :
    ∃ w, write_byte c start (o : Int) v junk = some w := by
  obtain ⟨si, hsi⟩ := Int.eq_ofNat_of_zero_le hs0
  obtain ⟨bo, hbo⟩ := Int.eq_ofNat_of_zero_le hb0
  have hsi1 : si < 2 ^ c.s := by
    have : ((si : Nat) : Int) < ((2 ^ c.s : Nat) : Int) := by rw [← hsi]; push_cast; exact hs1
    exact_mod_cast this
  have hbo1 : bo < 2 ^ c.b := by
    have : ((bo : Nat) : Int) < ((2 ^ c.b : Nat) : Int) := by rw [← hbo]; push_cast; exact hb1
    exact_mod_cast this
  obtain ⟨hE, hS, hsets⟩ := hwf
  have hlt : si < c.cache.length := by rw [hS]; exact hsi1
  have hset : c.cache[si]? = some c.cache[si] := List.getElem?_eq_getElem hlt
  obtain ⟨hl, hblk⟩ := hsets _ (List.getElem_mem hlt)
  obtain ⟨st, r, hst, hr, -⟩ := get_status_cases a.tag (by omega : 0 < (c.cache[si]).length)
  rw [hl] at hst
  have hline : (c.cache[si])[r]? = some (c.cache[si])[r] := List.getElem?_eq_getElem hr
  have hbl : bo < ((c.cache[si])[r]).block.length := by
    rw [hblk _ (List.getElem_mem hr)]; exact hbo1
  rw [write_byte_unfold c start (o : Int) v a c.cache[si] st r hext
    (by rw [hsi, load_natCast]; exact hset) hst, store_natCast _ _ _ ho]
  by_cases hhit : st = CACHE_HIT
  · rw [if_pos hhit, hline, Option.some_bind, hbo, store_natCast _ _ _ hbl]
    exact ⟨_, rfl⟩
  · rw [if_neg hhit]
    exact ⟨_, rfl⟩

/-- With a decoded record that indexes inside the cache and the block, and the aligned block of
the offset inside the memory, `read_byte` returns. -/
theorem read_byte_returns {junk : address_t} {c : cache_t} (hwf : wf_cache c) (start : List Nat)
    (o : Nat) (hlen : start.length < 2 ^ 31) (hin : o - o % 2 ^ c.b + 2 ^ c.b ≤ start.length)
    {a : address_t} (hext : extract_bts_from_address (o : Int) c.s c.t c.b junk = some a)
    (hs0 : 0 ≤ a.set_index) (hs1 : a.set_index < 2 ^ c.s)
    (hb0 : 0 ≤ a.offset) (hb1 : a.offset < 2 ^ c.b) :
    ∃ r, read_byte c start (o : Int) junk = some r := by
  obtain ⟨si, hsi⟩ := Int.eq_ofNat_of_zero_le hs0
  obtain ⟨bo, hbo⟩ := Int.eq_ofNat_of_zero_le hb0
  have hsi1 : si < 2 ^ c.s := by
    have : ((si : Nat) : Int) < ((2 ^ c.s : Nat) : Int) := by rw [← hsi]; push_cast; exact hs1
    exact_mod_cast this
  have hbo1 : bo < 2 ^ c.b := by
    have : ((bo : Nat) : Int) < ((2 ^ c.b : Nat) : Int) := by rw [← hbo]; push_cast; exact hb1
    exact_mod_cast this
  obtain ⟨hb31, -⟩ := block_bound hlen hin
  obtain ⟨hE, hS, hsets⟩ := hwf
  have hlt : si < c.cache.length := by rw [hS]; exact hsi1
  have hset : c.cache[si]? = some c.cache[si] := List.getElem?_eq_getElem hlt
  obtain ⟨hl, hblk⟩ := hsets _ (List.getElem_mem hlt)
  obtain ⟨st, r, hst, hr, -⟩ := get_status_cases a.tag (by omega : 0 < (c.cache[si]).length)
  rw [hl] at hst
  have hline : (c.cache[si])[r]? = some (c.cache[si])[r] := List.getElem?_eq_getElem hr
  have hbl : ((c.cache[si])[r]).block.length = 2 ^ c.b := hblk _ (List.getElem_mem hr)
  rw [read_byte_unfold c start (o : Int) a c.cache[si] st r _ hext
    (by rw [hsi, load_natCast]; exact hset) hst hline]
  by_cases hmiss : st = COLD_MISS ∨ st = CONFLICT_MISS
  · obtain ⟨line1, hins, -, -, -, hl1, -⟩ :=
      insert_data_to_block_spec ((c.cache[si])[r]) start o c.b a.tag hb31 hbl hin
    rw [if_pos hmiss, hins, Option.some_bind, hbo, load_natCast,
      List.getElem?_eq_getElem (by rw [hl1]; exact hbo1), Option.some_bind]
    exact ⟨_, rfl⟩
  · rw [if_neg hmiss]
    by_cases hhit : st = CACHE_HIT
    · rw [if_pos hhit, Option.some_bind, hbo, load_natCast]
      have : bo < (incr_frequency ((c.cache[si])[r])).block.length := by
        show bo < ((c.cache[si])[r]).block.length
        rw [hbl]; exact hbo1
      rw [List.getElem?_eq_getElem this, Option.some_bind]
      exact ⟨_, rfl⟩
    · rw [if_neg hhit, Option.some_bind, hbo, load_natCast,
        List.getElem?_eq_getElem (by rw [hbl]; exact hbo1), Option.some_bind]
      exact ⟨_, rfl⟩

theorem valid_bits_put_line {c : cache_t} (hbits : valid_bits c) (set : List cache_line_t)
    (si li : Nat) (line1 : cache_line_t) (hset : c.cache[si]? = some set)
    (h1 : line1.valid = 0 ∨ line1.valid = 1) :
    valid_bits (put_line c set (si : Int) li line1) := by
  intro set1 hmem l hl
  rw [put_line_cache] at hmem
  rcases List.mem_or_eq_of_mem_set hmem with h | h
  · exact hbits set1 h l hl
  · subst h
    rcases List.mem_or_eq_of_mem_set hl with h2 | h2
    · exact hbits set (List.getElem?_mem hset) l h2
    · subst h2; exact h1

/-- The valid bit of every line before and after a returning `read_byte`. -/
theorem read_byte_valid {junk : address_t} {c : cache_t} {start : List Nat} {off : Int} {r : read_outcome}
    (hbits : valid_bits c) (h : read_byte c start off junk = some r) :
    valid_bits r.cache ∧
    ∀ (sj lj : Nat) (l : cache_line_t), line_at c (sj : Int) lj = some l →
      ∃ l1, line_at r.cache (sj : Int) lj = some l1 ∧
        (l1.valid = l.valid ∨
          (l.valid = 0 ∧ l1.valid = 1 ∧ (r.status = COLD_MISS ∨ r.status = CONFLICT_MISS) ∧
            (sj : Int) = r.addr.set_index ∧ lj = r.line_index)) ∧
        (r.status = CACHE_HIT → l1.valid = l.valid) ∧ (l.valid ≠ 0 → l1.valid ≠ 0) := by
  obtain ⟨si, set, line, line1, -, hsi, hset, -, hline, hc, -, -, hcase⟩ := read_byte_inv h
  have hlv : line.valid = 0 ∨ line.valid = 1 :=
    hbits set (List.getElem?_mem hset) line (List.getElem?_mem hline)
  have h1v : line1.valid = 0 ∨ line1.valid = 1 := by
    rcases hcase with ⟨-, hins⟩ | ⟨-, hinc⟩
    · exact Or.inr (insert_data_to_block_inv hins).1
    · rw [hinc]; exact hlv
  refine ⟨by rw [hc]; exact valid_bits_put_line hbits set si _ line1 hset h1v,
    fun sj lj l hl => ?_⟩
  by_cases hpos : sj = si ∧ lj = r.line_index
  · obtain ⟨hs, hl2⟩ := hpos
    subst hs hl2
    rw [line_at_natCast, hset, Option.some_bind, hline] at hl
    cases hl
    refine ⟨line1, by
      rw [hc]
      exact line_at_put_line c set sj _ line1 (getElem?_some_lt hset) (getElem?_some_lt hline),
      ?_, ?_, ?_⟩
    · rcases hcase with ⟨hm, hins⟩ | ⟨-, hinc⟩
      · have hv1 := (insert_data_to_block_inv hins).1
        rcases hlv with h0 | h0
        · exact Or.inr ⟨h0, hv1, hm, hsi.symm, rfl⟩
        · exact Or.inl (by rw [hv1, h0])
      · exact Or.inl (by rw [hinc]; rfl)
    · intro hhit
      rcases hcase with ⟨hm, -⟩ | ⟨-, hinc⟩
      · exact absurd hhit (miss_ne_hit hm)
      · rw [hinc]; rfl
    · intro hne
      rcases hcase with ⟨-, hins⟩ | ⟨-, hinc⟩
      · rw [(insert_data_to_block_inv hins).1]; decide
      · rw [hinc]; exact hne
  · refine ⟨l, by rw [hc, line_at_put_line_other c set si _ line1 hset sj lj hpos]; exact hl,
      Or.inl rfl, fun _ => rfl, fun hne => hne⟩

/-- The valid bit of every line before and after a returning `write_byte`. -/
theorem write_byte_valid {junk : address_t} {c : cache_t} {start : List Nat} {off : Int} {new : Nat}
    {w : write_outcome} (hbits : valid_bits c) (h : write_byte c start off new junk = some w) :
    valid_bits w.cache ∧
    ∀ (sj lj : Nat) (l : cache_line_t), line_at c (sj : Int) lj = some l →
      ∃ l1, line_at w.cache (sj : Int) lj = some l1 ∧ l1.valid = l.valid := by
  obtain ⟨si, set, -, hsi, hset, -, -, hcase⟩ := write_byte_inv h
  rcases hcase with ⟨-, line, block1, hline, hb, hc⟩ | ⟨-, hc⟩
  · have hlv : line.valid = 0 ∨ line.valid = 1 :=
      hbits set (List.getElem?_mem hset) line (List.getElem?_mem hline)
    refine ⟨by rw [hc]; exact valid_bits_put_line hbits set si _ _ hset hlv,
      fun sj lj l hl => ?_⟩
    by_cases hpos : sj = si ∧ lj = w.line_index
    · obtain ⟨hs, hl2⟩ := hpos
      subst hs hl2
      rw [line_at_natCast, hset, Option.some_bind, hline] at hl
      cases hl
      refine ⟨{ incr_frequency line with block := block1 }, ?_, rfl⟩
      rw [hc]
      exact line_at_put_line c set sj _ _ (getElem?_some_lt hset) (getElem?_some_lt hline)
    · exact ⟨l, by rw [hc, line_at_put_line_other c set si _ _ hset sj lj hpos]; exact hl, rfl⟩
  · rw [hc]
    exact ⟨hbits, fun sj lj l hl => ⟨l, hl, rfl⟩⟩

theorem two_pow_toNat (n : Nat) : ((2 : Int) ^ n).toNat = 2 ^ n := by
  rw [show ((2 : Int) ^ n) = ((2 ^ n : Nat) : Int) by push_cast; rfl, Int.toNat_ofNat]

theorem shl_one_some {i : Nat} {p : Int} (h : shl_one i = some p) : i < 31 ∧ p = 2 ^ i := by
  unfold shl_one at h
  by_cases hi : i < 31
  · rw [if_pos hi] at h
    cases h
    exact ⟨hi, rfl⟩
  · rw [if_neg hi] at h
    cases h

/-- What `initialize_cache` returns when `1 << s` and `1 << b` are defined. -/
theorem initialize_cache_eq (s t b E : Nat) (junk : Nat → Nat → Nat → Nat) (hs : s < 31)
    (hb : b < 31) :
    initialize_cache s t b E junk = some
      { s := s, t := t, b := b, E := E
        cache := (List.range (2 ^ s)).map fun i => (List.range E).map fun j =>
          { valid := 0, frequency := 0, tag := 0
            block := (List.range (2 ^ b)).map (junk i j) } } := by
  simp only [initialize_cache, shl_one_of_lt hs, shl_one_of_lt hb, Option.some_bind,
    two_pow_toNat]

theorem initialize_cache_inv {s t b E : Nat} {junk : Nat → Nat → Nat → Nat} {c : cache_t}
    (h : initialize_cache s t b E junk = some c) :
    s < 31 ∧ b < 31 ∧ c =
      { s := s, t := t, b := b, E := E
        cache := (List.range (2 ^ s)).map fun i => (List.range E).map fun j =>
          { valid := 0, frequency := 0, tag := 0
            block := (List.range (2 ^ b)).map (junk i j) } } := by
  have hs : s < 31 := by
    by_contra hc
    simp [initialize_cache, shl_one, hc] at h
  have hb : b < 31 := by
    by_contra hc
    simp [initialize_cache, shl_one, hc] at h
  rw [initialize_cache_eq s t b E junk hs hb] at h
  cases h
  exact ⟨hs, hb, rfl⟩

/-- Claim C18 as amended (initial state). For every `s < 31`, `b < 31` (so that `1 << s` and
`1 << b` are values of type `int`) and every `t`, `E`, `initialize_cache(s, t, b, E)` returns a
cache that records exactly these four parameters and has exactly `2 ^ s` sets of exactly `E` lines
each, every line having valid = 0, frequency = 0, tag = 0 and a block of `2 ^ b` bytes, whatever
bytes `malloc` left in the blocks. -/
theorem initialize_cache_shape (s t b E : Nat) (junk : Nat → Nat → Nat → Nat) (hs : s < 31)
    (hb : b < 31) :
    ∃ c, initialize_cache s t b E junk = some c ∧
      c.s = s ∧ c.t = t ∧ c.b = b ∧ c.E = E ∧ c.cache.length = 2 ^ s ∧
      ∀ set ∈ c.cache, set.length = E ∧
        ∀ l ∈ set, l.valid = 0 ∧ l.frequency = 0 ∧ l.tag = 0 ∧ l.block.length = 2 ^ b := by
  refine ⟨_, initialize_cache_eq s t b E junk hs hb, rfl, rfl, rfl, rfl, by simp, ?_⟩
  intro set hset
  simp only [List.mem_map, List.mem_range] at hset
  obtain ⟨i, -, rfl⟩ := hset
  refine ⟨by simp, fun l hl => ?_⟩
  simp only [List.mem_map, List.mem_range] at hl
  obtain ⟨j, -, rfl⟩ := hl
  exact ⟨rfl, rfl, rfl, by simp⟩

/-- Counterexample to C18 as stated: with `s = 31` or with `b = 31` the first statements
`int S = 1 << s; int B = 1 << b;` overflow `int`, and no cache of `2 ^ 31` sets, or with blocks
of `2 ^ 31` bytes, is returned. -/
theorem initialize_cache_width_31 :
    initialize_cache 31 0 0 1 (fun _ _ _ => 0) = none ∧
    initialize_cache 0 0 31 1 (fun _ _ _ => 0) = none := by
  decide

theorem initialize_cache_wf {s t b E : Nat} {junk : Nat → Nat → Nat → Nat} {c : cache_t}
    (h : initialize_cache s t b E junk = some c) (hE : 0 < E) :
    wf_cache c ∧ valid_bits c := by
  obtain ⟨hs, hb, rfl⟩ := initialize_cache_inv h
  refine ⟨⟨hE, by simp, fun set hset => ?_⟩, fun set hset l hl => ?_⟩
  · simp only [List.mem_map, List.mem_range] at hset
    obtain ⟨i, -, rfl⟩ := hset
    refine ⟨by simp, fun l hl => ?_⟩
    simp only [List.mem_map, List.mem_range] at hl
    obtain ⟨j, -, rfl⟩ := hl
    simp
  · simp only [List.mem_map, List.mem_range] at hset
    obtain ⟨i, -, rfl⟩ := hset
    simp only [List.mem_map, List.mem_range] at hl
    obtain ⟨j, -, rfl⟩ := hl
    exact Or.inl rfl

theorem get_status_nil (E : Nat) (tag : Int) : get_status [] E tag = none := rfl

/-- Claim C19 as amended (no validation of the configuration). `initialize_cache` has no check
and no error result: for `E = 0` (and `s, b < 31`) it returns a cache with `E = 0` whose `2 ^ s`
sets all have zero lines. On such a cache every later `read_byte` and `write_byte` has no defined
result, whatever its address record held, since `get_status` starts by reading `set[0]` of an
empty allocation. -/
theorem initialize_cache_zero_lines (s t b : Nat) (junk : Nat → Nat → Nat → Nat) (hs : s < 31)
    (hb : b < 31) :
    ∃ c, initialize_cache s t b 0 junk = some c ∧ c.E = 0 ∧ c.cache.length = 2 ^ s ∧
      (∀ set ∈ c.cache, set = []) ∧
      (∀ start off junk, read_byte c start off junk = none) ∧
      (∀ start off v junk, write_byte c start off v junk = none) := by
  have hsets : ∀ set ∈ (List.range (2 ^ s)).map (fun i => (List.range 0).map fun j =>
      ({ valid := 0, frequency := 0, tag := 0
         block := (List.range (2 ^ b)).map (junk i j) } : cache_line_t)), set = [] := by
    intro set hset
    simp only [List.mem_map, List.mem_range] at hset
    obtain ⟨i, -, rfl⟩ := hset
    rfl
  refine ⟨_, initialize_cache_eq s t b 0 junk hs hb, rfl, by simp, hsets,
    fun start off rec => ?_, fun start off v rec => ?_⟩
  · cases hr : read_byte _ start off rec with
    | none => rfl
    | some r =>
      exfalso
      obtain ⟨si, set, line, line1, -, -, hset, hst, -⟩ := read_byte_inv hr
      rw [hsets set (List.getElem?_mem hset), get_status_nil] at hst
      cases hst
  · cases hw : write_byte _ start off v rec with
    | none => rfl
    | some w =>
      exfalso
      obtain ⟨si, set, -, -, hset, hst, -⟩ := write_byte_inv hw
      rw [hsets set (List.getElem?_mem hset), get_status_nil] at hst
      cases hst

/-- Counterexample to C19 as stated: `initialize_cache(0, 0, 0, 0)` reports no error; it returns a
cache whose single set has zero lines. -/
theorem initialize_cache_accepts_zero_lines :
    initialize_cache 0 0 0 0 (fun _ _ _ => 0)
      = some { s := 0, t := 0, b := 0, E := 0, cache := [[]] } := by
  decide

/-- Scenario A (thrashing) when every address record starts zeroed. On the cache initialised with
`s = 0`, `b = 0`, `E = 1` (any `t`, any block contents) and any memory of at least two bytes, the
reads at offsets 0, 1, 0 return and are classified COLD_MISS, CONFLICT_MISS, CONFLICT_MISS, each
on line 0; the single line is valid with tag 0 after the first read, tag 1 after the second and
tag 0 after the third; no access is a CACHE_HIT. -/
theorem scenario_thrashing (t : Nat) (junk : Nat → Nat → Nat → Nat) (start : List Nat)
    (hlen : 2 ≤ start.length) :
    ∃ c0 r1 r2 r3, initialize_cache 0 t 0 1 junk = some c0 ∧
      read_byte c0 start 0 zero_record = some r1 ∧ read_byte r1.cache start 1 zero_record = some r2 ∧
      read_byte r2.cache start 0 zero_record = some r3 ∧
      r1.status = COLD_MISS ∧ r2.status = CONFLICT_MISS ∧ r3.status = CONFLICT_MISS ∧
      r1.line_index = 0 ∧ r2.line_index = 0 ∧ r3.line_index = 0 ∧
      (line_at r1.cache 0 0).map (fun l => (l.valid, l.tag)) = some (1, 0) ∧
      (line_at r2.cache 0 0).map (fun l => (l.valid, l.tag)) = some (1, 1) ∧
      (line_at r3.cache 0 0).map (fun l => (l.valid, l.tag)) = some (1, 0) ∧
      r1.status ≠ CACHE_HIT ∧ r2.status ≠ CACHE_HIT ∧ r3.status ≠ CACHE_HIT := by
  obtain ⟨x0, h0⟩ : ∃ x, start[0]? = some x := ⟨_, List.getElem?_eq_getElem (by omega)⟩
  obtain ⟨x1, h1⟩ : ∃ x, start[1]? = some x := ⟨_, List.getElem?_eq_getElem (by omega)⟩
  have e1 : read_byte ⟨0, t, 0, 1, [[⟨0, 0, 0, [junk 0 0 0]⟩]]⟩ start 0 zero_record
      = some ⟨x0, ⟨0, t, 0, 1, [[⟨1, 1, 0, [x0]⟩]]⟩, COLD_MISS, ⟨0, 0, 0⟩, 0⟩ := by
    simp [read_byte, extract_bts_from_address, extract_field, extract_tag, zero_record, add_long,
      get_status,
      get_status_loop, insert_data_to_block, shl_one, align_loop, copy_loop, load, store,
      put_line, COLD_MISS, CONFLICT_MISS, CACHE_HIT, Int.tmod, Int.tdiv, h0]
  have e2 : read_byte ⟨0, t, 0, 1, [[⟨1, 1, 0, [x0]⟩]]⟩ start 1 zero_record
      = some ⟨x1, ⟨0, t, 0, 1, [[⟨1, 1, 1, [x1]⟩]]⟩, CONFLICT_MISS, ⟨0, 0, 1⟩, 0⟩ := by
    simp [read_byte, extract_bts_from_address, extract_field, extract_tag, zero_record, add_long,
      get_status,
      get_status_loop, insert_data_to_block, shl_one, align_loop, copy_loop, load, store,
      put_line, COLD_MISS, CONFLICT_MISS, CACHE_HIT, Int.tmod, Int.tdiv, h1]
  have e3 : read_byte ⟨0, t, 0, 1, [[⟨1, 1, 1, [x1]⟩]]⟩ start 0 zero_record
      = some ⟨x0, ⟨0, t, 0, 1, [[⟨1, 1, 0, [x0]⟩]]⟩, CONFLICT_MISS, ⟨0, 0, 0⟩, 0⟩ := by
    simp [read_byte, extract_bts_from_address, extract_field, extract_tag, zero_record, add_long,
      get_status,
      get_status_loop, insert_data_to_block, shl_one, align_loop, copy_loop, load, store,
      put_line, COLD_MISS, CONFLICT_MISS, CACHE_HIT, Int.tmod, Int.tdiv, h0]
  exact ⟨_, _, _, _, initialize_cache_eq 0 t 0 1 junk (by norm_num) (by norm_num), e1, e2, e3,
    rfl, rfl, rfl, rfl, rfl, rfl, rfl, rfl, rfl, miss_ne_hit (Or.inl rfl),
    miss_ne_hit (Or.inr rfl), miss_ne_hit (Or.inr rfl)⟩

/-- Scenario B (coexistence and eviction) when every address record starts zeroed. On the cache
initialised with `s = 0`, `b = 0`, `E = 2` (any `t`, any block contents) and any memory of at
least 17 bytes, the reads at offsets 0, 8, 16 return and are classified COLD_MISS on line 0,
COLD_MISS on line 1, then CONFLICT_MISS on line 0 (both frequencies are 1 before it); afterwards
line 0 holds tag 16 and line 1 still holds tag 8. -/
theorem scenario_coexistence (t : Nat) (junk : Nat → Nat → Nat → Nat) (start : List Nat)
    (hlen : 17 ≤ start.length) :
    ∃ c0 r1 r2 r3, initialize_cache 0 t 0 2 junk = some c0 ∧
      read_byte c0 start 0 zero_record = some r1 ∧ read_byte r1.cache start 8 zero_record = some r2 ∧
      read_byte r2.cache start 16 zero_record = some r3 ∧
      r1.status = COLD_MISS ∧ r1.line_index = 0 ∧
      r2.status = COLD_MISS ∧ r2.line_index = 1 ∧
      r3.status = CONFLICT_MISS ∧ r3.line_index = 0 ∧
      (line_at r2.cache 0 0).map (fun l => (l.valid, l.frequency, l.tag)) = some (1, 1, 0) ∧
      (line_at r2.cache 0 1).map (fun l => (l.valid, l.frequency, l.tag)) = some (1, 1, 8) ∧
      (line_at r3.cache 0 0).map (fun l => (l.valid, l.tag)) = some (1, 16) ∧
      (line_at r3.cache 0 1).map (fun l => (l.valid, l.tag)) = some (1, 8) := by
  obtain ⟨x0, h0⟩ : ∃ x, start[0]? = some x := ⟨_, List.getElem?_eq_getElem (by omega)⟩
  obtain ⟨x8, h8⟩ : ∃ x, start[8]? = some x := ⟨_, List.getElem?_eq_getElem (by omega)⟩
  obtain ⟨x16, h16⟩ : ∃ x, start[16]? = some x := ⟨_, List.getElem?_eq_getElem (by omega)⟩
  have e1 : read_byte ⟨0, t, 0, 2, [[⟨0, 0, 0, [junk 0 0 0]⟩, ⟨0, 0, 0, [junk 0 1 0]⟩]]⟩ start 0 zero_record
      = some ⟨x0, ⟨0, t, 0, 2, [[⟨1, 1, 0, [x0]⟩, ⟨0, 0, 0, [junk 0 1 0]⟩]]⟩, COLD_MISS,
          ⟨0, 0, 0⟩, 0⟩ := by
    simp [read_byte, extract_bts_from_address, extract_field, extract_tag, zero_record, add_long,
      get_status,
      get_status_loop, insert_data_to_block, shl_one, align_loop, copy_loop, load, store,
      put_line, COLD_MISS, CONFLICT_MISS, CACHE_HIT, Int.tmod, Int.tdiv, h0]
  have e2 : read_byte ⟨0, t, 0, 2, [[⟨1, 1, 0, [x0]⟩, ⟨0, 0, 0, [junk 0 1 0]⟩]]⟩ start 8 zero_record
      = some ⟨x8, ⟨0, t, 0, 2, [[⟨1, 1, 0, [x0]⟩, ⟨1, 1, 8, [x8]⟩]]⟩, COLD_MISS,
          ⟨0, 0, 8⟩, 1⟩ := by
    simp [read_byte, extract_bts_from_address, extract_field, extract_tag, zero_record, add_long,
      get_status,
      get_status_loop, insert_data_to_block, shl_one, align_loop, copy_loop, load, store,
      put_line, COLD_MISS, CONFLICT_MISS, CACHE_HIT, Int.tmod, Int.tdiv, h8]
    rfl
  have e3 : read_byte ⟨0, t, 0, 2, [[⟨1, 1, 0, [x0]⟩, ⟨1, 1, 8, [x8]⟩]]⟩ start 16 zero_record
      = some ⟨x16, ⟨0, t, 0, 2, [[⟨1, 1, 16, [x16]⟩, ⟨1, 1, 8, [x8]⟩]]⟩, CONFLICT_MISS,
          ⟨0, 0, 16⟩, 0⟩ := by
    simp [read_byte, extract_bts_from_address, extract_field, extract_tag, zero_record, add_long,
      get_status,
      get_status_loop, insert_data_to_block, shl_one, align_loop, copy_loop, load, store,
      put_line, COLD_MISS, CONFLICT_MISS, CACHE_HIT, Int.tmod, Int.tdiv, h16]
  exact ⟨_, _, _, _, initialize_cache_eq 0 t 0 2 junk (by norm_num) (by norm_num), e1, e2, e3,
    rfl, rfl, rfl, rfl, rfl, rfl, rfl, rfl, rfl, rfl⟩

/-! ## Cold start -/

theorem step_frame {c c1 : cache_t} {start start1 : List Nat} {a : access}
    (h : step c start a = some (c1, start1)) :
    c1.s = c.s ∧ c1.t = c.t ∧ c1.b = c.b ∧ c1.E = c.E ∧ (wf_cache c → wf_cache c1) ∧
    ∀ si : Nat, access_set c.s c.t c.b a ≠ some (si : Int) → c1.cache[si]? = c.cache[si]? := by
  cases a with
  | read off junk =>
    simp only [step] at h
    cases hr : read_byte c start off junk with
    | none => rw [hr] at h; cases h
    | some r =>
      rw [hr] at h
      simp only [Option.map_some', Option.some.injEq, Prod.mk.injEq] at h
      obtain ⟨hc1, -⟩ := h
      subst hc1
      obtain ⟨sj, set, line, line1, hext, hsj, hset, -, -, hc, -⟩ := read_byte_inv hr
      refine ⟨by rw [hc]; rfl, by rw [hc]; rfl, by rw [hc]; rfl, by rw [hc]; rfl,
        fun hwf => wf_read_byte hwf hr, fun si hne => ?_⟩
      simp only [access_set, hext, Option.map_some', hsj] at hne
      have hne2 : sj ≠ si := fun e => hne (by rw [e])
      rw [hc, put_line_cache, List.getElem?_set, if_neg hne2]
  | write off v junk =>
    simp only [step] at h
    cases hw : write_byte c start off v junk with
    | none => rw [hw] at h; cases h
    | some w =>
      rw [hw] at h
      simp only [Option.map_some', Option.some.injEq, Prod.mk.injEq] at h
      obtain ⟨hc1, -⟩ := h
      subst hc1
      obtain ⟨sj, set, hext, hsj, hset, -, -, hcase⟩ := write_byte_inv hw
      have hshape := only_line_changed_write hw
      refine ⟨hshape.1, hshape.2.1, hshape.2.2.1, hshape.2.2.2.1,
        fun hwf => wf_write_byte hwf hw, fun si hne => ?_⟩
      simp only [access_set, hext, Option.map_some', hsj] at hne
      have hne2 : sj ≠ si := fun e => hne (by rw [e])
      rcases hcase with ⟨-, line, block1, -, -, hc⟩ | ⟨-, hc⟩
      · rw [hc, put_line_cache, List.getElem?_set, if_neg hne2]
      · rw [hc]

theorem run_frame (ops : List access) : ∀ {c c1 : cache_t} {start start1 : List Nat},
    run ops c start = some (c1, start1) →
    c1.s = c.s ∧ c1.t = c.t ∧ c1.b = c.b ∧ c1.E = c.E ∧ (wf_cache c → wf_cache c1) ∧
    ∀ si : Nat, (∀ a ∈ ops, access_set c.s c.t c.b a ≠ some (si : Int)) →
      c1.cache[si]? = c.cache[si]? := by
  induction ops with
  | nil =>
    intro c c1 start start1 h
    simp only [run, Option.some.injEq, Prod.mk.injEq] at h
    obtain ⟨h1, -⟩ := h
    subst h1
    exact ⟨rfl, rfl, rfl, rfl, fun h => h, fun _ _ => rfl⟩
  | cons a rest ih =>
    intro c c1 start start1 h
    rw [run] at h
    cases hs : step c start a with
    | none => rw [hs] at h; cases h
    | some p =>
      obtain ⟨c2, start2⟩ := p
      rw [hs, Option.some_bind] at h
      obtain ⟨a1, a2, a3, a4, a5, a6⟩ := step_frame hs
      obtain ⟨b1, b2, b3, b4, b5, b6⟩ := ih h
      refine ⟨b1.trans a1, b2.trans a2, b3.trans a3, b4.trans a4, fun hwf => b5 (a5 hwf),
        fun si hne => ?_⟩
      rw [b6 si (fun x hx => by rw [a1, a2, a3]; exact hne x (List.mem_cons_of_mem _ hx)),
        a6 si (hne a (List.mem_cons_self _ _))]

theorem get_status_cold_first {set : List cache_line_t} {l : cache_line_t} (E : Nat) (tag : Int)
    (hl : set[0]? = some l) (hv : l.valid = 0) (hE : 0 < E) :
    get_status set E tag = some (COLD_MISS, 0) := by
  obtain ⟨n, rfl⟩ : ∃ n, E = n + 1 := ⟨E - 1, by omega⟩
  simp [get_status, hl, get_status_loop, hv]

/-- The copy loop has a result exactly when, followed statement by statement, it is completed. -/
theorem copy_loop_eq_upto (start : List Nat) (off : Int) (n : Nat) :
    ∀ (i : Nat) (block : List Nat),
      copy_loop start off n i block =
        if (copy_loop_upto start off n i block).2 then some (copy_loop_upto start off n i block).1
        else none := by
  induction n with
  | zero => intro i block; rfl
  | succ n ih =>
    intro i block
    rw [copy_loop, copy_loop_upto]
    cases hl : load start (off + i) with
    | none => rfl
    | some v =>
      simp only [Option.some_bind]
      cases hs : store block (i : Int) v with
      | none => rfl
      | some block1 =>
        simp only [Option.some_bind]
        exact ih (i + 1) block1

/-- A copy loop that has to read beyond the memory has no result, whatever the block. -/
theorem copy_loop_none_beyond (start : List Nat) (off : Nat) (n : Nat) :
    ∀ (i : Nat) (block : List Nat), 0 < n → start.length < off + i + n →
      copy_loop start (off : Int) n i block = none := by
  induction n with
  | zero => intro i block h; omega
  | succ n ih =>
    intro i block _ h3
    have hcast : ((off : Int) + (i : Int)) = ((off + i : Nat) : Int) := by push_cast; rfl
    rw [copy_loop, hcast, load_natCast]
    by_cases hin : off + i < start.length
    · rw [List.getElem?_eq_getElem hin, Option.some_bind]
      cases hs : store block (i : Int) start[off + i] with
      | none => rfl
      | some block1 =>
        rw [Option.some_bind]
        exact ih (i + 1) block1 (by omega) (by omega)
    · rw [List.getElem?_eq_none (by omega)]
      rfl

theorem insert_data_to_block_eq_upto (line : cache_line_t) (start : List Nat) (off : Int)
    (b : Nat) (tag : Int) :
    insert_data_to_block line start off b tag =
      (insert_data_to_block_upto line start off b tag).bind fun p =>
        if p.2 then some p.1 else none := by
  unfold insert_data_to_block insert_data_to_block_upto
  cases hB : shl_one b with
  | none => rfl
  | some B =>
    rw [Option.some_bind, Option.some_bind]
    cases ha : align_loop B B.toNat off with
    | none => rfl
    | some off1 =>
      rw [Option.some_bind, Option.some_bind, Option.some_bind, copy_loop_eq_upto]
      cases (copy_loop_upto start off1 B.toNat 0 line.block).2 <;> rfl

/-- The copy loop on a block that reaches beyond the memory: it stops before the first read
outside `start`, having copied the bytes that lie inside. -/
theorem copy_loop_upto_beyond (start : List Nat) (off : Nat) (n : Nat) :
    ∀ (i : Nat) (block : List Nat), 0 < n → i + n ≤ block.length →
      start.length < off + i + n →
      (copy_loop_upto start (off : Int) n i block).2 = false ∧
      (copy_loop_upto start (off : Int) n i block).1.length = block.length ∧
      ∀ k, (copy_loop_upto start (off : Int) n i block).1[k]? =
        if i ≤ k ∧ off + k < start.length then start[off + k]? else block[k]? := by
  induction n with
  | zero => intro i block h; omega
  | succ n ih =>
    intro i block _ h2 h3
    have hcast : ((off : Int) + (i : Int)) = ((off + i : Nat) : Int) := by push_cast; rfl
    rw [copy_loop_upto, hcast, load_natCast]
    by_cases hin : off + i < start.length
    · have hi : i < block.length := by omega
      rw [List.getElem?_eq_getElem hin]
      simp only
      rw [store_natCast _ _ _ hi]
      simp only
      obtain ⟨e1, e2, e3⟩ := ih (i + 1) (block.set i start[off + i]) (by omega)
        (by rw [List.length_set]; omega) (by omega)
      refine ⟨e1, by rw [e2, List.length_set], fun k => ?_⟩
      rw [e3 k, List.getElem?_set]
      by_cases hk : i = k
      · subst hk
        rw [if_neg (by omega), if_pos rfl, if_pos hi, if_pos ⟨le_rfl, hin⟩,
          List.getElem?_eq_getElem hin]
      · by_cases hk1 : i + 1 ≤ k ∧ off + k < start.length
        · rw [if_pos hk1, if_pos ⟨by omega, hk1.2⟩]
        · rw [if_neg hk1, if_neg hk, if_neg (by omega)]
    · rw [List.getElem?_eq_none (by omega)]
      simp only
      refine ⟨trivial, trivial, fun k => ?_⟩
      rw [if_neg (by omega)]

theorem insert_data_to_block_upto_beyond (line : cache_line_t) (start : List Nat) (o b : Nat)
    (tag : Int) (hb : b < 31) (hlen : line.block.length = 2 ^ b)
    (hout : start.length < o - o % 2 ^ b + 2 ^ b) :
    ∃ blk, insert_data_to_block_upto line start (o : Int) b tag
        = some ({ valid := 1, frequency := 1, tag := tag, block := blk }, false) ∧
      blk.length = 2 ^ b ∧
      ∀ k, o - o % 2 ^ b + k < start.length → blk[k]? = start[o - o % 2 ^ b + k]? := by
  have hB : (0 : Int) < 2 ^ b := by positivity
  have hmod : ((o : Int) % 2 ^ b) = ((o % 2 ^ b : Nat) : Int) := by push_cast; rfl
  have hlt : o % 2 ^ b < 2 ^ b := Nat.mod_lt _ (by positivity)
  have hal := align_loop_eq (2 ^ b) hB (2 ^ b) (o : Int) (by rw [hmod, Int.toNat_ofNat]; omega)
  have hle : o % 2 ^ b ≤ o := Nat.mod_le _ _
  have hoff : (o : Int) - (o : Int) % 2 ^ b = ((o - o % 2 ^ b : Nat) : Int) := by
    rw [hmod]; omega
  obtain ⟨e1, e2, e3⟩ := copy_loop_upto_beyond start (o - o % 2 ^ b) (2 ^ b) 0 line.block
    (by positivity) (by omega) (by omega)
  refine ⟨(copy_loop_upto start ((o - o % 2 ^ b : Nat) : Int) (2 ^ b) 0 line.block).1, ?_,
    by rw [e2, hlen], fun k hk => ?_⟩
  · simp only [insert_data_to_block_upto, shl_one_of_lt hb, Option.some_bind, two_pow_toNat, hal,
      hoff, e1]
  · rw [e3 k, if_pos ⟨by omega, hk⟩]

/-- Claim C20 as amended (out-of-bounds accesses are unchecked). No call reports an out-of-bounds
failure. When the aligned block that a read miss must fill reaches beyond the memory buffer,
`read_byte` has no defined result: `insert_data_to_block` sets valid, frequency and tag of the
selected line and copies the bytes that lie inside the buffer, and then reads outside it. When
the offset lies beyond the buffer, `write_byte` has no defined result either: it stores outside
the buffer. Both hold whatever the address record of the call held. -/
theorem out_of_bounds_unchecked (c : cache_t) (start : List Nat) (o : Nat)
    (hout : start.length < o - o % 2 ^ c.b + 2 ^ c.b) :
    (∀ junk st i, classify c (o : Int) junk = some (st, i) →
      st = COLD_MISS ∨ st = CONFLICT_MISS → read_byte c start (o : Int) junk = none) ∧
    (∀ line tag, c.b < 31 → line.block.length = 2 ^ c.b →
      insert_data_to_block line start (o : Int) c.b tag = none ∧
      ∃ blk, insert_data_to_block_upto line start (o : Int) c.b tag
          = some ({ valid := 1, frequency := 1, tag := tag, block := blk }, false) ∧
        blk.length = 2 ^ c.b ∧
        ∀ k, o - o % 2 ^ c.b + k < start.length → blk[k]? = start[o - o % 2 ^ c.b + k]?) ∧
    (start.length ≤ o → ∀ v junk, write_byte c start (o : Int) v junk = none) := by
  have hins : ∀ line tag, c.b < 31 → line.block.length = 2 ^ c.b →
      insert_data_to_block line start (o : Int) c.b tag = none ∧
      ∃ blk, insert_data_to_block_upto line start (o : Int) c.b tag
          = some ({ valid := 1, frequency := 1, tag := tag, block := blk }, false) ∧
        blk.length = 2 ^ c.b ∧
        ∀ k, o - o % 2 ^ c.b + k < start.length → blk[k]? = start[o - o % 2 ^ c.b + k]? := by
    intro line tag hb hlen
    obtain ⟨blk, h1, h2, h3⟩ := insert_data_to_block_upto_beyond line start o c.b tag hb hlen hout
    refine ⟨?_, blk, h1, h2, h3⟩
    rw [insert_data_to_block_eq_upto, h1]
    rfl
  refine ⟨fun junk st i hcl hm => ?_, hins, fun hbeyond v junk => ?_⟩
  · cases hr : read_byte c start (o : Int) junk with
    | none => rfl
    | some r =>
      exfalso
      obtain ⟨si, set, line, line1, hext, hsi, hset, hst, hline, -, -, hlen1, hcase⟩ :=
        read_byte_inv hr
      have hcl2 := classify_unfold c (o : Int) r.addr set hext
        (by rw [hsi, load_natCast]; exact hset)
      rw [hcl2, hst] at hcl
      have hp := Option.some.inj hcl
      have hst2 : r.status = st := congrArg Prod.fst hp
      rcases hcase with ⟨-, hins2⟩ | ⟨hhit, -⟩
      · have hb : c.b < 31 := by
          by_contra hc
          simp [insert_data_to_block, shl_one, hc] at hins2
        have hal : ∃ off1, align_loop (2 ^ c.b) ((2 : Int) ^ c.b).toNat (o : Int) = some off1 ∧
            copy_loop start off1 ((2 : Int) ^ c.b).toNat 0 line.block = some line1.block := by
          simp only [insert_data_to_block, shl_one_of_lt hb, Option.some_bind] at hins2
          cases ha : align_loop (2 ^ c.b) ((2 : Int) ^ c.b).toNat (o : Int) with
          | none => rw [ha] at hins2; cases hins2
          | some off1 =>
            rw [ha, Option.some_bind] at hins2
            cases hcp : copy_loop start off1 ((2 : Int) ^ c.b).toNat 0 line.block with
            | none => rw [hcp] at hins2; cases hins2
            | some blk =>
              rw [hcp, Option.some_bind] at hins2
              cases hins2
              exact ⟨off1, rfl, hcp⟩
        obtain ⟨off1, ha, hcp⟩ := hal
        have hB : (0 : Int) < 2 ^ c.b := by positivity
        have hmod : ((o : Int) % 2 ^ c.b) = ((o % 2 ^ c.b : Nat) : Int) := by push_cast; rfl
        have hlt : o % 2 ^ c.b < 2 ^ c.b := Nat.mod_lt _ (by positivity)
        have hle : o % 2 ^ c.b ≤ o := Nat.mod_le _ _
        rw [two_pow_toNat, align_loop_eq (2 ^ c.b) hB (2 ^ c.b) (o : Int)
          (by rw [hmod, Int.toNat_ofNat]; omega)] at ha
        have hoff : (o : Int) - (o : Int) % 2 ^ c.b = ((o - o % 2 ^ c.b : Nat) : Int) := by
          rw [hmod]; omega
        rw [hoff] at ha
        rw [← Option.some.inj ha, two_pow_toNat,
          copy_loop_none_beyond start (o - o % 2 ^ c.b) (2 ^ c.b) 0 line.block (by positivity)
            (by omega)] at hcp
        cases hcp
      · rw [hst2] at hhit
        exact absurd hhit (miss_ne_hit hm)
  · cases hw : write_byte c start (o : Int) v junk with
    | none => rfl
    | some w =>
      exfalso
      obtain ⟨si, set, -, -, -, -, hs, -⟩ := write_byte_inv hw
      obtain ⟨k, hk1, hk2, -⟩ := store_some_iff hs
      have : k = o := by exact_mod_cast hk1.symm
      omega

/-! ## Further instances on concrete states -/

/-- Counterexample to C20 as stated: the read at offset 2 of the three-byte `short_mem` through
the cold `demo_cache` is a COLD_MISS whose block (offsets 2 and 3) reaches beyond the memory. No
failure is reported: the call has no defined result, and when the copy loop is about to read
offset 3 the selected line, which was `valid = 0, block = [0, 0]`, already has `valid = 1`,
`frequency = 1` and `block = [12, 0]`. The write at offset 3 has no defined result either. -/
theorem read_byte_beyond_memory :
    classify demo_cache 2 zero_record = some (COLD_MISS, 0) ∧
    read_byte demo_cache short_mem 2 zero_record = none ∧
    line_at demo_cache 1 0 = some ⟨0, 0, 0, [0, 0]⟩ ∧
    insert_data_to_block_upto ⟨0, 0, 0, [0, 0]⟩ short_mem 2 1 0
      = some (⟨1, 1, 0, [12, 0]⟩, false) ∧
    write_byte demo_cache short_mem 3 99 zero_record = none := by
  decide

/-- Witness for C18 as amended: `initialize_cache(1, 0, 1, 2)` is `demo_cache`. -/
theorem initialize_cache_shape_witness :
    1 < 31 ∧ initialize_cache 1 0 1 2 zero_junk = some demo_cache ∧
    ∃ c, initialize_cache 1 0 1 2 zero_junk = some c ∧
      c.s = 1 ∧ c.t = 0 ∧ c.b = 1 ∧ c.E = 2 ∧ c.cache.length = 2 ^ 1 ∧
      ∀ set ∈ c.cache, set.length = 2 ∧
        ∀ l ∈ set, l.valid = 0 ∧ l.frequency = 0 ∧ l.tag = 0 ∧ l.block.length = 2 ^ 1 :=
  ⟨by decide, by decide, initialize_cache_shape 1 0 1 2 zero_junk (by decide) (by decide)⟩

/-- Witness for C19 as amended: `initialize_cache(1, 0, 1, 0)` returns two sets without lines. -/
theorem initialize_cache_zero_lines_witness :
    1 < 31 ∧
    initialize_cache 1 0 1 0 zero_junk = some { s := 1, t := 0, b := 1, E := 0, cache := [[], []] } ∧
    ∃ c, initialize_cache 1 0 1 0 zero_junk = some c ∧ c.E = 0 ∧ c.cache.length = 2 ^ 1 ∧
      (∀ set ∈ c.cache, set = []) ∧
      (∀ start off junk, read_byte c start off junk = none) ∧
      (∀ start off v junk, write_byte c start off v junk = none) :=
  ⟨by decide, by decide, initialize_cache_zero_lines 1 0 1 zero_junk (by decide) (by decide)⟩

/-- Witness for C20 as amended: offset 2 of `short_mem` with the two-byte blocks of
`demo_cache`. -/
theorem out_of_bounds_unchecked_witness :
    short_mem.length < 2 - 2 % 2 ^ demo_cache.b + 2 ^ demo_cache.b ∧
    classify demo_cache ((2 : Nat) : Int) zero_record = some (COLD_MISS, 0) ∧
    read_byte demo_cache short_mem ((2 : Nat) : Int) zero_record = none :=
  ⟨by decide, by decide,
    (out_of_bounds_unchecked demo_cache short_mem 2 (by decide)).1 zero_record COLD_MISS 0
      (by decide) (Or.inl rfl)⟩

/-! ## Reachable states: alignment, invariants, transparency -/

/-- Claim C25 (block alignment loop). For every integer `off` and every block size `B = 2 ^ b`
the loop `while (off % B != 0) off -= 1;`, given the `B` rounds that `insert_data_to_block`
can need, terminates and leaves in `off` the greatest multiple of `B` that is not greater than
the original value; for a non-negative `off` this is `off - off mod B`. -/
theorem align_loop_greatest_multiple (off : Int) (b : Nat) :
    ∃ m, align_loop (2 ^ b) ((2 : Int) ^ b).toNat off = some m ∧
      (2 : Int) ^ b ∣ m ∧ m ≤ off ∧ (∀ m1 : Int, (2 : Int) ^ b ∣ m1 → m1 ≤ off → m1 ≤ m) ∧
      (∀ o : Nat, off = (o : Int) → m = ((o - o % 2 ^ b : Nat) : Int)) := by
  have hB : (0 : Int) < 2 ^ b := by positivity
  have h0 : 0 ≤ off % 2 ^ b := Int.emod_nonneg _ (ne_of_gt hB)
  have h1 : off % 2 ^ b < 2 ^ b := Int.emod_lt_of_pos _ hB
  have hfuel : (off % 2 ^ b).toNat ≤ ((2 : Int) ^ b).toNat := by
    apply Int.toNat_le_toNat
    omega
  refine ⟨off - off % 2 ^ b, align_loop_eq (2 ^ b) hB _ off hfuel, ?_, by omega, ?_, ?_⟩
  · exact Int.dvd_sub_of_emod_eq rfl
  · intro m1 hd hle
    obtain ⟨q, rfl⟩ := hd
    have hdec := Int.emod_add_ediv off (2 ^ b)
    have hq : q ≤ off / 2 ^ b := by
      by_contra hc
      have hq2 : off / 2 ^ b + 1 ≤ q := by omega
      have := Int.mul_le_mul_of_nonneg_left hq2 (le_of_lt hB)
      nlinarith
    have := Int.mul_le_mul_of_nonneg_left hq (le_of_lt hB)
    omega
  · intro o ho
    subst ho
    have hmod : ((o : Int) % 2 ^ b) = ((o % 2 ^ b : Nat) : Int) := by push_cast; rfl
    have hle : o % 2 ^ b ≤ o := Nat.mod_le _ _
    rw [hmod]
    omega

theorem addr_round_trip (o s b : Nat) :
    o / 2 ^ (b + s) * 2 ^ (s + b) + o / 2 ^ b % 2 ^ s * 2 ^ b + o % 2 ^ b = o := by
  have h1 : o / 2 ^ (b + s) = o / 2 ^ b / 2 ^ s := by
    rw [Nat.div_div_eq_div_mul, pow_add]
  have h2 := Nat.div_add_mod (o / 2 ^ b) (2 ^ s)
  have h3 := Nat.div_add_mod o (2 ^ b)
  have h4 : o / 2 ^ b / 2 ^ s * (2 ^ s * 2 ^ b) + o / 2 ^ b % 2 ^ s * 2 ^ b
      = 2 ^ b * (2 ^ s * (o / 2 ^ b / 2 ^ s) + o / 2 ^ b % 2 ^ s) := by ring
  rw [h1, pow_add, h4, h2, h3]

theorem addr_block_start (o s b : Nat) :
    o / 2 ^ (b + s) * 2 ^ (s + b) + o / 2 ^ b % 2 ^ s * 2 ^ b = o - o % 2 ^ b := by
  have := addr_round_trip o s b
  omega

theorem addr_unique (g sj k o s b : Nat) (hk : k < 2 ^ b) (hs : sj < 2 ^ s)
    (h : g * 2 ^ (s + b) + sj * 2 ^ b + k = o) :
    o % 2 ^ b = k ∧ o / 2 ^ b % 2 ^ s = sj ∧ o / 2 ^ (b + s) = g := by
  have hpb : 0 < 2 ^ b := by positivity
  have hps : 0 < 2 ^ s := by positivity
  have ho : o = k + 2 ^ b * (sj + 2 ^ s * g) := by
    rw [← h, pow_add]; ring
  have h1 : o % 2 ^ b = k := by
    rw [ho, Nat.add_mul_mod_self_left, Nat.mod_eq_of_lt hk]
  have h2 : o / 2 ^ b = sj + 2 ^ s * g := by
    rw [ho, Nat.add_mul_div_left _ _ hpb, Nat.div_eq_of_lt hk, Nat.zero_add]
  refine ⟨h1, ?_, ?_⟩
  · rw [h2, Nat.add_mul_mod_self_left, Nat.mod_eq_of_lt hs]
  · rw [pow_add, ← Nat.div_div_eq_div_mul, h2, Nat.add_mul_div_left _ _ hps,
      Nat.div_eq_of_lt hs, Nat.zero_add]

theorem line_at_of_set {c : cache_t} {set : List cache_line_t} {si : Nat}
    (hset : c.cache[si]? = some set) (j : Nat) : line_at c (si : Int) j = set[j]? := by
  rw [line_at_natCast, hset, Option.some_bind]

theorem line_at_some {c : cache_t} {si li : Nat} {line : cache_line_t}
    (h : line_at c (si : Int) li = some line) :
    ∃ set, c.cache[si]? = some set ∧ set[li]? = some line := by
  rw [line_at_natCast] at h
  cases hs : c.cache[si]? with
  | none => rw [hs] at h; cases h
  | some set =>
    rw [hs, Option.some_bind] at h
    exact ⟨set, rfl, h⟩

/-- In a state with valid prefix and unique tags, a valid line of the decoded set carries the
target tag only if `get_status` reported a hit on that very line. -/
theorem tag_owner {c : cache_t} (hpre : valid_prefix c) (huni : unique_tags c)
    {set : List cache_line_t} {si r st : Nat} {tg : Int} {line : cache_line_t}
    (hset : c.cache[si]? = some set) (hline : set[r]? = some line)
    (hcase : (st = COLD_MISS ∧ line.valid = 0 ∧ ∀ j, j < r → passed set tg j) ∨
       (st = CACHE_HIT ∧ line.valid ≠ 0 ∧ line.tag = tg ∧ ∀ j, j < r → passed set tg j) ∨
       (st = CONFLICT_MISS ∧ ∀ j, j < set.length → passed set tg j))
    (j : Nat) (l : cache_line_t) (hl : set[j]? = some l) (hv : l.valid ≠ 0) (ht : l.tag = tg) :
    st = CACHE_HIT ∧ j = r := by
  have hlj : line_at c (si : Int) j = some l := by rw [line_at_of_set hset]; exact hl
  have hlr : line_at c (si : Int) r = some line := by rw [line_at_of_set hset]; exact hline
  have hnp : ∀ k, passed set tg k → k ≠ j := by
    rintro k ⟨l2, hl2, -, ht2⟩ hk
    subst hk
    rw [hl] at hl2
    cases hl2
    exact ht2 ht
  rcases hcase with ⟨-, hv0, hp⟩ | ⟨h1, hv1, ht1, -⟩ | ⟨-, hp⟩
  · exfalso
    rcases Nat.lt_trichotomy j r with h | h | h
    · exact hnp j (hp j h) rfl
    · subst h
      rw [hl] at hline
      cases hline
      exact hv hv0
    · exact hpre si j r l line hlj hlr h hv hv0
  · exact ⟨h1, huni si j r l line hlj hlr hv hv1 (ht.trans ht1.symm)⟩
  · exfalso
    exact hnp j (hp j (getElem?_some_lt hl)) rfl

/-- Replacing line `r` of a set by a valid line keeps the valid prefix and the unique tags when
the lines before `r` are valid and no other valid line of the set carries the tag of the new
line. -/
theorem prefix_unique_put_line {c : cache_t} (hpre : valid_prefix c) (huni : unique_tags c)
    (set : List cache_line_t) (si r : Nat) (line line1 : cache_line_t)
    (hset : c.cache[si]? = some set) (hline : set[r]? = some line) (hv1 : line1.valid ≠ 0)
    (hbefore : ∀ j, j < r → ∃ l, set[j]? = some l ∧ l.valid ≠ 0)
    (hother : ∀ j l, j ≠ r → set[j]? = some l → l.valid ≠ 0 → l.tag ≠ line1.tag) :
    valid_prefix (put_line c set (si : Int) r line1) ∧
    unique_tags (put_line c set (si : Int) r line1) := by
  have hsi := getElem?_some_lt hset
  have hr := getElem?_some_lt hline
  have hat : line_at (put_line c set (si : Int) r line1) (si : Int) r = some line1 :=
    line_at_put_line c set si r line1 hsi hr
  have hoth : ∀ sj lj, ¬ (sj = si ∧ lj = r) →
      line_at (put_line c set (si : Int) r line1) (sj : Int) lj = line_at c (sj : Int) lj :=
    fun sj lj h => line_at_put_line_other c set si r line1 hset sj lj h
  constructor
  · intro sj i j li lj hi hj hji hvi
    by_cases hjr : sj = si ∧ j = r
    · obtain ⟨h1, h2⟩ := hjr
      subst h1 h2
      rw [hat] at hj
      cases hj
      exact hv1
    · rw [hoth sj j hjr] at hj
      by_cases hir : sj = si ∧ i = r
      · obtain ⟨h1, h2⟩ := hir
        subst h1 h2
        obtain ⟨l, hl, hlv⟩ := hbefore j hji
        rw [line_at_of_set hset, hl] at hj
        cases hj
        exact hlv
      · rw [hoth sj i hir] at hi
        exact hpre sj i j li lj hi hj hji hvi
  · intro sj i j li lj hi hj hvi hvj htag
    by_cases hir : sj = si ∧ i = r
    · obtain ⟨h1, h2⟩ := hir
      subst h1 h2
      by_cases hjr : j = i
      · exact hjr.symm
      · exfalso
        rw [hat] at hi
        cases hi
        rw [hoth sj j (fun h => hjr h.2), line_at_of_set hset] at hj
        exact hother j lj hjr hj hvj htag.symm
    · rw [hoth sj i hir] at hi
      by_cases hjr : sj = si ∧ j = r
      · obtain ⟨h1, h2⟩ := hjr
        subst h1 h2
        exfalso
        rw [hat] at hj
        cases hj
        rw [line_at_of_set hset] at hi
        exact hother i li (fun h => hir ⟨rfl, h⟩) hi hvi htag
      · rw [hoth sj j hjr] at hj
        exact huni sj i j li lj hi hj hvi hvj htag

theorem initialize_cache_all_invalid {s t b E : Nat} {junk : Nat → Nat → Nat → Nat}
    {c : cache_t} (h : initialize_cache s t b E junk = some c) (si li : Nat)
    (line : cache_line_t) (hl : line_at c (si : Int) li = some line) : line.valid = 0 := by
  obtain ⟨hs, hb, rfl⟩ := initialize_cache_inv h
  obtain ⟨set, hset, hline⟩ := line_at_some hl
  have h1 := List.getElem?_mem hset
  simp only [List.mem_map, List.mem_range] at h1
  obtain ⟨i, -, rfl⟩ := h1
  have h2 := List.getElem?_mem hline
  simp only [List.mem_map, List.mem_range] at h2
  obtain ⟨j, -, rfl⟩ := h2
  rfl

theorem cache_inv_init {s t b E : Nat} {junk : Nat → Nat → Nat → Nat} {c : cache_t}
    (h : initialize_cache s t b E junk = some c) (hE : 0 < E) (mem : List Nat) :
    cache_inv c mem := by
  have hinv := initialize_cache_all_invalid h
  refine ⟨(initialize_cache_wf h hE).1, ?_, ?_, ?_⟩
  · intro si i j li lj hi _ _ hvi
    exact absurd (hinv si i li hi) hvi
  · intro si i j li lj hi _ hvi
    exact absurd (hinv si i li hi) hvi
  · intro si li line hl hv
    exact absurd (hinv si li line hl) hv

/-- A read keeps the invariant and returns the byte that the memory holds at the offset. -/
theorem cache_inv_read {c : cache_t} {mem : List Nat} (hinv : cache_inv c mem) (o : Nat)
    (hlen : mem.length < 2 ^ 31) (hin : o - o % 2 ^ c.b + 2 ^ c.b ≤ mem.length) :
    ∃ r, read_byte c mem (o : Int) zero_record = some r ∧ cache_inv r.cache mem ∧
      mem[o]? = some r.byte ∧ r.cache.s = c.s ∧ r.cache.b = c.b := by
  obtain ⟨hwf, hpre, huni, hcoh⟩ := hinv
  obtain ⟨hb, ho⟩ := block_bound hlen hin
  obtain ⟨set, st, r, line, line1, byte, hset, hsl, hblk, hst, hline, hread, hbl, hbyte, hv, ht,
    hpass, hcase⟩ := read_byte_spec hwf mem o hlen hin
  obtain ⟨set2, st2, r2, line2, -, hset2, -, -, hst2, hline2, -, hcase2⟩ :=
    lookup_spec hwf o (by omega)
  rw [hset] at hset2
  cases hset2
  rw [hst] at hst2
  cases hst2
  rw [hline] at hline2
  cases hline2
  have howner := tag_owner hpre huni hset hline hcase2
  have hmodlt : o % 2 ^ c.b < 2 ^ c.b := Nat.mod_lt _ (by positivity)
  have hmodle : o % 2 ^ c.b ≤ o := Nat.mod_le _ _
  have hbefore : ∀ j, j < r → ∃ l, set[j]? = some l ∧ l.valid ≠ 0 := by
    intro j hj
    obtain ⟨l, hl, hlv, -⟩ := hpass j hj
    exact ⟨l, hl, hlv⟩
  have hother : ∀ j l, j ≠ r → set[j]? = some l → l.valid ≠ 0 → l.tag ≠ line1.tag := by
    intro j l hj hl hlv hlt
    exact hj (howner j l hl hlv (hlt.trans ht)).2
  obtain ⟨hpre1, huni1⟩ :=
    prefix_unique_put_line hpre huni set _ r line line1 hset hline hv hbefore hother
  have hsi := getElem?_some_lt hset
  have hr := getElem?_some_lt hline
  have hlr : line_at c ((o / 2 ^ c.b % 2 ^ c.s : Nat) : Int) r = some line := by
    rw [line_at_of_set hset]; exact hline
  -- coherence of the line that now sits at `(si, r)`
  have hnew : ∀ k, k < 2 ^ c.b →
      o / 2 ^ (c.b + c.s) * 2 ^ (c.s + c.b) + o / 2 ^ c.b % 2 ^ c.s * 2 ^ c.b + k < mem.length ∧
      line1.block[k]? =
        mem[o / 2 ^ (c.b + c.s) * 2 ^ (c.s + c.b) + o / 2 ^ c.b % 2 ^ c.s * 2 ^ c.b + k]? := by
    intro k hk
    rw [addr_block_start]
    refine ⟨by omega, ?_⟩
    rcases hcase with ⟨-, hinc⟩ | ⟨-, -, -, hcopy⟩
    · rcases hcase2 with ⟨h1, -⟩ | ⟨-, hv2, ht2, -⟩ | ⟨h1, -⟩
      · exact absurd (howner r line hline (by rw [hinc] at hv; exact hv)
          (by rw [hinc] at ht; exact ht)).1 (by rw [h1]; decide)
      · obtain ⟨g, hg, hgk⟩ := hcoh _ r line hlr hv2
        have hg2 : g = o / 2 ^ (c.b + c.s) := by
          rw [ht2] at hg
          exact_mod_cast hg.symm
        subst hg2
        rw [hinc]
        have := (hgk k hk).2
        rw [addr_block_start] at this
        exact this
      · exact absurd (howner r line hline (by rw [hinc] at hv; exact hv)
          (by rw [hinc] at ht; exact ht)).1 (by rw [h1]; decide)
    · exact hcopy k hk
  have hcoh1 : coherent (put_line c set ((o / 2 ^ c.b % 2 ^ c.s : Nat) : Int) r line1) mem := by
    intro sj lj l hl hlv
    by_cases hpos : sj = o / 2 ^ c.b % 2 ^ c.s ∧ lj = r
    · obtain ⟨h1, h2⟩ := hpos
      subst h1 h2
      rw [line_at_put_line c set _ lj line1 hsi hr] at hl
      cases hl
      exact ⟨o / 2 ^ (c.b + c.s), ht, hnew⟩
    · rw [line_at_put_line_other c set _ r line1 hset sj lj hpos] at hl
      exact hcoh sj lj l hl hlv
  refine ⟨_, hread, ⟨wf_put_line hwf set _ r line1 hset hbl, hpre1, huni1, hcoh1⟩, ?_, rfl, rfl⟩
  have h1 := (hnew (o % 2 ^ c.b) hmodlt).2
  rw [addr_round_trip, hbyte] at h1
  exact h1.symm

/-- A write keeps the invariant, for the memory it leaves. -/
theorem cache_inv_write {c : cache_t} {mem : List Nat} (hinv : cache_inv c mem) (o v : Nat)
    (ho : o < mem.length) (hlen : mem.length < 2 ^ 31) :
    ∃ w, write_byte c mem (o : Int) v zero_record = some w ∧ cache_inv w.cache w.start ∧
      w.start = mem.set o v ∧ w.cache.s = c.s ∧ w.cache.b = c.b := by
  obtain ⟨hwf, hpre, huni, hcoh⟩ := hinv
  obtain ⟨set, st, r, line, w, hset, hst, hline, hoff, hw, hstart, -, -, -, hcase⟩ :=
    write_byte_spec hwf mem o v ho hlen
  obtain ⟨set2, st2, r2, line2, -, hset2, -, -, hst2, hline2, hblen, hcase2⟩ :=
    lookup_spec hwf o (by omega)
  rw [hset] at hset2
  cases hset2
  rw [hst] at hst2
  cases hst2
  rw [hline] at hline2
  cases hline2
  have howner := tag_owner hpre huni hset hline hcase2
  have hmodlt : o % 2 ^ c.b < 2 ^ c.b := Nat.mod_lt _ (by positivity)
  have hmodle : o % 2 ^ c.b ≤ o := Nat.mod_le _ _
  have hsi := getElem?_some_lt hset
  have hr := getElem?_some_lt hline
  have hS : c.cache.length = 2 ^ c.s := hwf.2.1
  -- a valid line at another position than the hit line does not cover address `o`
  have hfar : ∀ (sj lj : Nat) (l : cache_line_t) (g k : Nat),
      line_at c (sj : Int) lj = some l → l.valid ≠ 0 → l.tag = (g : Int) → k < 2 ^ c.b →
      ¬ (st = CACHE_HIT ∧ sj = o / 2 ^ c.b % 2 ^ c.s ∧ lj = r) →
      g * 2 ^ (c.s + c.b) + sj * 2 ^ c.b + k ≠ o := by
    intro sj lj l g k hl hlv hlt hk hnot heq
    obtain ⟨set3, hset3, hline3⟩ := line_at_some hl
    have hsj : sj < 2 ^ c.s := by rw [← hS]; exact getElem?_some_lt hset3
    obtain ⟨-, h2, h3⟩ := addr_unique g sj k o c.s c.b hk hsj heq
    subst h2
    rw [hset] at hset3
    cases hset3
    have := howner lj l hline3 hlv (by rw [hlt, h3])
    exact hnot ⟨this.1, rfl, this.2⟩
  have hmemfar : ∀ idx, idx ≠ o → (mem.set o v)[idx]? = mem[idx]? := by
    intro idx hne
    rw [List.getElem?_set, if_neg (fun h => hne h.symm)]
  rcases hcase with ⟨hhit, hc⟩ | ⟨hm, hc⟩
  · rcases hcase2 with ⟨h1, -⟩ | ⟨-, hv2, ht2, hpass⟩ | ⟨h1, -⟩
    · exact absurd hhit (by rw [h1]; decide)
    · have hbefore : ∀ j, j < r → ∃ l, set[j]? = some l ∧ l.valid ≠ 0 := by
        intro j hj
        obtain ⟨l, hl, hlv, -⟩ := hpass j hj
        exact ⟨l, hl, hlv⟩
      have hother : ∀ j l, j ≠ r → set[j]? = some l → l.valid ≠ 0 →
          l.tag ≠ ({ incr_frequency line with
            block := line.block.set (o % 2 ^ c.b) v } : cache_line_t).tag := by
        intro j l hj hl hlv hlt
        exact hj (howner j l hl hlv (hlt.trans ht2)).2
      obtain ⟨hpre1, huni1⟩ := prefix_unique_put_line hpre huni set _ r line
        { incr_frequency line with block := line.block.set (o % 2 ^ c.b) v } hset hline hv2
        hbefore hother
      have hlr : line_at c ((o / 2 ^ c.b % 2 ^ c.s : Nat) : Int) r = some line := by
        rw [line_at_of_set hset]; exact hline
      obtain ⟨g, hg, hgk⟩ := hcoh _ r line hlr hv2
      have hg2 : g = o / 2 ^ (c.b + c.s) := by
        rw [ht2] at hg
        exact_mod_cast hg.symm
      subst hg2
      refine ⟨w, hw, ?_, hstart, by rw [hc]; rfl, by rw [hc]; rfl⟩
      rw [hstart]
      refine ⟨?_, ?_, ?_, ?_⟩
      · rw [hc]
        exact wf_put_line hwf set _ r _ hset (by
          simp only [incr_frequency]
          rw [List.length_set]
          exact hblen)
      · rw [hc]; exact hpre1
      · rw [hc]; exact huni1
      · rw [hc]
        intro sj lj l hl hlv
        show ∃ g : Nat, l.tag = (g : Int) ∧ ∀ k, k < 2 ^ c.b →
          g * 2 ^ (c.s + c.b) + sj * 2 ^ c.b + k < (mem.set o v).length ∧
          l.block[k]? = (mem.set o v)[g * 2 ^ (c.s + c.b) + sj * 2 ^ c.b + k]?
        by_cases hpos : sj = o / 2 ^ c.b % 2 ^ c.s ∧ lj = r
        · obtain ⟨h1, h2⟩ := hpos
          subst h1 h2
          rw [line_at_put_line c set _ lj _ hsi hr] at hl
          cases hl
          refine ⟨o / 2 ^ (c.b + c.s), ht2, fun k hk => ?_⟩
          obtain ⟨e1, e2⟩ := hgk k hk
          show o / 2 ^ (c.b + c.s) * 2 ^ (c.s + c.b) + o / 2 ^ c.b % 2 ^ c.s * 2 ^ c.b + k
              < (mem.set o v).length ∧
            (line.block.set (o % 2 ^ c.b) v)[k]? =
              (mem.set o v)[o / 2 ^ (c.b + c.s) * 2 ^ (c.s + c.b) +
                o / 2 ^ c.b % 2 ^ c.s * 2 ^ c.b + k]?
          rw [addr_block_start] at e1 e2 ⊢
          have hk1 : k < 2 ^ c.b := hk
          refine ⟨by rw [List.length_set]; exact e1, ?_⟩
          rw [List.getElem?_set, List.getElem?_set]
          by_cases hk2 : o % 2 ^ c.b = k
          · subst hk2
            rw [if_pos rfl, if_pos hoff, if_pos (by omega), if_pos ho]
          · rw [if_neg hk2, if_neg (by omega)]
            exact e2
        · rw [line_at_put_line_other c set _ r _ hset sj lj hpos] at hl
          obtain ⟨g, hg, hgk⟩ := hcoh sj lj l hl hlv
          refine ⟨g, hg, fun k hk => ?_⟩
          obtain ⟨e1, e2⟩ := hgk k hk
          refine ⟨by rw [List.length_set]; exact e1, ?_⟩
          rw [hmemfar _ (hfar sj lj l g k hl hlv hg hk (fun h => hpos ⟨h.2.1, h.2.2⟩))]
          exact e2
    · exact absurd hhit (by rw [h1]; decide)
  · refine ⟨w, hw, ?_, hstart, by rw [hc], by rw [hc]⟩
    rw [hstart, hc]
    refine ⟨hwf, hpre, huni, ?_⟩
    intro sj lj l hl hlv
    obtain ⟨g, hg, hgk⟩ := hcoh sj lj l hl hlv
    refine ⟨g, hg, fun k hk => ?_⟩
    obtain ⟨e1, e2⟩ := hgk k hk
    refine ⟨by rw [List.length_set]; exact e1, ?_⟩
    rw [hmemfar _ (hfar sj lj l g k hl hlv hg hk
      (fun h => absurd h.1 (miss_ne_hit hm)))]
    exact e2

/-- One call under the invariant, inside the memory: it returns, keeps the invariant and the
length of the memory, and changes the memory only at the offset of a write. -/
theorem cache_inv_step {c : cache_t} {start : List Nat} (hinv : cache_inv c start)
    (hlen : start.length < 2 ^ 31) (a : access) (hok : access_ok c.b start.length a) :
    ∃ c1 mem, step c start a = some (c1, mem) ∧ cache_inv c1 mem ∧
      mem.length = start.length ∧ c1.s = c.s ∧ c1.b = c.b ∧
      ∀ o : Nat, o < start.length →
        mem.getD o 0 = (latest_write [a] (o : Int)).getD (start.getD o 0) := by
  cases a with
  | read off junk =>
    obtain ⟨rfl, h0, hin⟩ := hok
    obtain ⟨n, rfl⟩ := Int.eq_ofNat_of_zero_le h0
    simp only [Int.toNat_ofNat] at hin
    obtain ⟨r, hr, hinv1, -, hs, hb⟩ := cache_inv_read hinv n hlen hin
    refine ⟨r.cache, start, ?_, hinv1, rfl, hs, hb, fun o _ => ?_⟩
    · simp only [step, hr, Option.map_some']
    · simp [latest_write]
  | write off v junk =>
    obtain ⟨rfl, h0, hin⟩ := hok
    obtain ⟨n, rfl⟩ := Int.eq_ofNat_of_zero_le h0
    simp only [Int.toNat_ofNat] at hin
    obtain ⟨w, hw, hinv1, hst, hs, hb⟩ := cache_inv_write hinv n v hin hlen
    refine ⟨w.cache, w.start, ?_, hinv1, ?_, hs, hb, fun o ho => ?_⟩
    · simp only [step, hw, Option.map_some']
    · rw [hst, List.length_set]
    · rw [hst]
      by_cases hno : n = o
      · subst hno
        simp [latest_write, List.getD_eq_getElem?_getD, List.getElem?_set, hin]
      · have hne : ¬ ((n : Int) = (o : Int)) := by exact_mod_cast hno
        simp [latest_write, List.getD_eq_getElem?_getD, List.getElem?_set, hno, hne]

theorem latest_write_cons (a : access) (rest : List access) (o : Int) (d : Nat) :
    (latest_write (a :: rest) o).getD d =
      (latest_write rest o).getD ((latest_write [a] o).getD d) := by
  simp only [latest_write]
  cases latest_write rest o with
  | some v => rfl
  | none => rfl

/-- A sequence of calls under the invariant, each inside the memory: the sequence returns, the
final state satisfies the invariant, and every byte of the memory is the value of the latest
write to its offset, or the initial byte if the sequence has no write to it. -/
theorem cache_inv_run (ops : List access) : ∀ {c : cache_t} {start : List Nat},
    cache_inv c start → start.length < 2 ^ 31 → (∀ a ∈ ops, access_ok c.b start.length a) →
    ∃ c1 mem, run ops c start = some (c1, mem) ∧ cache_inv c1 mem ∧
      mem.length = start.length ∧ c1.s = c.s ∧ c1.b = c.b ∧
      ∀ o : Nat, o < start.length →
        mem.getD o 0 = (latest_write ops (o : Int)).getD (start.getD o 0) := by
  induction ops with
  | nil =>
    intro c start hinv _ _
    exact ⟨c, start, rfl, hinv, rfl, rfl, rfl, fun _ _ => rfl⟩
  | cons a rest ih =>
    intro c start hinv hlen hok
    obtain ⟨c1, m1, hstep, hinv1, hl1, hs1, hb1, hm1⟩ :=
      cache_inv_step hinv hlen a (hok a (List.mem_cons_self _ _))
    obtain ⟨c2, m2, hrun, hinv2, hl2, hs2, hb2, hm2⟩ := ih hinv1 (by rw [hl1]; exact hlen)
      (fun x hx => by rw [hb1, hl1]; exact hok x (List.mem_cons_of_mem _ hx))
    refine ⟨c2, m2, ?_, hinv2, hl2.trans hl1, hs2.trans hs1, hb2.trans hb1, fun o ho => ?_⟩
    · simp only [run, hstep, Option.some_bind]
      exact hrun
    · rw [hm2 o (by rw [hl1]; exact ho), hm1 o ho, latest_write_cons a rest]

/-- A sequence of calls, each inside the memory, on the cache returned by
`initialize_cache(s, t, b, E)` with `E ≥ 1`: the sequence returns, the state it leaves satisfies
the invariant, keeps `s`, `b`, `E` and the length of the memory, and every byte of the memory is
the value of the latest write to its offset, or the initial byte. -/
theorem reachable_inv {s t b E : Nat} {junk : Nat → Nat → Nat → Nat} {c0 : cache_t}
    (hinit : initialize_cache s t b E junk = some c0) (hE : 0 < E) (start : List Nat)
    (hlen : start.length < 2 ^ 31) (ops : List access)
    (hops : ∀ a ∈ ops, access_ok b start.length a) :
    ∃ c mem, run ops c0 start = some (c, mem) ∧ cache_inv c mem ∧
      mem.length = start.length ∧ c.s = s ∧ c.b = b ∧ c.E = E ∧
      ∀ o : Nat, o < start.length →
        mem.getD o 0 = (latest_write ops (o : Int)).getD (start.getD o 0) := by
  obtain ⟨-, -, hc0⟩ := initialize_cache_inv hinit
  have hc0s : c0.s = s := by rw [hc0]
  have hc0b : c0.b = b := by rw [hc0]
  have hc0E : c0.E = E := by rw [hc0]
  obtain ⟨c, mem, hrun, hinv, hl, hs, hb, hm⟩ :=
    cache_inv_run ops (cache_inv_init hinit hE start) hlen (by rw [hc0b]; exact hops)
  obtain ⟨-, -, -, f4, -, -⟩ := run_frame ops hrun
  exact ⟨c, mem, hrun, hinv, hl, hs.trans hc0s, hb.trans hc0b, f4.trans hc0E, hm⟩

/-- Read transparency for calls whose address records start zeroed (`access_ok`). Take the cache
returned by `initialize_cache(s, t, b, E)` with `E ≥ 1`, a memory shorter than `2 ^ 31` bytes, and
any sequence of `read_byte` and `write_byte` calls at non-negative offsets, each read with its
aligned block inside the memory and each write inside the memory. The whole sequence returns, and
every `read_byte(off)` of the sequence returns the byte the memory holds at `off` at that moment,
which is the value of the latest earlier `write_byte` to `off`, or the initial memory byte if
there was none. -/
theorem read_transparency (s t b E : Nat) (junk : Nat → Nat → Nat → Nat) (c0 : cache_t)
    (start : List Nat) (ops : List access)
    (hinit : initialize_cache s t b E junk = some c0) (hE : 0 < E)
    (hlen : start.length < 2 ^ 31) (hops : ∀ a ∈ ops, access_ok b start.length a) :
    (∃ c mem, run ops c0 start = some (c, mem)) ∧
    ∀ (pre post : List access) (off : Int), ops = pre ++ access.read off zero_record :: post →
      ∃ c mem r, run pre c0 start = some (c, mem) ∧ read_byte c mem off zero_record = some r ∧
        mem[off.toNat]? = some r.byte ∧
        r.byte = (latest_write pre off).getD (start.getD off.toNat 0) := by
  refine ⟨?_, fun pre post off hsplit => ?_⟩
  · obtain ⟨c, mem, hrun, -⟩ := reachable_inv hinit hE start hlen ops hops
    exact ⟨c, mem, hrun⟩
  · have hpre : ∀ a ∈ pre, access_ok b start.length a := fun a ha =>
      hops a (by rw [hsplit]; exact List.mem_append_left _ ha)
    have hread : access_ok b start.length (access.read off zero_record) :=
      hops _ (by rw [hsplit]; exact List.mem_append_right _ (List.mem_cons_self _ _))
    obtain ⟨-, h0, hin⟩ := hread
    obtain ⟨o, rfl⟩ := Int.eq_ofNat_of_zero_le h0
    simp only [Int.toNat_ofNat] at hin ⊢
    obtain ⟨c, mem, hrun, hinv, hl, -, hb, -, hm⟩ := reachable_inv hinit hE start hlen pre hpre
    obtain ⟨r, hr, -, hbyte, -, -⟩ := cache_inv_read hinv o (by rw [hl]; exact hlen)
      (by rw [hb, hl]; exact hin)
    have ho : o < start.length := by
      have : 0 < 2 ^ b := by positivity
      have := Nat.mod_le o (2 ^ b)
      omega
    refine ⟨c, mem, r, hrun, hr, hbyte, ?_⟩
    have h1 := hm o ho
    rw [List.getD_eq_getElem?_getD, hbyte, Option.getD_some] at h1
    exact h1

/-- Coherence for calls whose address records start zeroed (`access_ok`). In every state reached
from `initialize_cache(s, t, b, E)` with `E ≥ 1` by `read_byte` and `write_byte` calls inside a
memory shorter than `2 ^ 31` bytes, every valid line of set `i` carries a tag `g ≥ 0` and its
block byte `k` equals the memory byte at `g * 2 ^ (s + b) + i * 2 ^ b + k` for all `k < 2 ^ b`,
and two valid lines of one set with the same tag are the same line; a `write_byte` that misses
keeps this. -/
theorem coherence_invariant (s t b E : Nat) (junk : Nat → Nat → Nat → Nat) (c0 : cache_t)
    (start : List Nat) (ops : List access)
    (hinit : initialize_cache s t b E junk = some c0) (hE : 0 < E)
    (hlen : start.length < 2 ^ 31) (hops : ∀ a ∈ ops, access_ok b start.length a) :
    ∃ c mem, run ops c0 start = some (c, mem) ∧
      (∀ (i li : Nat) (line : cache_line_t), line_at c (i : Int) li = some line →
        line.valid ≠ 0 → ∃ g : Nat, line.tag = (g : Int) ∧ ∀ k, k < 2 ^ b →
          ∃ v, line.block[k]? = some v ∧ mem[g * 2 ^ (s + b) + i * 2 ^ b + k]? = some v) ∧
      (∀ (i li lj : Nat) (l1 l2 : cache_line_t), line_at c (i : Int) li = some l1 →
        line_at c (i : Int) lj = some l2 → l1.valid ≠ 0 → l2.valid ≠ 0 → l1.tag = l2.tag →
        li = lj) ∧
      (∀ o v : Nat, o < start.length → ∃ w, write_byte c mem (o : Int) v zero_record = some w ∧
        coherent w.cache w.start ∧ (w.status ≠ CACHE_HIT → w.cache = c)) := by
  obtain ⟨c, mem, hrun, hinv, hl, hs, hb, -, -⟩ := reachable_inv hinit hE start hlen ops hops
  refine ⟨c, mem, hrun, ?_, ?_, ?_⟩
  · intro i li line hline hv
    obtain ⟨g, hg, hgk⟩ := hinv.2.2.2 i li line hline hv
    refine ⟨g, hg, fun k hk => ?_⟩
    rw [hs, hb] at hgk
    obtain ⟨e1, e2⟩ := hgk k hk
    refine ⟨mem[g * 2 ^ (s + b) + i * 2 ^ b + k], ?_, List.getElem?_eq_getElem e1⟩
    rw [e2]
    exact List.getElem?_eq_getElem e1
  · intro i li lj l1 l2 h1 h2 hv1 hv2 ht
    exact hinv.2.2.1 i li lj l1 l2 h1 h2 hv1 hv2 ht
  · intro o v ho
    obtain ⟨w, hw, hinv1, -⟩ := cache_inv_write hinv o v (by rw [hl]; exact ho)
      (by rw [hl]; exact hlen)
    refine ⟨w, hw, hinv1.2.2.2, fun hmiss => ?_⟩
    obtain ⟨si, set, -, -, -, -, -, hcase⟩ := write_byte_inv hw
    rcases hcase with ⟨hhit, -⟩ | ⟨-, hc⟩
    · exact absurd hhit hmiss
    · exact hc

/-- Index safety for calls whose address records start zeroed (`access_ok`). In every state
reached from `initialize_cache(s, t, b, E)` with `E ≥ 1` by calls inside a memory shorter than `2
^ 31` bytes, and for every offset `off ≥ 0` whose aligned block lies inside the memory,
`read_byte` and `write_byte` return (no access of theirs leaves a set array, a line array, a block
or the memory), and the indices they use are in range: `0 ≤ set_index < 2 ^ s`, `line_index < E`,
`0 ≤ offset < 2 ^ b`, the line exists and its block has `2 ^ b` bytes. -/
theorem index_safety (s t b E : Nat) (junk : Nat → Nat → Nat → Nat) (c0 : cache_t)
    (start : List Nat) (ops : List access)
    (hinit : initialize_cache s t b E junk = some c0) (hE : 0 < E)
    (hlen : start.length < 2 ^ 31) (hops : ∀ a ∈ ops, access_ok b start.length a)
    (off : Int) (new : Nat) (h0 : 0 ≤ off)
    (hin : off.toNat - off.toNat % 2 ^ b + 2 ^ b ≤ start.length) :
    ∃ c mem, run ops c0 start = some (c, mem) ∧ mem.length = start.length ∧
      (∃ r line, read_byte c mem off zero_record = some r ∧
        0 ≤ r.addr.set_index ∧ r.addr.set_index < 2 ^ s ∧ r.line_index < E ∧
        0 ≤ r.addr.offset ∧ r.addr.offset < 2 ^ b ∧
        line_at c r.addr.set_index r.line_index = some line ∧ line.block.length = 2 ^ b) ∧
      (∃ w line, write_byte c mem off new zero_record = some w ∧
        0 ≤ w.addr.set_index ∧ w.addr.set_index < 2 ^ s ∧ w.line_index < E ∧
        0 ≤ w.addr.offset ∧ w.addr.offset < 2 ^ b ∧
        line_at c w.addr.set_index w.line_index = some line ∧ line.block.length = 2 ^ b) := by
  obtain ⟨o, rfl⟩ := Int.eq_ofNat_of_zero_le h0
  simp only [Int.toNat_ofNat] at hin
  obtain ⟨c, mem, hrun, hinv, hl, hs, hb, hcE, -⟩ := reachable_inv hinit hE start hlen ops hops
  have hwf := hinv.1
  have hlen1 : mem.length < 2 ^ 31 := by rw [hl]; exact hlen
  have hin1 : o - o % 2 ^ c.b + 2 ^ c.b ≤ mem.length := by rw [hb, hl]; exact hin
  obtain ⟨hb31, ho⟩ := block_bound hlen1 hin1
  have hsi : ((o / 2 ^ c.b % 2 ^ c.s : Nat) : Int) < 2 ^ s := by
    rw [hs]
    exact_mod_cast Nat.mod_lt _ (by positivity)
  have hof : ((o % 2 ^ c.b : Nat) : Int) < 2 ^ b := by
    rw [hb]
    exact_mod_cast Nat.mod_lt _ (by positivity)
  refine ⟨c, mem, hrun, hl, ?_, ?_⟩
  · obtain ⟨set, st, r, line, line1, byte, hset, hsl, hblk, hst, hline, hread, -⟩ :=
      read_byte_spec hwf mem o hlen1 hin1
    refine ⟨_, line, hread, Int.natCast_nonneg _, hsi, ?_, Int.natCast_nonneg _, hof, ?_, ?_⟩
    · have := getElem?_some_lt hline
      show r < E
      omega
    · show line_at c ((o / 2 ^ c.b % 2 ^ c.s : Nat) : Int) r = some line
      rw [line_at_of_set hset]
      exact hline
    · rw [← hb]
      exact hblk line (List.getElem?_mem hline)
  · obtain ⟨set, st, r, line, w, hset, hst, hline, hoff, hw, -, -, hli, haddr, -⟩ :=
      write_byte_spec hwf mem o new ho hlen1
    obtain ⟨set2, st2, r2, line2, -, hset2, hsl2, hblk2, hst2, hline2, hblen2, -⟩ :=
      lookup_spec hwf o (by omega)
    rw [hset] at hset2
    cases hset2
    rw [hst] at hst2
    cases hst2
    rw [hline] at hline2
    cases hline2
    refine ⟨w, line, hw, ?_, ?_, ?_, ?_, ?_, ?_, ?_⟩
    · rw [haddr]; exact Int.natCast_nonneg _
    · rw [haddr]; exact hsi
    · have := getElem?_some_lt hline
      rw [hli]
      omega
    · rw [haddr]; exact Int.natCast_nonneg _
    · rw [haddr]; exact hof
    · rw [haddr, hli]
      show line_at c ((o / 2 ^ c.b % 2 ^ c.s : Nat) : Int) r = some line
      rw [line_at_of_set hset]
      exact hline
    · rw [← hb]
      exact hblen2

/-- A `hit_ready` state for `o` is one for every offset of the same block, with the byte that
the line holds there. -/
theorem hit_ready_same_block {s b : Nat} {c : cache_t} {o i byte f : Nat} (o1 : Nat)
    (hsame : o1 / 2 ^ b = o / 2 ^ b) (h : hit_ready s b c o i byte f) :
    ∃ byte1, hit_ready s b c o1 i byte1 f := by
  obtain ⟨hwf, hs, hb, set, l, hset, hbefore, hl, hv, ht, hbyte, hf⟩ := h
  have htag : o1 / 2 ^ (b + s) = o / 2 ^ (b + s) := by
    rw [pow_add, ← Nat.div_div_eq_div_mul, ← Nat.div_div_eq_div_mul, hsame]
  have hlen : l.block.length = 2 ^ b := by
    rw [← hb]
    exact (hwf.2.2 set (List.getElem?_mem hset)).2 l (List.getElem?_mem hl)
  have hlt : o1 % 2 ^ b < l.block.length := by
    rw [hlen]
    exact Nat.mod_lt _ (by positivity)
  refine ⟨l.block[o1 % 2 ^ b], hwf, hs, hb, set, l, ?_, ?_, hl, hv, ?_,
    List.getElem?_eq_getElem hlt, hf⟩
  · rw [hsame]; exact hset
  · rw [htag]; exact hbefore
  · rw [htag]; exact ht

/-- A write in a `hit_ready` state is a hit on line `i`, stores the byte into the line and the
memory, and leaves a `hit_ready` state with the frequency one further modulo 256. -/
theorem write_byte_hit_step {s b : Nat} {c : cache_t} {o i byte f : Nat} (start : List Nat)
    (v : Nat) (ho : o < start.length) (hlen : start.length < 2 ^ 31)
    (h : hit_ready s b c o i byte f) :
    ∃ w, write_byte c start (o : Int) v zero_record = some w ∧ w.status = CACHE_HIT ∧ w.line_index = i ∧
      w.start = start.set o v ∧ hit_ready s b w.cache o i v ((f + 1) % 256) := by
  obtain ⟨hwf, hs, hb, set, l, hset, hbefore, hl, hv, ht, hbyte, hf⟩ := h
  subst hs hb
  have hsl : set.length = c.E := (hwf.2.2 set (List.getElem?_mem hset)).1
  have hst := get_status_hit_of hbefore hl hv ht
  rw [hsl] at hst
  obtain ⟨set2, st, r, line, w, hset2, hst2, hline, hoff, hw, hstart, hstatus, hli, -, hcase⟩ :=
    write_byte_spec hwf start o v ho hlen
  rw [hset] at hset2
  cases hset2
  rw [hst] at hst2
  cases hst2
  rw [hl] at hline
  cases hline
  have hsi := getElem?_some_lt hset
  have hil := getElem?_some_lt hl
  rcases hcase with ⟨-, hc⟩ | ⟨hm, -⟩
  · refine ⟨w, hw, hstatus, hli, hstart, ?_⟩
    rw [hc]
    refine ⟨wf_put_line hwf set _ i _ hset (by
        show (l.block.set (o % 2 ^ c.b) v).length = 2 ^ c.b
        rw [List.length_set]
        exact (hwf.2.2 set (List.getElem?_mem hset)).2 l (List.getElem?_mem hl)),
      rfl, rfl, set.set i { incr_frequency l with block := l.block.set (o % 2 ^ c.b) v },
      { incr_frequency l with block := l.block.set (o % 2 ^ c.b) v }, ?_, ?_,
      List.getElem?_set_self hil, hv, ht, ?_, ?_⟩
    · rw [put_line_cache, List.getElem?_set_self hsi]
    · intro j hj
      obtain ⟨x, hx, hxv, hxt⟩ := hbefore j hj
      exact ⟨x, by rw [List.getElem?_set, if_neg (by omega)]; exact hx, hxv, hxt⟩
    · show (l.block.set (o % 2 ^ c.b) v)[o % 2 ^ c.b]? = some v
      exact List.getElem?_set_self hoff
    · simp [incr_frequency, hf]
  · exact absurd rfl (miss_ne_hit hm)

/-- One call in the block of `o`, in a `hit_ready` state for `o` whose block lies inside the
memory: the call returns and leaves a `hit_ready` state with the frequency one further. -/
theorem hit_step {s b : Nat} {c : cache_t} {o i byte f : Nat} (mem : List Nat)
    (hlen : mem.length < 2 ^ 31) (hin : o - o % 2 ^ b + 2 ^ b ≤ mem.length) (a : access)
    (hsame : same_block b o a) (h : hit_ready s b c o i byte f) :
    ∃ c1 mem1 byte1, step c mem a = some (c1, mem1) ∧ mem1.length = mem.length ∧
      hit_ready s b c1 o i byte1 ((f + 1) % 256) := by
  have hpos : 0 < 2 ^ b := by positivity
  have hbound : ∀ o1 : Nat, o1 / 2 ^ b = o / 2 ^ b → o1 < mem.length := by
    intro o1 h1
    have e1 := Nat.div_add_mod o1 (2 ^ b)
    have e2 := Nat.div_add_mod o (2 ^ b)
    have e3 := Nat.mod_lt o1 hpos
    rw [h1] at e1
    omega
  cases a with
  | read off junk =>
    obtain ⟨rfl, h0, hs1⟩ := hsame
    obtain ⟨o1, rfl⟩ := Int.eq_ofNat_of_zero_le h0
    simp only [Int.toNat_ofNat] at hs1
    obtain ⟨b1, hr1⟩ := hit_ready_same_block o1 hs1 h
    obtain ⟨r, hr, -, -, -, -, -, -, hready⟩ :=
      read_byte_hit_step mem (by have := hbound o1 hs1; omega) hr1
    obtain ⟨b2, hr2⟩ := hit_ready_same_block o hs1.symm hready
    exact ⟨r.cache, mem, b2, by simp only [step, hr, Option.map_some'], rfl, hr2⟩
  | write off v junk =>
    obtain ⟨rfl, h0, hs1⟩ := hsame
    obtain ⟨o1, rfl⟩ := Int.eq_ofNat_of_zero_le h0
    simp only [Int.toNat_ofNat] at hs1
    obtain ⟨b1, hr1⟩ := hit_ready_same_block o1 hs1 h
    obtain ⟨w, hw, -, -, hstart, hready⟩ := write_byte_hit_step mem v (hbound o1 hs1) hlen hr1
    obtain ⟨b2, hr2⟩ := hit_ready_same_block o hs1.symm hready
    exact ⟨w.cache, w.start, b2, by simp only [step, hw, Option.map_some'],
      by rw [hstart, List.length_set], hr2⟩

/-- A sequence of calls in the block of `o`, from a `hit_ready` state for `o`: every call is a
hit, and the frequency advances by the number of calls modulo 256. -/
theorem hits_run {s b : Nat} {o i : Nat} (hits : List access) : ∀ (c : cache_t) (mem : List Nat)
    (byte f : Nat), f < 256 → mem.length < 2 ^ 31 → o - o % 2 ^ b + 2 ^ b ≤ mem.length →
    (∀ a ∈ hits, same_block b o a) → hit_ready s b c o i byte f →
    ∃ ck memk bytek, run hits c mem = some (ck, memk) ∧
      hit_ready s b ck o i bytek ((f + hits.length) % 256) := by
  induction hits with
  | nil =>
    intro c mem byte f hf _ _ _ h
    refine ⟨c, mem, byte, rfl, ?_⟩
    rw [List.length_nil, Nat.add_zero, Nat.mod_eq_of_lt hf]
    exact h
  | cons a rest ih =>
    intro c mem byte f _ hlen hin hsame h
    obtain ⟨c1, mem1, byte1, hstep, hl1, hready⟩ :=
      hit_step mem hlen hin a (hsame a (List.mem_cons_self _ _)) h
    obtain ⟨ck, memk, bytek, hrun, hready2⟩ := ih c1 mem1 byte1 _ (Nat.mod_lt _ (by norm_num))
      (by rw [hl1]; exact hlen) (by rw [hl1]; exact hin)
      (fun x hx => hsame x (List.mem_cons_of_mem _ hx)) hready
    refine ⟨ck, memk, bytek, by simp only [run, hstep, Option.some_bind]; exact hrun, ?_⟩
    have : ((f + 1) % 256 + rest.length) % 256 = (f + (rest.length + 1)) % 256 := by omega
    rw [List.length_cons, ← this]
    exact hready2

/-- Frequency counter wrap-around for calls whose address records start zeroed. The counter is
updated modulo 256: a `read_byte` that misses fills a line, and after 255 further calls of
`read_byte` or `write_byte` in the block of that line, all of them hits, the line is valid with
frequency 0. And in a full set with no tag match in which line `i` has frequency 0 and every other
line has frequency at least 1 (such as a line that was filled and never hit), `get_status` returns
CONFLICT_MISS with line `i` as the victim. -/
theorem frequency_wrap_around_zeroed {c : cache_t} (hwf : wf_cache c) (start : List Nat) (o : Nat)
    (hlen : start.length < 2 ^ 31) (hin : o - o % 2 ^ c.b + 2 ^ c.b ≤ start.length) :
    (∃ r1, read_byte c start (o : Int) zero_record = some r1 ∧
      (r1.status = COLD_MISS ∨ r1.status = CONFLICT_MISS →
        ∀ hits : List access, hits.length = 255 → (∀ a ∈ hits, same_block c.b o a) →
        ∃ ck mem line, run hits r1.cache start = some (ck, mem) ∧
          line_at ck r1.addr.set_index r1.line_index = some line ∧
          line.valid ≠ 0 ∧ line.tag = ((o / 2 ^ (c.b + c.s) : Nat) : Int) ∧
          line.frequency = 0)) ∧
    (∀ (set : List cache_line_t) (tag : Int) (i : Nat) (l : cache_line_t),
      (∀ j, j < set.length → passed set tag j) → set[i]? = some l → l.frequency = 0 →
      (∀ j lj, j ≠ i → set[j]? = some lj → 1 ≤ lj.frequency) →
      get_status set set.length tag = some (CONFLICT_MISS, i)) := by
  constructor
  · obtain ⟨r1, f, hr1, hf, hsi, hmiss, hready⟩ := read_byte_makes_hit_ready hwf start o hlen hin
    refine ⟨r1, hr1, fun hm hits hk hsame => ?_⟩
    have hf1 := hmiss hm
    subst hf1
    obtain ⟨ck, mem, bytek, hrun, hready2⟩ :=
      hits_run hits r1.cache start r1.byte 1 (by decide) hlen hin hsame hready
    rw [hk] at hready2
    obtain ⟨-, -, -, set, l, hset, -, hl, hv, ht, -, hfreq⟩ := hready2
    refine ⟨ck, mem, l, hrun, ?_, hv, ht, hfreq⟩
    rw [hsi, line_at_of_set hset]
    exact hl
  · intro set tag i l hpass hl hfreq hothers
    have hi := getElem?_some_lt hl
    have hpos : 0 < set.length := by omega
    have hpass2 : ∀ j, 0 ≤ j → j < 0 + set.length → passed set tag j :=
      fun j _ hj => hpass j (by omega)
    obtain ⟨r, hr, hcase⟩ := get_status_loop_conflict set.length 0 (set[0]).frequency 0 hpass2
    rw [← get_status_eq_loop hpos] at hr
    have hri : r = i := by
      rcases hcase with ⟨hr0, hmin⟩ | ⟨_, h2, v, hv1, _, _, hv4⟩
      · subst hr0
        by_contra hne
        have h1 := hothers 0 set[0] hne (List.getElem?_eq_getElem hpos)
        have h2 := hmin i l (by omega) (by omega) hl
        omega
      · by_contra hne
        have h1 := hothers r v hne hv1
        have h3 := hv4 i l (by omega) (by omega) hl
        omega
    rw [hr, hri]

/-- The calls of `demo_ops` on the fresh `demo_cache`, evaluated: the lines and the memory they
leave. The write of 7 at offset 2 misses and changes the memory only; the read at offset 2 that
follows loads the block from the memory and so holds 7. -/
theorem demo_ops_run :
    run demo_ops demo_cache demo_mem = some
      ({ s := 1, t := 0, b := 1, E := 2
         cache := [[⟨1, 2, 1, [14, 99]⟩, ⟨0, 0, 0, [0, 0]⟩],
                   [⟨1, 1, 0, [7, 13]⟩, ⟨0, 0, 0, [0, 0]⟩]] },
       [10, 11, 7, 13, 14, 99, 16, 17]) := by
  decide

set_option maxRecDepth 100000 in
/-- The read at offset 5 of `demo_mem` through the cold `demo_cache` followed by the 255 calls
of `demo_hits`, evaluated: line 0 of set 0 ends valid with frequency 0, tag 1 and the block that
the writes left. -/
theorem demo_hits_wrap :
    (run (access.read 5 zero_record :: demo_hits) demo_cache demo_mem).map (fun p => line_at p.1 0 0)
      = some (some ⟨1, 0, 1, [9, 15]⟩) := by
  decide

/-! ## Calls with any address record -/

/-- What a result of `get_status` on a set of `E ≥ 1` lines says about the line it names. -/
theorem get_status_result {set : List cache_line_t} {E : Nat} {tag : Int} {st r : Nat}
    (hlen : set.length = E) (hE : 0 < E) (h : get_status set E tag = some (st, r)) :
    ∃ line, set[r]? = some line ∧
      ((st = COLD_MISS ∧ line.valid = 0 ∧ ∀ j, j < r → passed set tag j) ∨
       (st = CACHE_HIT ∧ line.valid ≠ 0 ∧ line.tag = tag ∧ ∀ j, j < r → passed set tag j) ∨
       (st = CONFLICT_MISS ∧ ∀ j, j < set.length → passed set tag j)) := by
  subst hlen
  obtain ⟨st1, r1, hst, hr, hcase⟩ := get_status_cases tag hE
  rw [hst] at h
  have h2 := Option.some.inj h
  have e1 : st1 = st := congrArg Prod.fst h2
  have e2 : r1 = r := congrArg Prod.snd h2
  subst e1 e2
  refine ⟨set[r1], List.getElem?_eq_getElem hr, ?_⟩
  rcases hcase with ⟨h1, ⟨l1, hl1, hv1⟩, hp⟩ | ⟨h1, ⟨l1, hl1, hv1, ht1⟩, hp⟩ | h3
  · rw [List.getElem?_eq_getElem hr] at hl1
    cases hl1
    exact Or.inl ⟨h1, hv1, hp⟩
  · rw [List.getElem?_eq_getElem hr] at hl1
    cases hl1
    exact Or.inr (Or.inl ⟨h1, hv1, ht1, hp⟩)
  · exact Or.inr (Or.inr h3)

/-- Replacing the line that `get_status` named by a valid line with the target tag keeps the
valid prefix and the unique tags. -/
theorem prefix_unique_named {c : cache_t} (hwf : wf_cache c) (hpre : valid_prefix c)
    (huni : unique_tags c) {set : List cache_line_t} {si r st : Nat} {tag : Int}
    {line line1 : cache_line_t} (hset : c.cache[si]? = some set)
    (hst : get_status set c.E tag = some (st, r)) (hline : set[r]? = some line)
    (hv1 : line1.valid ≠ 0) (ht1 : line1.tag = tag) :
    valid_prefix (put_line c set (si : Int) r line1) ∧
    unique_tags (put_line c set (si : Int) r line1) := by
  have hsl : set.length = c.E := (hwf.2.2 set (List.getElem?_mem hset)).1
  obtain ⟨line2, hline2, hcase⟩ := get_status_result hsl hwf.1 hst
  rw [hline] at hline2
  cases hline2
  have howner := tag_owner hpre huni hset hline hcase
  have hbefore : ∀ j, j < r → ∃ l, set[j]? = some l ∧ l.valid ≠ 0 := by
    intro j hj
    rcases hcase with ⟨-, -, hp⟩ | ⟨-, -, -, hp⟩ | ⟨-, hp⟩
    · obtain ⟨l, hl, hlv, -⟩ := hp j hj
      exact ⟨l, hl, hlv⟩
    · obtain ⟨l, hl, hlv, -⟩ := hp j hj
      exact ⟨l, hl, hlv⟩
    · obtain ⟨l, hl, hlv, -⟩ := hp j (lt_trans hj (getElem?_some_lt hline))
      exact ⟨l, hl, hlv⟩
  have hother : ∀ j l, j ≠ r → set[j]? = some l → l.valid ≠ 0 → l.tag ≠ line1.tag := by
    intro j l hj hl hlv hlt
    exact hj (howner j l hl hlv (hlt.trans ht1)).2
  exact prefix_unique_put_line hpre huni set si r line line1 hset hline hv1 hbefore hother

/-- Whatever its address record held, a `read_byte` that returns keeps the allocated shape, the
valid prefix and the unique tags. -/
theorem shape_read {junk : address_t} {c : cache_t} {start : List Nat} {off : Int}
    {r : read_outcome} (hwf : wf_cache c) (hpre : valid_prefix c) (huni : unique_tags c)
    (h : read_byte c start off junk = some r) :
    wf_cache r.cache ∧ valid_prefix r.cache ∧ unique_tags r.cache := by
  obtain ⟨si, set, line, line1, -, -, hset, hst, hline, hc, -, -, hcase⟩ := read_byte_inv h
  have hsl : set.length = c.E := (hwf.2.2 set (List.getElem?_mem hset)).1
  obtain ⟨line2, hline2, hcase2⟩ := get_status_result hsl hwf.1 hst
  rw [hline] at hline2
  cases hline2
  have hvt : line1.valid ≠ 0 ∧ line1.tag = r.addr.tag := by
    rcases hcase with ⟨-, hins⟩ | ⟨hhit, hinc⟩
    · obtain ⟨h1, -, h3, -⟩ := insert_data_to_block_inv hins
      exact ⟨by rw [h1]; decide, h3⟩
    · rcases hcase2 with ⟨h1, -⟩ | ⟨-, hv, ht, -⟩ | ⟨h1, -⟩
      · rw [h1] at hhit; exact absurd hhit (by decide)
      · rw [hinc]; exact ⟨hv, ht⟩
      · rw [h1] at hhit; exact absurd hhit (by decide)
  obtain ⟨h1, h2⟩ := prefix_unique_named hwf hpre huni hset hst hline hvt.1 hvt.2
  rw [hc]
  exact ⟨by rw [← hc]; exact wf_read_byte hwf h, h1, h2⟩

/-- Whatever its address record held, a `write_byte` that returns keeps the allocated shape, the
valid prefix and the unique tags. -/
theorem shape_write {junk : address_t} {c : cache_t} {start : List Nat} {off : Int} {new : Nat}
    {w : write_outcome} (hwf : wf_cache c) (hpre : valid_prefix c) (huni : unique_tags c)
    (h : write_byte c start off new junk = some w) :
    wf_cache w.cache ∧ valid_prefix w.cache ∧ unique_tags w.cache := by
  obtain ⟨si, set, -, -, hset, hst, -, hcase⟩ := write_byte_inv h
  have hsl : set.length = c.E := (hwf.2.2 set (List.getElem?_mem hset)).1
  rcases hcase with ⟨hhit, line, block1, hline, -, hc⟩ | ⟨-, hc⟩
  · obtain ⟨line2, hline2, hcase2⟩ := get_status_result hsl hwf.1 hst
    rw [hline] at hline2
    cases hline2
    have hvt : line.valid ≠ 0 ∧ line.tag = w.addr.tag := by
      rcases hcase2 with ⟨h1, -⟩ | ⟨-, hv, ht, -⟩ | ⟨h1, -⟩
      · rw [h1] at hhit; exact absurd hhit (by decide)
      · exact ⟨hv, ht⟩
      · rw [h1] at hhit; exact absurd hhit (by decide)
    have hnamed : ∀ l1 : cache_line_t, l1.valid ≠ 0 → l1.tag = w.addr.tag →
        valid_prefix (put_line c set (si : Int) w.line_index l1) ∧
        unique_tags (put_line c set (si : Int) w.line_index l1) :=
      fun l1 hv1 ht1 => prefix_unique_named hwf hpre huni hset hst hline hv1 ht1
    obtain ⟨h1, h2⟩ := hnamed { incr_frequency line with block := block1 } hvt.1 hvt.2
    rw [hc]
    exact ⟨by rw [← hc]; exact wf_write_byte hwf h, h1, h2⟩
  · rw [hc]
    exact ⟨hwf, hpre, huni⟩

/-- A sequence of calls that returns, whatever the address records held, keeps the allocated
shape, the valid prefix and the unique tags. -/
theorem shape_run (ops : List access) : ∀ {c c1 : cache_t} {start start1 : List Nat},
    run ops c start = some (c1, start1) → wf_cache c → valid_prefix c → unique_tags c →
    wf_cache c1 ∧ valid_prefix c1 ∧ unique_tags c1 := by
  induction ops with
  | nil =>
    intro c c1 start start1 h hwf hpre huni
    simp only [run, Option.some.injEq, Prod.mk.injEq] at h
    obtain ⟨h1, -⟩ := h
    subst h1
    exact ⟨hwf, hpre, huni⟩
  | cons a rest ih =>
    intro c c1 start start1 h hwf hpre huni
    simp only [run] at h
    cases hs : step c start a with
    | none => rw [hs] at h; cases h
    | some p =>
      rw [hs, Option.some_bind] at h
      have hshape : wf_cache p.1 ∧ valid_prefix p.1 ∧ unique_tags p.1 := by
        cases a with
        | read off junk =>
          simp only [step] at hs
          cases hr : read_byte c start off junk with
          | none => rw [hr] at hs; cases hs
          | some r =>
            rw [hr] at hs
            simp only [Option.map_some', Option.some.injEq] at hs
            rw [← hs]
            exact shape_read hwf hpre huni hr
        | write off v junk =>
          simp only [step] at hs
          cases hw : write_byte c start off v junk with
          | none => rw [hw] at hs; cases hs
          | some w =>
            rw [hw] at hs
            simp only [Option.map_some', Option.some.injEq] at hs
            rw [← hs]
            exact shape_write hwf hpre huni hw
      exact ih h hshape.1 hshape.2.1 hshape.2.2


/-- Whatever the address record held, a `read_byte` classified CACHE_HIT leaves the hit line
with its frequency incremented modulo 256 and nothing else of it changed. -/
theorem read_hit_line {junk : address_t} {c : cache_t} {start : List Nat} {off : Int}
    {r : read_outcome} (h : read_byte c start off junk = some r) (hhit : r.status = CACHE_HIT) :
    ∃ line, line_at c r.addr.set_index r.line_index = some line ∧
      line_at r.cache r.addr.set_index r.line_index = some (incr_frequency line) := by
  obtain ⟨si, set, line, line1, -, hsi, hset, -, hline, hc, -, -, hcase⟩ := read_byte_inv h
  have hl1 : line1 = incr_frequency line := by
    rcases hcase with ⟨hm, -⟩ | ⟨-, hl⟩
    · exact absurd hhit (miss_ne_hit hm)
    · exact hl
  refine ⟨line, ?_, ?_⟩
  · rw [hsi, line_at_of_set hset]
    exact hline
  · rw [hc, hsi, hl1]
    exact line_at_put_line c set si r.line_index _ (getElem?_some_lt hset)
      (getElem?_some_lt hline)

/-- Whatever the address record held, a `read_byte` classified as a miss leaves the selected
line valid, with frequency 1 and the decoded tag. -/
theorem read_miss_line {junk : address_t} {c : cache_t} {start : List Nat} {off : Int}
    {r : read_outcome} (h : read_byte c start off junk = some r)
    (hmiss : r.status = COLD_MISS ∨ r.status = CONFLICT_MISS) :
    ∃ line1, line_at r.cache r.addr.set_index r.line_index = some line1 ∧
      line1.valid = 1 ∧ line1.frequency = 1 ∧ line1.tag = r.addr.tag := by
  obtain ⟨si, set, line, line1, -, hsi, hset, -, hline, hc, -, -, hcase⟩ := read_byte_inv h
  have hins : insert_data_to_block line start off c.b r.addr.tag = some line1 := by
    rcases hcase with ⟨-, hins⟩ | ⟨hhit, -⟩
    · exact hins
    · exact absurd hhit (miss_ne_hit hmiss)
  obtain ⟨h1, h2, h3, -⟩ := insert_data_to_block_inv hins
  refine ⟨line1, ?_, h1, h2, h3⟩
  rw [hc, hsi]
  exact line_at_put_line c set si r.line_index _ (getElem?_some_lt hset)
    (getElem?_some_lt hline)

/-- Whatever the address record held, a `write_byte` classified CACHE_HIT leaves the hit line
with its frequency incremented modulo 256 and the byte at the decoded block offset set to the
new value; valid bit, tag and the other block bytes are unchanged. -/
theorem write_hit_line {junk : address_t} {c : cache_t} {start : List Nat} {off : Int}
    {v : Nat} {w : write_outcome} (h : write_byte c start off v junk = some w)
    (hhit : w.status = CACHE_HIT) :
    ∃ (line : cache_line_t) (bo : Nat), w.addr.offset = (bo : Int) ∧ bo < line.block.length ∧
      line_at c w.addr.set_index w.line_index = some line ∧
      line_at w.cache w.addr.set_index w.line_index
        = some { valid := line.valid
                 frequency := (line.frequency + 1) % 256
                 tag := line.tag
                 block := line.block.set bo v } := by
  obtain ⟨si, set, -, hsi, hset, -, -, hcase⟩ := write_byte_inv h
  rcases hcase with ⟨-, line, block1, hline, hstore, hc⟩ | ⟨hm, -⟩
  · obtain ⟨bo, hbo, hlt, hb1⟩ := store_some_iff hstore
    refine ⟨line, bo, hbo, hlt, ?_, ?_⟩
    · rw [hsi, line_at_of_set hset]
      exact hline
    · rw [hc, hsi, hb1]
      exact line_at_put_line c set si w.line_index _ (getElem?_some_lt hset)
        (getElem?_some_lt hline)
  · exact absurd hhit (miss_ne_hit hm)

/-- A call that reports CACHE_HIT on line `li` of set `si`, whatever its address record held:
the call returns, and that line keeps valid bit and tag while its frequency advances by one
modulo 256. -/
theorem hit_report_step {c : cache_t} {start : List Nat} {si : Int} {li : Nat} (a : access)
    (h : access_report c start a = some (CACHE_HIT, si, li)) :
    ∃ p line line1, step c start a = some p ∧ line_at c si li = some line ∧
      line_at p.1 si li = some line1 ∧ line1.valid = line.valid ∧ line1.tag = line.tag ∧
      line1.frequency = (line.frequency + 1) % 256 := by
  cases a with
  | read off junk =>
    simp only [access_report] at h
    cases hr : read_byte c start off junk with
    | none => rw [hr] at h; cases h
    | some r =>
      rw [hr] at h
      simp only [Option.map_some', Option.some.injEq, Prod.mk.injEq] at h
      obtain ⟨h1, h2, h3⟩ := h
      obtain ⟨line, hl, hl1⟩ := read_hit_line hr h1
      rw [h2, h3] at hl hl1
      exact ⟨(r.cache, start), line, incr_frequency line,
        by simp only [step, hr, Option.map_some'], hl, hl1, rfl, rfl, rfl⟩
  | write off v junk =>
    simp only [access_report] at h
    cases hw : write_byte c start off v junk with
    | none => rw [hw] at h; cases h
    | some w =>
      rw [hw] at h
      simp only [Option.map_some', Option.some.injEq, Prod.mk.injEq] at h
      obtain ⟨h1, h2, h3⟩ := h
      obtain ⟨line, bo, -, -, hl, hl1⟩ := write_hit_line hw h1
      rw [h2, h3] at hl hl1
      exact ⟨(w.cache, w.start), line, _, by simp only [step, hw, Option.map_some'], hl, hl1,
        rfl, rfl, rfl⟩

/-- A sequence of calls each of which reports CACHE_HIT on line `li` of set `si`, whatever the
address records held: the sequence returns, and the line keeps valid bit and tag while its
frequency advances by the number of calls modulo 256. -/
theorem all_hits_run {si : Int} {li : Nat} (hits : List access) :
    ∀ (c : cache_t) (start : List Nat) (line : cache_line_t),
      all_hits si li hits c start = true → line_at c si li = some line →
      line.frequency < 256 →
      ∃ ck memk lk, run hits c start = some (ck, memk) ∧ line_at ck si li = some lk ∧
        lk.valid = line.valid ∧ lk.tag = line.tag ∧
        lk.frequency = (line.frequency + hits.length) % 256 := by
  induction hits with
  | nil =>
    intro c start line _ hl hf
    exact ⟨c, start, line, rfl, hl, rfl, rfl, by
      rw [List.length_nil, Nat.add_zero, Nat.mod_eq_of_lt hf]⟩
  | cons a rest ih =>
    intro c start line h hl _
    simp only [all_hits, Bool.and_eq_true, decide_eq_true_eq] at h
    obtain ⟨hrep, hrest⟩ := h
    obtain ⟨p, line0, line1, hstep, hl0, hl1, hv, ht, hfr⟩ := hit_report_step a hrep
    rw [hl] at hl0
    cases hl0
    rw [hstep] at hrest
    obtain ⟨ck, memk, lk, hrun, hlk, hv2, ht2, hf2⟩ :=
      ih p.1 p.2 line1 hrest hl1 (by rw [hfr]; exact Nat.mod_lt _ (by norm_num))
    refine ⟨ck, memk, lk, by simp only [run, hstep, Option.some_bind]; exact hrun, hlk,
      hv2.trans hv, ht2.trans ht, ?_⟩
    rw [hf2, hfr, List.length_cons]
    omega

/-- Claim C8 (frequency counting), amended. The counter is a `uchar`. Whatever the address
record of the call held, a `read_byte` classified CACHE_HIT leaves the hit line with frequency
`(f + 1) mod 256`, where `f` was its frequency before, and everything else in the line unchanged;
this is `f + 1` whenever `f < 255`. Hence a line that a miss has filled and that is then hit by
`k` calls in a row has frequency `(1 + k) mod 256`. With address records that start zeroed such
calls exist on every cache of the allocated shape: a read at an offset `o` in `int` range whose
block lies inside the memory returns, and every repetition of it returns and is a hit. -/
theorem read_byte_hit_frequency (c : cache_t) (start : List Nat) (o : Nat)
    (hwf : wf_cache c) (ho : o < 2 ^ 31) :
    (∀ off junk r, read_byte c start off junk = some r → r.status = CACHE_HIT →
      ∃ line, line_at c r.addr.set_index r.line_index = some line ∧
        line_at r.cache r.addr.set_index r.line_index
          = some { line with frequency := (line.frequency + 1) % 256 } ∧
        (line.frequency < 255 → (line.frequency + 1) % 256 = line.frequency + 1)) ∧
    (∀ off junk r1, read_byte c start off junk = some r1 →
      (r1.status = COLD_MISS ∨ r1.status = CONFLICT_MISS) →
      ∀ hits, all_hits r1.addr.set_index r1.line_index hits r1.cache start = true →
      ∃ ck memk l, run hits r1.cache start = some (ck, memk) ∧
        line_at ck r1.addr.set_index r1.line_index = some l ∧
        l.frequency = (1 + hits.length) % 256) ∧
    (∀ i, classify c (o : Int) zero_record = some (CACHE_HIT, i) →
      ∃ r, read_byte c start (o : Int) zero_record = some r ∧ r.status = CACHE_HIT ∧
        r.line_index = i) ∧
    (start.length < 2 ^ 31 → o - o % 2 ^ c.b + 2 ^ c.b ≤ start.length →
      ∃ r1, read_byte c start (o : Int) zero_record = some r1 ∧
        (r1.status = COLD_MISS ∨ r1.status = CONFLICT_MISS →
          ∀ k, ∃ ck l, read_again start (o : Int) zero_record k r1.cache = some ck ∧
            line_at ck r1.addr.set_index r1.line_index = some l ∧
            l.frequency = (1 + k) % 256)) := by
  obtain ⟨hz1, hz2⟩ := read_byte_hit_frequency_zeroed c start o hwf ho
  refine ⟨?_, ?_, ?_, hz2⟩
  · intro off junk r hr hhit
    obtain ⟨line, hl, hl1⟩ := read_hit_line hr hhit
    exact ⟨line, hl, hl1, fun hlt => Nat.mod_eq_of_lt (by omega)⟩
  · intro off junk r1 hr1 hmiss hits hall
    obtain ⟨line1, hl1, -, hf1, -⟩ := read_miss_line hr1 hmiss
    obtain ⟨ck, memk, lk, hrun, hlk, -, -, hfk⟩ :=
      all_hits_run hits r1.cache start line1 hall hl1 (by rw [hf1]; norm_num)
    exact ⟨ck, memk, lk, hrun, hlk, by rw [hfk, hf1]⟩
  · intro i hcl
    obtain ⟨r, line, hr, h1, h2, -⟩ := hz1 i hcl
    exact ⟨r, hr, h1, h2⟩

/-- Witness for C8: the hits on the warm cache, and the hits that follow a fill of it. -/
theorem read_byte_hit_frequency_witness :
    wf_cache warm_cache ∧ 5 < 2 ^ 31 ∧
    (∀ off junk r, read_byte warm_cache demo_mem off junk = some r → r.status = CACHE_HIT →
      ∃ line, line_at warm_cache r.addr.set_index r.line_index = some line ∧
        line_at r.cache r.addr.set_index r.line_index
          = some { line with frequency := (line.frequency + 1) % 256 } ∧
        (line.frequency < 255 → (line.frequency + 1) % 256 = line.frequency + 1)) ∧
    (∀ off junk r1, read_byte warm_cache demo_mem off junk = some r1 →
      (r1.status = COLD_MISS ∨ r1.status = CONFLICT_MISS) →
      ∀ hits, all_hits r1.addr.set_index r1.line_index hits r1.cache demo_mem = true →
      ∃ ck memk l, run hits r1.cache demo_mem = some (ck, memk) ∧
        line_at ck r1.addr.set_index r1.line_index = some l ∧
        l.frequency = (1 + hits.length) % 256) :=
  ⟨by decide, by decide,
    (read_byte_hit_frequency warm_cache demo_mem 5 (by decide) (by decide)).1,
    (read_byte_hit_frequency warm_cache demo_mem 5 (by decide) (by decide)).2.1⟩

/-- Claim C2 (line fill on a read miss), evaluated on an address record with a leftover tag.
The read at offset 5 of `demo_mem` through the cold `demo_cache` (`s = 1`, `b = 1`) is a
COLD_MISS on line 0 of set 0; with tag 4 left in the record the filled line has valid 1,
frequency 1 and the block 14, 15 of the offsets 4-5, but its tag is 5, not the tag 1 of
offset 5. -/
theorem read_byte_miss_fill_leftover_tag :
    initialize_cache 1 0 1 2 zero_junk = some demo_cache ∧
    read_byte demo_cache demo_mem 5 leftover_tag
      = some ⟨15, leftover_cache, COLD_MISS, ⟨1, 0, 5⟩, 0⟩ ∧
    line_at leftover_cache 0 0 = some ⟨1, 1, 5, [14, 15]⟩ ∧
    (5 : Int) / 2 ^ (1 + 1) = 1 ∧
    (line_at leftover_cache 0 0).map (fun l => l.tag) ≠ some ((5 : Int) / 2 ^ (1 + 1)) := by
  decide

/-- Claim C6 (write-no-allocate), evaluated on an address record with a leftover tag. On
`warm_cache`, whose line 0 of set 0 holds the block of offset 5, the write of 99 at offset 5
with tag 4 left in its record is classified COLD_MISS (on line 1) and leaves every line as it
was, and the read at offset 5 issued right after it, with a zeroed record, is a CACHE_HIT on
line 0 that returns 15, not the 99 that the memory holds. -/
theorem write_miss_then_read_hit :
    write_byte warm_cache demo_mem 5 99 leftover_tag
      = some ⟨warm_cache, [10, 11, 12, 13, 14, 99, 16, 17], COLD_MISS, ⟨1, 0, 5⟩, 1⟩ ∧
    (read_byte warm_cache [10, 11, 12, 13, 14, 99, 16, 17] 5 zero_record).map
      (fun r => (r.status, r.line_index, r.byte)) = some (CACHE_HIT, 0, 15) := by
  decide

/-- Claim C7 (hit idempotence), evaluated on an address record with a leftover tag. After the
read at offset 5 of `demo_mem` through the cold `demo_cache` (a COLD_MISS that fills line 0 of
set 0), the next read at offset 5, with tag 4 left in its record, is not a hit: it is a
COLD_MISS on line 1, whose valid bit, tag and block it changes. -/
theorem repeated_read_leftover_miss :
    run_reports [access.read 5 zero_record, access.read 5 leftover_tag] demo_cache demo_mem
      = some [(COLD_MISS, 0, 0), (COLD_MISS, 0, 1)] ∧
    (run [access.read 5 zero_record] demo_cache demo_mem).bind (fun p => line_at p.1 0 1)
      = some ⟨0, 0, 0, [0, 0]⟩ ∧
    (run [access.read 5 zero_record, access.read 5 leftover_tag] demo_cache demo_mem).bind
      (fun p => line_at p.1 0 1) = some ⟨1, 1, 5, [14, 15]⟩ := by
  decide

/-- Claim C16 (scenario A), evaluated on an address record with a leftover tag. On the cache
initialised with `s = 0`, `b = 0`, `E = 1` the reads at offsets 0, 1, 0, the first of them with
tag 1 left in its record, are classified COLD_MISS, CACHE_HIT, CONFLICT_MISS: the line holds
tag 1 after the first read, and the second read is a hit that returns the byte of offset 0. -/
theorem scenario_thrashing_leftover :
    initialize_cache 0 0 0 1 zero_junk = some one_line_cache ∧
    run_reports [access.read 0 leftover_one, access.read 1 zero_record,
        access.read 0 zero_record] one_line_cache demo_mem
      = some [(COLD_MISS, 0, 0), (CACHE_HIT, 0, 0), (CONFLICT_MISS, 0, 0)] ∧
    (read_byte one_line_cache demo_mem 0 leftover_one).bind (fun r => line_at r.cache 0 0)
      = some ⟨1, 1, 1, [10]⟩ ∧
    (read_byte one_line_cache demo_mem 0 leftover_one).bind
      (fun r => (read_byte r.cache demo_mem 1 zero_record).map (fun r2 => r2.byte))
      = some 10 ∧
    demo_mem[1]? = some 11 := by
  decide

/-- Claim C17 (scenario B), evaluated on an address record with a leftover tag. On the cache
initialised with `s = 0`, `b = 0`, `E = 2` the reads at offsets 0, 8, 16, the first of them with
tag 8 left in its record, are classified COLD_MISS on line 0, CACHE_HIT on line 0 and COLD_MISS
on line 1: no line is evicted, and afterwards line 0 holds tag 8 and line 1 holds tag 16. -/
theorem scenario_coexistence_leftover :
    initialize_cache 0 0 0 2 zero_junk = some two_line_cache ∧
    run_reports [access.read 0 ⟨0, 0, 8⟩, access.read 8 zero_record,
        access.read 16 zero_record] two_line_cache long_mem
      = some [(COLD_MISS, 0, 0), (CACHE_HIT, 0, 0), (COLD_MISS, 0, 1)] ∧
    (run [access.read 0 ⟨0, 0, 8⟩, access.read 8 zero_record, access.read 16 zero_record]
        two_line_cache long_mem).map (fun p => p.1.cache)
      = some [[⟨1, 2, 8, [0]⟩, ⟨1, 1, 16, [16]⟩]] := by
  decide

/-- Claim C21 (read transparency), evaluated on an address record with a leftover tag. From the
fresh `demo_cache` the read at offset 0 of `demo_mem`, with tag 1 left in its record, files the
block of the offsets 0-1 under tag 1; the read at offset 4 that follows, with a zeroed record,
is a CACHE_HIT on that line and returns 10, while the memory holds 14 at offset 4 and no write
was issued. -/
theorem read_returns_other_block :
    initialize_cache 1 0 1 2 zero_junk = some demo_cache ∧
    (read_byte demo_cache demo_mem 0 leftover_one).bind
      (fun r => (read_byte r.cache demo_mem 4 zero_record).map
        (fun r2 => (r2.status, r2.byte))) = some (CACHE_HIT, 10) ∧
    demo_mem[4]? = some 14 ∧
    latest_write [access.read 0 leftover_one] 4 = none := by
  decide

/-- Claim C22 (coherence invariant), evaluated on an address record with a leftover tag. From
the fresh `demo_cache` (`s = 1`, `b = 1`) the read at offset 2 of `demo_mem`, with tag 1 left in
its record, leaves line 0 of set 1 valid with tag 1 and block 12, 13, while the memory holds 16,
17 at the addresses `1 * 2^(1+1) + 1 * 2^1 + k` of that set and tag. -/
theorem valid_line_other_block :
    initialize_cache 1 0 1 2 zero_junk = some demo_cache ∧
    (read_byte demo_cache demo_mem 2 leftover_one).bind (fun r => line_at r.cache 1 0)
      = some ⟨1, 1, 1, [12, 13]⟩ ∧
    demo_mem[1 * 2 ^ (1 + 1) + 1 * 2 ^ 1 + 0]? = some 16 ∧
    demo_mem[1 * 2 ^ (1 + 1) + 1 * 2 ^ 1 + 1]? = some 17 := by
  decide

/-- Claim C24 (index safety), evaluated on address records with a leftover set index. On the
fresh `demo_cache` (`s = 1`: two sets) and offset 5, whose aligned block lies inside `demo_mem`,
a record in which `malloc` left set index 2 decodes to set index 2, outside the two sets:
`read_byte` and `write_byte` index `cache.cache[2]` and have no defined result. The same holds
for a record every byte of which is `0x01`. -/
theorem set_index_out_of_range :
    initialize_cache 1 0 1 2 zero_junk = some demo_cache ∧
    (0 : Int) ≤ 5 ∧ 5 - 5 % 2 ^ 1 + 2 ^ 1 ≤ demo_mem.length ∧
    extract_bts_from_address 5 1 0 1 leftover_set = some ⟨1, 2, 1⟩ ∧
    demo_cache.cache.length = 2 ^ 1 ∧
    read_byte demo_cache demo_mem 5 leftover_set = none ∧
    write_byte demo_cache demo_mem 5 9 leftover_set = none ∧
    extract_bts_from_address 5 1 0 1 perturbed_record
      = some ⟨72340172838076674, 72340172838076673, 72340172838076674⟩ ∧
    read_byte demo_cache demo_mem 5 perturbed_record = none ∧
    write_byte demo_cache demo_mem 5 9 perturbed_record = none := by
  decide

/-! ## read_byte on the heap -/

theorem set_getElem_same {α : Type} (xs : List α) (i : Nat) (h : i < xs.length) :
    xs.set i xs[i] = xs := by
  apply List.ext_getElem?
  intro k
  rw [List.getElem?_set]
  by_cases hk : i = k
  · subst hk
    rw [if_pos rfl, if_pos h, List.getElem?_eq_getElem h]
  · rw [if_neg hk]

/-- The copy loop stores into the allocation `block` only. -/
theorem copy_loop_heap_frame (start block : Nat) (off : Int) (n : Nat) :
    ∀ (i : Nat) (heap heap1 : List (List Nat)),
      copy_loop_heap start block off n i heap = some heap1 →
      ∀ h, h ≠ block → heap1[h]? = heap[h]? := by
  induction n with
  | zero =>
    intro i heap heap1 h0 h _
    simp only [copy_loop_heap, Option.some.injEq] at h0
    rw [h0]
  | succ n ih =>
    intro i heap heap1 h0 h hne
    rw [copy_loop_heap] at h0
    cases hm : heap[start]? with
    | none => rw [hm] at h0; cases h0
    | some mem =>
      rw [hm, Option.some_bind] at h0
      cases hv : load mem (off + i) with
      | none => rw [hv] at h0; cases h0
      | some v =>
        rw [hv, Option.some_bind] at h0
        cases hb : heap[block]? with
        | none => rw [hb] at h0; cases h0
        | some blk =>
          rw [hb, Option.some_bind] at h0
          cases hs : store blk (i : Int) v with
          | none => rw [hs] at h0; cases h0
          | some blk1 =>
            rw [hs, Option.some_bind] at h0
            rw [ih (i + 1) _ heap1 h0 h hne, List.getElem?_set, if_neg (fun e => hne e.symm)]

/-- When the allocation `block` is not the allocation `start`, the copy loop on the heap is the
copy loop on the two allocations taken as separate values. -/
theorem copy_loop_heap_eq (start block : Nat) (off : Int) (hne : block ≠ start)
    (mem : List Nat) (n : Nat) :
    ∀ (i : Nat) (heap : List (List Nat)) (blk : List Nat), heap[start]? = some mem →
      heap[block]? = some blk →
      copy_loop_heap start block off n i heap
        = (copy_loop mem off n i blk).map fun blk1 => heap.set block blk1 := by
  induction n with
  | zero =>
    intro i heap blk _ hb
    simp only [copy_loop_heap, copy_loop, Option.map_some', Option.some.injEq]
    have hlt := getElem?_some_lt hb
    have hget : heap[block] = blk := by
      rw [List.getElem?_eq_getElem hlt] at hb
      exact Option.some.inj hb
    rw [← hget, set_getElem_same heap block hlt]
  | succ n ih =>
    intro i heap blk hm hb
    rw [copy_loop_heap, copy_loop, hm, Option.some_bind]
    cases hv : load mem (off + i) with
    | none => rfl
    | some v =>
      rw [Option.some_bind, Option.some_bind, hb, Option.some_bind]
      cases hs : store blk (i : Int) v with
      | none => rfl
      | some blk1 =>
        rw [Option.some_bind, Option.some_bind]
        have hlt := getElem?_some_lt hb
        rw [ih (i + 1) (heap.set block blk1) blk1
          (by rw [List.getElem?_set, if_neg hne]; exact hm)
          (List.getElem?_set_self hlt)]
        cases copy_loop mem off n (i + 1) blk1 with
        | none => rfl
        | some b2 =>
          simp only [Option.map_some', List.set_set]

/-- When the block of the line is not the allocation `start`, `insert_data_to_block` on the heap
is `insert_data_to_block` on separate values: it replaces the allocation of the block by the
filled block and leaves the pointer in the line as it was. -/
theorem insert_data_to_block_heap_eq (line : line_ref) (heap : List (List Nat)) (start : Nat)
    (off : Int) (b : Nat) (tag : Int) (hne : line.block ≠ start) (mem blk : List Nat)
    (hm : heap[start]? = some mem) (hb : heap[line.block]? = some blk) :
    insert_data_to_block_heap line heap start off b tag
      = (insert_data_to_block ⟨line.valid, line.frequency, line.tag, blk⟩ mem off b tag).map
          fun l1 => (⟨1, 1, tag, line.block⟩, heap.set line.block l1.block) := by
  unfold insert_data_to_block_heap insert_data_to_block
  cases shl_one b with
  | none => rfl
  | some B =>
    rw [Option.some_bind, Option.some_bind]
    cases align_loop B B.toNat off with
    | none => rfl
    | some off1 =>
      rw [Option.some_bind, Option.some_bind,
        copy_loop_heap_eq start line.block off1 hne mem B.toNat 0 heap blk hm hb]
      cases copy_loop mem off1 B.toNat 0 blk with
      | none => rfl
      | some blk1 => rfl

/-- The stores of `insert_data_to_block` on the heap go to the allocation of the line's block
only. -/
theorem insert_data_to_block_heap_frame {line : line_ref} {heap : List (List Nat)} {start : Nat}
    {off : Int} {b : Nat} {tag : Int} {p : line_ref × List (List Nat)}
    (h : insert_data_to_block_heap line heap start off b tag = some p) :
    p.1.block = line.block ∧ ∀ k, k ≠ line.block → p.2[k]? = heap[k]? := by
  unfold insert_data_to_block_heap at h
  cases hB : shl_one b with
  | none => rw [hB] at h; cases h
  | some B =>
    rw [hB, Option.some_bind] at h
    cases ha : align_loop B B.toNat off with
    | none => rw [ha] at h; cases h
    | some off1 =>
      rw [ha, Option.some_bind] at h
      cases hc : copy_loop_heap start line.block off1 B.toNat 0 heap with
      | none => rw [hc] at h; cases h
      | some heap1 =>
        rw [hc, Option.some_bind] at h
        cases h
        exact ⟨rfl, copy_loop_heap_frame start line.block off1 B.toNat 0 heap heap1 hc⟩

/-- A copy loop that reads and stores in one allocation and completes has read inside it. -/
theorem copy_loop_heap_self_range (start : Nat) (off : Int) (n : Nat) :
    ∀ (i : Nat) (heap heap1 : List (List Nat)) (blk : List Nat),
      copy_loop_heap start start off (n + 1) i heap = some heap1 → heap[start]? = some blk →
      0 ≤ off + i ∧ off + i + n < blk.length := by
  induction n with
  | zero =>
    intro i heap heap1 blk h hb
    rw [copy_loop_heap, hb, Option.some_bind] at h
    cases hv : load blk (off + i) with
    | none => rw [hv] at h; cases h
    | some v =>
      obtain ⟨k, hk, hk2⟩ := load_some_iff hv
      have := getElem?_some_lt hk2
      omega
  | succ n ih =>
    intro i heap heap1 blk h hb
    rw [copy_loop_heap, hb, Option.some_bind] at h
    cases hv : load blk (off + i) with
    | none => rw [hv] at h; cases h
    | some v =>
      rw [hv, Option.some_bind, Option.some_bind] at h
      cases hs : store blk (i : Int) v with
      | none => rw [hs] at h; cases h
      | some blk1 =>
        rw [hs, Option.some_bind] at h
        obtain ⟨k, hk, hk2⟩ := load_some_iff hv
        obtain ⟨j, -, -, hb1⟩ := store_some_iff hs
        have hl : blk1.length = blk.length := by rw [hb1, List.length_set]
        obtain ⟨-, h2⟩ := ih (i + 1) _ heap1 blk1 h
          (List.getElem?_set_self (getElem?_some_lt hb))
        rw [hl] at h2
        push_cast at h2
        omega

/-- A copy loop that copies an allocation onto itself at distance 0 leaves the heap as it was. -/
theorem copy_loop_heap_self (start : Nat) (n : Nat) :
    ∀ (i : Nat) (heap heap1 : List (List Nat)),
      copy_loop_heap start start 0 n i heap = some heap1 → heap1 = heap := by
  induction n with
  | zero =>
    intro i heap heap1 h
    simp only [copy_loop_heap, Option.some.injEq] at h
    exact h.symm
  | succ n ih =>
    intro i heap heap1 h
    rw [copy_loop_heap] at h
    cases hb : heap[start]? with
    | none => rw [hb] at h; cases h
    | some blk =>
      rw [hb, Option.some_bind] at h
      cases hv : load blk (0 + (i : Int)) with
      | none => rw [hv] at h; cases h
      | some v =>
        rw [hv, Option.some_bind, Option.some_bind] at h
        cases hs : store blk (i : Int) v with
        | none => rw [hs] at h; cases h
        | some blk1 =>
          rw [hs, Option.some_bind] at h
          rw [zero_add, load_natCast] at hv
          obtain ⟨j, hj, hjl, hb1⟩ := store_some_iff hs
          have hji : j = i := by exact_mod_cast hj.symm
          subst hji
          have hv2 : blk[j] = v := by
            rw [List.getElem?_eq_getElem hjl] at hv
            exact Option.some.inj hv
          have hlt := getElem?_some_lt hb
          have hblk : heap[start] = blk := by
            rw [List.getElem?_eq_getElem hlt] at hb
            exact Option.some.inj hb
          have hsame : heap.set start blk1 = heap := by
            rw [hb1, ← hv2, set_getElem_same blk j hjl, ← hblk]
            exact set_getElem_same heap start hlt
          rw [hsame] at h
          exact ih (j + 1) heap heap1 h

/-- When the memory passed to `insert_data_to_block` is the block of the line itself, an
allocation of `2 ^ b` bytes, a call that returns has copied the block onto itself: the heap is
as it was. -/
theorem insert_data_to_block_heap_self {line : line_ref} {heap : List (List Nat)} {off : Int}
    {b : Nat} {tag : Int} {p : line_ref × List (List Nat)} {blk : List Nat}
    (hb : heap[line.block]? = some blk) (hl : blk.length = 2 ^ b)
    (h : insert_data_to_block_heap line heap line.block off b tag = some p) : p.2 = heap := by
  unfold insert_data_to_block_heap at h
  cases hB : shl_one b with
  | none => rw [hB] at h; cases h
  | some B =>
    rw [hB, Option.some_bind] at h
    obtain ⟨-, hB2⟩ := shl_one_some hB
    cases ha : align_loop B B.toNat off with
    | none => rw [ha] at h; cases h
    | some off1 =>
      rw [ha, Option.some_bind] at h
      cases hc : copy_loop_heap line.block line.block off1 B.toNat 0 heap with
      | none => rw [hc] at h; cases h
      | some heap1 =>
        rw [hc, Option.some_bind] at h
        cases h
        rw [hB2, two_pow_toNat] at hc
        obtain ⟨m, hm⟩ : ∃ m, 2 ^ b = m + 1 := ⟨2 ^ b - 1, by
          have : 0 < 2 ^ b := by positivity
          omega⟩
        have hr := hc
        rw [hm] at hr
        obtain ⟨h1, h2⟩ := copy_loop_heap_self_range line.block off1 m 0 heap heap1 blk hr hb
        have h0 : off1 = 0 := by
          rw [hl, hm] at h2
          push_cast at h1 h2
          omega
        rw [h0] at hc
        exact copy_loop_heap_self line.block (2 ^ b) 0 heap heap1 hc

/-- What a returning `read_byte` has done on the heap, whatever its address record held: it
selected a line of a set of the cache; a hit has left the heap as it was, a miss has left the
heap of `insert_data_to_block` on that line; every allocation other than the block of that line
is as it was. -/
theorem read_byte_heap_inv {junk : address_t} {c : cache_ref} {heap : List (List Nat)}
    {start : Nat} {off : Int} {res : heap_outcome}
    (h : read_byte_heap c heap start off junk = some res) :
    ∃ (set : List line_ref) (line : line_ref), set ∈ c.cache ∧ line ∈ set ∧
      (res.status = COLD_MISS ∨ res.status = CACHE_HIT ∨ res.status = CONFLICT_MISS) ∧
      (res.status = CACHE_HIT → res.heap = heap) ∧
      (res.status ≠ CACHE_HIT → ∃ tag p,
        insert_data_to_block_heap line heap start off c.b tag = some p ∧ res.heap = p.2) ∧
      ∀ k, k ≠ line.block → res.heap[k]? = heap[k]? := by
  unfold read_byte_heap at h
  cases hext : extract_bts_from_address off c.s c.t c.b junk with
  | none => rw [hext] at h; cases h
  | some a =>
    rw [hext, Option.some_bind] at h
    cases hset : load c.cache a.set_index with
    | none => rw [hset] at h; cases h
    | some set =>
      rw [hset, Option.some_bind] at h
      cases hst : get_status (set.map line_ref.header) c.E a.tag with
      | none => rw [hst] at h; cases h
      | some r =>
        rw [hst, Option.some_bind] at h
        cases hline : set[r.2]? with
        | none => simp only [hline, Option.none_bind] at h; cases h
        | some line =>
          simp only [hline, Option.some_bind] at h
          obtain ⟨k, -, hk⟩ := load_some_iff hset
          have hstatus := get_status_status (show get_status (set.map line_ref.header) c.E a.tag
            = some (r.1, r.2) from hst)
          refine ⟨set, line, List.getElem?_mem hk, List.getElem?_mem hline, ?_⟩
          by_cases hmiss : r.1 = COLD_MISS ∨ r.1 = CONFLICT_MISS
          · rw [if_pos hmiss] at h
            cases hins : insert_data_to_block_heap line heap start off c.b a.tag with
            | none => rw [hins] at h; cases h
            | some p =>
              rw [hins, Option.some_bind] at h
              cases hblk : p.2[p.1.block]? with
              | none => rw [hblk] at h; cases h
              | some blk =>
                rw [hblk, Option.some_bind] at h
                cases hbyte : load blk a.offset with
                | none => rw [hbyte] at h; cases h
                | some byte =>
                  rw [hbyte, Option.some_bind] at h
                  cases h
                  exact ⟨hstatus, fun hh => absurd hh (miss_ne_hit hmiss),
                    fun _ => ⟨a.tag, p, hins, rfl⟩, (insert_data_to_block_heap_frame hins).2⟩
          · rw [if_neg hmiss] at h
            have hhit : r.1 = CACHE_HIT := by
              rcases hstatus with h1 | h1 | h1
              · exact absurd (Or.inl h1) hmiss
              · exact h1
              · exact absurd (Or.inr h1) hmiss
            rw [if_pos hhit] at h
            simp only [Option.some_bind] at h
            cases hblk : heap[line.block]? with
            | none => rw [hblk] at h; cases h
            | some blk =>
              rw [hblk, Option.some_bind] at h
              cases hbyte : load blk a.offset with
              | none => rw [hbyte] at h; cases h
              | some byte =>
                rw [hbyte, Option.some_bind] at h
                cases h
                exact ⟨hstatus, fun _ => rfl, fun hne => absurd hhit hne, fun _ _ => rfl⟩

/-- With an address record that starts zeroed, a cache of the allocated shape whose blocks are
allocations other than the memory, and an offset whose aligned block lies inside the memory,
`read_byte` on the heap returns. -/
theorem read_byte_heap_returns {c : cache_ref} {heap : List (List Nat)} {start : Nat}
    {mem : List Nat} (o : Nat) (hwf : wf_ref c heap) (hsep : separate c start)
    (hm : heap[start]? = some mem) (hlen : mem.length < 2 ^ 31)
    (hin : o - o % 2 ^ c.b + 2 ^ c.b ≤ mem.length) :
    ∃ res, read_byte_heap c heap start (o : Int) zero_record = some res := by
  obtain ⟨hb31, ho⟩ := block_bound hlen hin
  obtain ⟨hE, hS, hsets⟩ := hwf
  have hext := extract_bts_from_address_small o c.s c.t c.b (by omega)
  have hsi : o / 2 ^ c.b % 2 ^ c.s < c.cache.length := by
    rw [hS]; exact Nat.mod_lt _ (by positivity)
  have hset : c.cache[o / 2 ^ c.b % 2 ^ c.s]? = some c.cache[o / 2 ^ c.b % 2 ^ c.s] :=
    List.getElem?_eq_getElem hsi
  have hmemset := List.getElem_mem hsi
  obtain ⟨hl, hblk⟩ := hsets _ hmemset
  have hpos : 0 < ((c.cache[o / 2 ^ c.b % 2 ^ c.s]).map line_ref.header).length := by
    rw [List.length_map, hl]; exact hE
  obtain ⟨st, r, hst, hr, -⟩ := get_status_cases ((o / 2 ^ (c.b + c.s) : Nat) : Int) hpos
  rw [List.length_map, hl] at hst
  rw [List.length_map] at hr
  have hline : (c.cache[o / 2 ^ c.b % 2 ^ c.s])[r]? = some (c.cache[o / 2 ^ c.b % 2 ^ c.s])[r] :=
    List.getElem?_eq_getElem hr
  obtain ⟨blk, hb, hbl⟩ := hblk _ (List.getElem_mem hr)
  have hne := hsep _ hmemset _ (List.getElem_mem hr)
  have hoff : o % 2 ^ c.b < 2 ^ c.b := Nat.mod_lt _ (by positivity)
  simp only [read_byte_heap, hext, Option.some_bind, load_natCast, hset, hst, hline]
  by_cases hmiss : st = COLD_MISS ∨ st = CONFLICT_MISS
  · rw [if_pos hmiss, insert_data_to_block_heap_eq _ heap start (o : Int) c.b _ hne mem blk hm hb]
    obtain ⟨line1, hins, -, -, -, hl1, -⟩ :=
      insert_data_to_block_spec ⟨(c.cache[o / 2 ^ c.b % 2 ^ c.s])[r].valid,
        (c.cache[o / 2 ^ c.b % 2 ^ c.s])[r].frequency, (c.cache[o / 2 ^ c.b % 2 ^ c.s])[r].tag,
        blk⟩ mem o c.b ((o / 2 ^ (c.b + c.s) : Nat) : Int) hb31 hbl hin
    rw [hins, Option.map_some', Option.some_bind,
      List.getElem?_set_self (getElem?_some_lt hb), Option.some_bind,
      List.getElem?_eq_getElem (by rw [hl1]; exact hoff), Option.some_bind]
    exact ⟨_, rfl⟩
  · rw [if_neg hmiss]
    by_cases hhit : st = CACHE_HIT
    · rw [if_pos hhit, Option.some_bind, hb, Option.some_bind,
        List.getElem?_eq_getElem (by rw [hbl]; exact hoff), Option.some_bind]
      exact ⟨_, rfl⟩
    · rw [if_neg hhit, Option.some_bind, hb, Option.some_bind,
        List.getElem?_eq_getElem (by rw [hbl]; exact hoff), Option.some_bind]
      exact ⟨_, rfl⟩

theorem load_map {α β : Type} (f : α → β) (xs : List α) (i : Int) :
    load (xs.map f) i = (load xs i).map f := by
  unfold load
  by_cases h : 0 ≤ i
  · rw [if_pos h, if_pos h, List.getElem?_map]
  · rw [if_neg h, if_neg h]; rfl

/-- The scan of `get_status` reads valid bit, frequency and tag only: on two sets whose lines
agree in these fields it gives the same result. -/
theorem get_status_loop_fields (f g : line_ref → cache_line_t) (set : List line_ref)
    (hf : ∀ l, (f l).valid = (g l).valid ∧ (f l).frequency = (g l).frequency ∧
      (f l).tag = (g l).tag) (tag : Int) (n : Nat) :
    ∀ (i m li : Nat), get_status_loop (set.map f) tag n i m li
      = get_status_loop (set.map g) tag n i m li := by
  induction n with
  | zero => intro i m li; rfl
  | succ n ih =>
    intro i m li
    rw [get_status_loop, get_status_loop, List.getElem?_map, List.getElem?_map]
    cases set[i]? with
    | none => rfl
    | some l =>
      obtain ⟨h1, h2, h3⟩ := hf l
      simp only [Option.map_some', h1, h2, h3, ih]

theorem get_status_fields (f g : line_ref → cache_line_t) (set : List line_ref)
    (hf : ∀ l, (f l).valid = (g l).valid ∧ (f l).frequency = (g l).frequency ∧
      (f l).tag = (g l).tag) (E : Nat) (tag : Int) :
    get_status (set.map f) E tag = get_status (set.map g) E tag := by
  unfold get_status
  rw [List.getElem?_map, List.getElem?_map]
  cases set[0]? with
  | none => rfl
  | some l =>
    simp only [Option.map_some', (hf l).2.1]
    exact get_status_loop_fields f g set hf tag E 0 _ 0

theorem deref_other {heap : List (List Nat)} (l : line_ref) (k : Nat) (blk : List Nat)
    (h : l.block ≠ k) : l.deref (heap.set k blk) = l.deref heap := by
  unfold line_ref.deref
  rw [List.getD_eq_getElem?_getD, List.getD_eq_getElem?_getD, List.getElem?_set,
    if_neg (fun e => h e.symm)]

theorem deref_same {heap : List (List Nat)} (l : line_ref) (blk : List Nat)
    (h : l.block < heap.length) :
    l.deref (heap.set l.block blk) = ⟨l.valid, l.frequency, l.tag, blk⟩ := by
  unfold line_ref.deref
  rw [List.getD_eq_getElem?_getD, List.getElem?_set_self h]
  rfl

/-- Replacing a line by one with the same block pointer, and the bytes of that block on the
heap, is on the values of the lines the replacement of that one line. -/
theorem deref_set_line {c : cache_ref} {heap : List (List Nat)} (hown : own_blocks c heap)
    {k j : Nat} {set : List line_ref} {line : line_ref} (hset : c.cache[k]? = some set)
    (hline : set[j]? = some line) (l2 : line_ref) (hl2 : l2.block = line.block)
    (blk2 : List Nat) :
    (c.cache.set k (set.set j l2)).map (fun s => s.map (line_ref.deref (heap.set line.block blk2)))
      = (c.cache.map (fun s => s.map (line_ref.deref heap))).set k
          ((set.map (line_ref.deref heap)).set j ⟨l2.valid, l2.frequency, l2.tag, blk2⟩) := by
  have hk := getElem?_some_lt hset
  have hj := getElem?_some_lt hline
  have hlt : line.block < heap.length :=
    hown.1 set (List.getElem?_mem hset) line (List.getElem?_mem hline)
  apply List.ext_getElem?
  intro i
  rw [List.getElem?_map, List.getElem?_set, List.getElem?_set, List.getElem?_map]
  by_cases hi : k = i
  · subst hi
    rw [if_pos rfl, if_pos rfl, if_pos hk, if_pos (by rw [List.length_map]; exact hk),
      Option.map_some']
    congr 1
    apply List.ext_getElem?
    intro jj
    rw [List.getElem?_map, List.getElem?_set, List.getElem?_set, List.getElem?_map]
    by_cases hjj : j = jj
    · subst hjj
      rw [if_pos rfl, if_pos rfl, if_pos hj, if_pos (by rw [List.length_map]; exact hj),
        Option.map_some', ← hl2, deref_same l2 blk2 (by rw [hl2]; exact hlt)]
    · rw [if_neg hjj, if_neg hjj]
      cases hl : set[jj]? with
      | none => rfl
      | some l =>
        rw [Option.map_some', Option.map_some', deref_other l _ _ (fun e =>
          hjj (hown.2 k jj k j set set l line hset hl hset hline e).2.symm)]
  · rw [if_neg hi, if_neg hi]
    cases hs : c.cache[i]? with
    | none => rfl
    | some set1 =>
      rw [Option.map_some', Option.map_some']
      congr 1
      apply List.map_congr_left
      intro l hl
      obtain ⟨jj, hjj⟩ := List.getElem?_of_mem hl
      exact deref_other l _ _ (fun e =>
        hi (hown.2 i jj k j set1 set l line hs hjj hset hline e).1.symm)

theorem deref_header (heap : List (List Nat)) (l : line_ref) :
    (l.deref heap).valid = l.header.valid ∧ (l.deref heap).frequency = l.header.frequency ∧
      (l.deref heap).tag = l.header.tag :=
  ⟨rfl, rfl, rfl⟩

/-- When every line owns its block and the memory buffer is an allocation of its own, `read_byte`
on separate values is `read_byte` on the heap, seen through the values of the lines; this holds
whatever the address record held. -/
theorem read_byte_heap_refines {c : cache_ref} {heap : List (List Nat)} {start : Nat}
    {mem : List Nat} (hsep : separate c start) (hown : own_blocks c heap)
    (hm : heap[start]? = some mem) (off : Int) (junk : address_t) :
    read_byte (c.deref heap) mem off junk
      = (read_byte_heap c heap start off junk).map fun res =>
          { byte := res.byte
            cache := res.cache.deref res.heap
            status := res.status
            addr := res.addr
            line_index := res.line_index } := by
  unfold read_byte read_byte_heap
  simp only [cache_ref.deref]
  cases hext : extract_bts_from_address off c.s c.t c.b junk with
  | none => rfl
  | some a =>
    simp only [Option.some_bind, load_map]
    cases hset : load c.cache a.set_index with
    | none => rfl
    | some set =>
      simp only [Option.map_some', Option.some_bind]
      rw [get_status_fields (line_ref.deref heap) line_ref.header set (deref_header heap)]
      cases hst : get_status (set.map line_ref.header) c.E a.tag with
      | none => rfl
      | some r =>
        simp only [Option.some_bind, List.getElem?_map]
        cases hline : set[r.2]? with
        | none => rfl
        | some line =>
          simp only [Option.map_some', Option.some_bind]
          obtain ⟨k, hk, hsetk⟩ := load_some_iff hset
          have hmemset := List.getElem?_mem hsetk
          have hmemline := List.getElem?_mem hline
          have hne : line.block ≠ start := hsep set hmemset line hmemline
          have hlt : line.block < heap.length := hown.1 set hmemset line hmemline
          have hb : heap[line.block]? = some (heap.getD line.block []) := by
            rw [List.getD_eq_getElem?_getD, List.getElem?_eq_getElem hlt]; rfl
          have hself : heap.set line.block (heap.getD line.block []) = heap := by
            rw [List.getD_eq_getElem?_getD, List.getElem?_eq_getElem hlt]
            exact set_getElem_same heap line.block hlt
          have hktoNat : a.set_index.toNat = k := by rw [hk]; rfl
          by_cases hmiss : r.1 = COLD_MISS ∨ r.1 = CONFLICT_MISS
          · rw [if_pos hmiss, if_pos hmiss,
              insert_data_to_block_heap_eq line heap start off c.b a.tag hne mem _ hm hb]
            cases hins : insert_data_to_block ⟨line.valid, line.frequency, line.tag,
                heap.getD line.block []⟩ mem off c.b a.tag with
            | none =>
              have : insert_data_to_block (line.deref heap) mem off c.b a.tag = none := hins
              rw [this]; rfl
            | some line1 =>
              have : insert_data_to_block (line.deref heap) mem off c.b a.tag = some line1 := hins
              rw [this]
              simp only [Option.map_some', Option.some_bind, List.getElem?_set_self hlt]
              obtain ⟨h1, h2, h3, -⟩ := insert_data_to_block_inv hins
              cases hbyte : load line1.block a.offset with
              | none => rfl
              | some byte =>
                simp only [Option.map_some', Option.some_bind, cache_ref.deref, put_line,
                  hktoNat]
                rw [deref_set_line hown hsetk hline ⟨1, 1, a.tag, line.block⟩ rfl line1.block]
                have hl1 : line1 = ⟨1, 1, a.tag, line1.block⟩ := by
                  cases line1
                  simp only at h1 h2 h3
                  subst h1 h2 h3
                  rfl
                rw [← hl1]
          · rw [if_neg hmiss, if_neg hmiss]
            by_cases hhit : r.1 = CACHE_HIT
            · rw [if_pos hhit, if_pos hhit]
              simp only [Option.some_bind, hb]
              have hblock : (incr_frequency (line.deref heap)).block = heap.getD line.block [] :=
                rfl
              rw [hblock]
              cases hbyte : load (heap.getD line.block []) a.offset with
              | none => rfl
              | some byte =>
                simp only [Option.map_some', Option.some_bind, cache_ref.deref, put_line,
                  hktoNat]
                have hd := deref_set_line hown hsetk hline
                  { line with frequency := (line.frequency + 1) % 256 } rfl
                  (heap.getD line.block [])
                rw [hself] at hd
                rw [hd]
                rfl
            · rw [if_neg hhit, if_neg hhit]
              simp only [Option.some_bind, hb]
              have hblock : (line.deref heap).block = heap.getD line.block [] := rfl
              rw [hblock]
              cases hbyte : load (heap.getD line.block []) a.offset with
              | none => rfl
              | some byte =>
                simp only [Option.map_some', Option.some_bind, cache_ref.deref, put_line,
                  hktoNat]
                have hd := deref_set_line hown hsetk hline line rfl (heap.getD line.block [])
                rw [hself] at hd
                rw [hd]
                rfl

/-- The lines of `demo_ref` own their blocks on `demo_heap`, which are allocations of two bytes,
and the value of `demo_ref` on `demo_heap` is `demo_cache`. -/
theorem demo_ref_shape :
    wf_ref demo_ref demo_heap ∧ own_blocks demo_ref demo_heap ∧
      demo_ref.deref demo_heap = demo_cache := by
  have hmem : ∀ set ∈ demo_ref.cache, ∀ l ∈ set,
      l = ⟨0, 0, 0, 1⟩ ∨ l = ⟨0, 0, 0, 2⟩ ∨ l = ⟨0, 0, 0, 3⟩ ∨ l = ⟨0, 0, 0, 4⟩ := by decide
  refine ⟨⟨by decide, by decide, fun set hset => ⟨?_, fun l hl => ?_⟩⟩, ⟨by decide, ?_⟩, by decide⟩
  · revert set
    decide
  · rcases hmem set hset l hl with h | h | h | h <;> subst h <;> exact ⟨[0, 0], rfl, rfl⟩
  · intro i j i1 j1 set set1 l l1 h1 h2 h3 h4 h5
    have hi : i < 2 := getElem?_some_lt h1
    have hi1 : i1 < 2 := getElem?_some_lt h3
    have hset : set.length = 2 := by
      revert h1; interval_cases i <;> intro h1 <;> cases h1 <;> rfl
    have hset1 : set1.length = 2 := by
      revert h3; interval_cases i1 <;> intro h3 <;> cases h3 <;> rfl
    have hj : j < 2 := by rw [← hset]; exact getElem?_some_lt h2
    have hj1 : j1 < 2 := by rw [← hset1]; exact getElem?_some_lt h4
    interval_cases i <;> interval_cases i1 <;> cases h1 <;> cases h3 <;>
      interval_cases j <;> interval_cases j1 <;> cases h2 <;> cases h4 <;>
      first | exact ⟨rfl, rfl⟩ | exact absurd h5 (by decide)

/-- Outside the allocated shape the buffer can change: through `aliased_ref`, whose block pointer
names the four-byte allocation that is also passed as the memory (where the shape has blocks of
`2 ^ 1` bytes), the read at offset 2 is a miss that copies the bytes 12, 13 of the offsets 2-3
over the bytes at the offsets 0-1. -/
theorem read_byte_heap_aliased :
    ¬ separate aliased_ref 0 ∧ ¬ ([10, 11, 12, 13].length = 2 ^ aliased_ref.b) ∧
    (read_byte_heap aliased_ref [[10, 11, 12, 13]] 0 2 zero_record).map
      (fun res => (res.status, res.heap)) = some (COLD_MISS, [[12, 13, 12, 13]]) := by
  decide

end Cache

namespace Scheduler

/-! ## Scheduler: lemmas on the merge loops -/

theorem arr_load_natCast (arr : List P) (i : Nat) : load arr (i : Int) = arr[i]? := by
  simp [load]

theorem arr_store_natCast (arr : List P) (i : Nat) (v : P) (h : i < arr.length) :
    store arr (i : Int) v = some (arr.set i v) := by
  simp [store, h]

theorem take_set_succ (arr : List P) (k : Nat) (x : P) (h : k < arr.length) :
    (arr.set k x).take (k + 1) = arr.take k ++ [x] := by
  apply List.ext_getElem?
  intro n
  by_cases hn : n < k
  · rw [List.getElem?_take_of_lt (by omega), List.getElem?_set, if_neg (by omega),
      List.getElem?_append_left (by rw [List.length_take]; omega),
      List.getElem?_take_of_lt hn]
  · by_cases hnk : n = k
    · subst hnk
      rw [List.getElem?_take_of_lt (by omega), List.getElem?_set, if_pos rfl, if_pos h,
        List.getElem?_append_right (by rw [List.length_take]; omega)]
      simp [List.length_take, Nat.min_eq_left (Nat.le_of_lt h)]
    · rw [List.getElem?_eq_none (by rw [List.length_take, List.length_set]; omega),
        List.getElem?_eq_none (by simp [List.length_take]; omega)]

theorem drop_set_of_lt (arr : List P) (k m : Nat) (x : P) (h : k < m) :
    (arr.set k x).drop m = arr.drop m := by
  apply List.ext_getElem?
  intro n
  rw [List.getElem?_drop, List.getElem?_drop, List.getElem?_set, if_neg (by omega)]

theorem copy_out_spec (arr : List P) (base : Nat) : ∀ (n i : Nat),
    base + i + n ≤ arr.length →
    copy_out arr (base : Int) n (i : Int) = some ((arr.drop (base + i)).take n) := by
  intro n
  induction n with
  | zero => intro i _; simp [copy_out]
  | succ n ih =>
    intro i h
    have hc : ((base : Int) + (i : Int)) = ((base + i : Nat) : Int) := by push_cast; ring
    have hi : ((i : Int) + 1) = ((i + 1 : Nat) : Int) := by push_cast; ring
    have hlt : base + i < arr.length := by omega
    simp only [copy_out]
    rw [hc, arr_load_natCast, List.getElem?_eq_getElem hlt, Option.some_bind, hi,
      ih (i + 1) (by omega), Option.map_some']
    congr 1
    rw [List.drop_eq_getElem_cons hlt, List.take_succ_cons]
    rfl

theorem merge_lists_nil_right (cmp : P → P → Int) (L : List P) : merge_lists cmp L [] = L := by
  cases L <;> simp [merge_lists]

theorem merge_lists_perm (cmp : P → P → Int) : ∀ (n : Nat) (L R : List P),
    L.length + R.length = n → (merge_lists cmp L R).Perm (L ++ R) := by
  intro n
  induction n with
  | zero =>
    intro L R h
    have hL : L = [] := List.length_eq_zero.mp (by omega)
    have hR : R = [] := List.length_eq_zero.mp (by omega)
    subst hL hR
    simp [merge_lists]
  | succ n ih =>
    intro L R h
    cases L with
    | nil => simp [merge_lists]
    | cons l L =>
      cases R with
      | nil => simp [merge_lists]
      | cons r R =>
        rw [merge_lists]
        by_cases hc : cmp l r ≠ 0
        · rw [if_pos hc]
          exact (ih L (r :: R) (by simp at h ⊢; omega)).cons l
        · rw [if_neg hc]
          have h1 := (ih (l :: L) R (by simp at h ⊢; omega)).cons r
          exact h1.trans (List.perm_middle.symm)

/-- With a comparison that is non-zero exactly when the key of the first argument is at most the
key of the second, merging two sequences in key order gives a sequence in key order. -/
theorem merge_lists_sorted (cmp : P → P → Int) (key : P → Int)
    (hcmp : ∀ a b, cmp a b ≠ 0 ↔ key a ≤ key b) : ∀ (n : Nat) (L R : List P),
    L.length + R.length = n → L.Pairwise (fun a b => key a ≤ key b) →
    R.Pairwise (fun a b => key a ≤ key b) →
    (merge_lists cmp L R).Pairwise (fun a b => key a ≤ key b) := by
  intro n
  induction n with
  | zero =>
    intro L R h _ _
    have hL : L = [] := List.length_eq_zero.mp (by omega)
    have hR : R = [] := List.length_eq_zero.mp (by omega)
    subst hL hR
    simp [merge_lists]
  | succ n ih =>
    intro L R h hL hR
    cases L with
    | nil => simpa [merge_lists] using hR
    | cons l L =>
      cases R with
      | nil => simpa [merge_lists] using hL
      | cons r R =>
        rw [merge_lists]
        have hL2 := List.pairwise_cons.mp hL
        have hR2 := List.pairwise_cons.mp hR
        by_cases hc : cmp l r ≠ 0
        · rw [if_pos hc]
          have hlr := (hcmp l r).mp hc
          refine List.pairwise_cons.mpr ⟨fun x hx => ?_, ih L (r :: R) (by simp at h ⊢; omega)
            hL2.2 hR⟩
          have hx2 := (merge_lists_perm cmp _ L (r :: R) rfl).mem_iff.mp hx
          rcases List.mem_append.mp hx2 with h1 | h1
          · exact hL2.1 x h1
          · rcases List.mem_cons.mp h1 with h2 | h2
            · rw [h2]; exact hlr
            · exact le_trans hlr (hR2.1 x h2)
        · rw [if_neg hc]
          have hrl : key r ≤ key l := by
            have := (hcmp l r).not.mp hc
            omega
          refine List.pairwise_cons.mpr ⟨fun x hx => ?_, ih (l :: L) R (by simp at h ⊢; omega)
            hL hR2.2⟩
          have hx2 := (merge_lists_perm cmp _ (l :: L) R rfl).mem_iff.mp hx
          rcases List.mem_append.mp hx2 with h1 | h1
          · rcases List.mem_cons.mp h1 with h2 | h2
            · rw [h2]; exact hrl
            · exact le_trans hrl (hL2.1 x h2)
          · exact hR2.1 x h1

theorem drain_spec (X : List P) : ∀ (fuel i k : Nat) (arr : List P),
    X.length - i ≤ fuel → i ≤ X.length → k + (X.length - i) ≤ arr.length →
    drain X fuel i (k : Int) arr = some (((k + (X.length - i) : Nat) : Int),
      arr.take k ++ X.drop i ++ arr.drop (k + (X.length - i))) := by
  intro fuel
  induction fuel with
  | zero =>
    intro i k arr hf hi hk
    have hi2 : i = X.length := by omega
    subst hi2
    simp [drain]
  | succ fuel ih =>
    intro i k arr hf hi hk
    simp only [drain]
    by_cases hlt : i < X.length
    · have hk1 : ((k : Int) + 1) = ((k + 1 : Nat) : Int) := by push_cast; ring
      rw [if_pos hlt, List.getElem?_eq_getElem hlt, Option.some_bind,
        arr_store_natCast arr k _ (by omega), Option.some_bind, hk1,
        ih (i + 1) (k + 1) _ (by omega) (by omega) (by rw [List.length_set]; omega)]
      have e1 : k + 1 + (X.length - (i + 1)) = k + (X.length - i) := by omega
      rw [e1, take_set_succ arr k _ (by omega), drop_set_of_lt arr k _ _ (by omega),
        List.drop_eq_getElem_cons hlt]
      simp
    · have hi2 : i = X.length := by omega
      subst hi2
      rw [if_neg hlt]
      simp

theorem take_append_exact (A B C : List P) (n : Nat) (h : n = A.length + B.length) :
    (A ++ B ++ C).take n = A ++ B := by
  subst h
  rw [← List.length_append]
  exact List.take_left _ _

theorem drop_append_exact (A B C : List P) (n m : Nat) (h : n = A.length + B.length) :
    (A ++ B ++ C).drop (n + m) = C.drop m := by
  subst h
  rw [← List.length_append, ← List.drop_drop]
  congr 1
  exact List.drop_left _ _

/-- The two draining loops of `merge`, one after the other. -/
theorem drains_spec (L R : List P) (f1 f2 i j k : Nat) (arr : List P)
    (hf1 : L.length ≤ f1) (hf2 : R.length ≤ f2) (hi : i ≤ L.length) (hj : j ≤ R.length)
    (hk : k + (L.length - i) + (R.length - j) ≤ arr.length) :
    ((drain L f1 i (k : Int) arr).bind fun st1 =>
      (drain R f2 j st1.1 st1.2).map fun st2 => st2.2)
    = some (arr.take k ++ L.drop i ++ R.drop j ++
        arr.drop (k + (L.length - i) + (R.length - j))) := by
  have hA : (arr.take k).length = k := by rw [List.length_take]; omega
  have hB : (L.drop i).length = L.length - i := List.length_drop _ _
  rw [drain_spec L f1 i k arr (by omega) hi (by omega), Option.some_bind]
  simp only []
  rw [drain_spec R f2 j _ _ (by omega) hj (by
    simp only [List.length_append, List.length_drop, hA]
    omega), Option.map_some']
  simp only []
  rw [take_append_exact _ _ _ _ (by rw [hA, hB]),
    drop_append_exact _ _ _ _ _ (by rw [hA, hB]), List.drop_drop]

theorem merge_loops_spec (cmp : P → P → Int) (L R : List P) (f1 f2 : Nat)
    (hf1 : L.length ≤ f1) (hf2 : R.length ≤ f2) : ∀ (fuel i j k : Nat) (arr : List P),
    (L.length - i) + (R.length - j) ≤ fuel → i ≤ L.length → j ≤ R.length →
    k + (L.length - i) + (R.length - j) ≤ arr.length →
    ((merge_both cmp L R fuel i j (k : Int) arr).bind fun st =>
      (drain L f1 st.1 st.2.2.1 st.2.2.2).bind fun st1 =>
      (drain R f2 st.2.1 st1.1 st1.2).map fun st2 => st2.2)
    = some (arr.take k ++ merge_lists cmp (L.drop i) (R.drop j) ++
        arr.drop (k + (L.length - i) + (R.length - j))) := by
  have hexit : ∀ (i j k : Nat) (arr : List P), ¬ (i < L.length ∧ j < R.length) →
      i ≤ L.length → j ≤ R.length → k + (L.length - i) + (R.length - j) ≤ arr.length →
      ((drain L f1 i (k : Int) arr).bind fun st1 =>
        (drain R f2 j st1.1 st1.2).map fun st2 => st2.2)
      = some (arr.take k ++ merge_lists cmp (L.drop i) (R.drop j) ++
          arr.drop (k + (L.length - i) + (R.length - j))) := by
    intro i j k arr hc hi hj hk
    rw [drains_spec L R f1 f2 i j k arr hf1 hf2 hi hj hk]
    by_cases h1 : i < L.length
    · have hj2 : j = R.length := by
        by_contra hne
        exact hc ⟨h1, by omega⟩
      subst hj2
      simp [merge_lists_nil_right]
    · have hi2 : i = L.length := by omega
      subst hi2
      simp [merge_lists]
  intro fuel
  induction fuel with
  | zero =>
    intro i j k arr hf hi hj hk
    have hc : ¬ (i < L.length ∧ j < R.length) := by omega
    simp only [merge_both]
    rw [if_neg hc, Option.some_bind]
    exact hexit i j k arr hc hi hj hk
  | succ fuel ih =>
    intro i j k arr hf hi hj hk
    simp only [merge_both]
    by_cases hc : i < L.length ∧ j < R.length
    · obtain ⟨h1, h2⟩ := hc
      have hk1 : ((k : Int) + 1) = ((k + 1 : Nat) : Int) := by push_cast; ring
      rw [if_pos ⟨h1, h2⟩, List.getElem?_eq_getElem h1, Option.some_bind,
        List.getElem?_eq_getElem h2, Option.some_bind]
      rw [List.drop_eq_getElem_cons h1, List.drop_eq_getElem_cons h2, merge_lists]
      by_cases hcmp : cmp L[i] R[j] ≠ 0
      · rw [if_pos hcmp, if_pos hcmp, arr_store_natCast arr k _ (by omega), Option.some_bind,
          hk1, ih (i + 1) j (k + 1) _ (by omega) (by omega) hj
            (by rw [List.length_set]; omega)]
        have e1 : k + 1 + (L.length - (i + 1)) + (R.length - j)
            = k + (L.length - i) + (R.length - j) := by omega
        rw [e1, take_set_succ arr k _ (by omega), drop_set_of_lt arr k _ _ (by omega),
          ← List.drop_eq_getElem_cons h2]
        simp
      · rw [if_neg hcmp, if_neg hcmp, arr_store_natCast arr k _ (by omega), Option.some_bind,
          hk1, ih i (j + 1) (k + 1) _ (by omega) hi (by omega)
            (by rw [List.length_set]; omega)]
        have e1 : k + 1 + (L.length - i) + (R.length - (j + 1))
            = k + (L.length - i) + (R.length - j) := by omega
        rw [e1, take_set_succ arr k _ (by omega), drop_set_of_lt arr k _ _ (by omega),
          ← List.drop_eq_getElem_cons h1]
        simp
    · rw [if_neg hc, Option.some_bind]
      exact hexit i j k arr hc hi hj hk

theorem copy_out_zero (arr : List P) (base n : Nat) (h : base + n ≤ arr.length) :
    copy_out arr (base : Int) n 0 = some ((arr.drop base).take n) := by
  have := copy_out_spec arr base n 0 (by omega)
  simpa using this

/-- Function `merge` on an array cut as `A ++ L ++ R ++ C`, with `left`, `mid`, `right` the
first index of `L`, the last index of `L` and the last index of `R`. -/
theorem merge_spec (cmp : P → P → Int) (A L R C : List P) (l m r : Nat) (hl : l = A.length)
    (hm : m + 1 = A.length + L.length) (hr : r + 1 = A.length + L.length + R.length)
    (hL : 0 < L.length) (hR : 0 < R.length) :
    merge (A ++ L ++ R ++ C) (l : Int) (m : Int) (r : Int) cmp
      = some (A ++ merge_lists cmp L R ++ C) := by
  have hn1 : (m : Int) - (l : Int) + 1 = (L.length : Int) := by omega
  have hn2 : (r : Int) - (m : Int) = (R.length : Int) := by omega
  have hm1 : (m : Int) + 1 = ((m + 1 : Nat) : Int) := by push_cast; ring
  have hcopyL : copy_out (A ++ L ++ R ++ C) (l : Int) L.length 0 = some L := by
    rw [copy_out_zero _ _ _ (by simp; omega)]
    subst hl
    simp
  have hcopyR : copy_out (A ++ L ++ R ++ C) ((m + 1 : Nat) : Int) R.length 0 = some R := by
    rw [copy_out_zero _ _ _ (by simp; omega), hm]
    have : A ++ L ++ R ++ C = (A ++ L) ++ (R ++ C) := by simp
    rw [this, ← List.length_append, List.drop_left]
    simp
  simp only [merge]
  rw [hn1, hn2, if_neg (by omega), Int.toNat_ofNat, Int.toNat_ofNat, hcopyL, Option.some_bind,
    hm1, hcopyR, Option.some_bind]
  have h := merge_loops_spec cmp L R L.length R.length le_rfl le_rfl (L.length + R.length) 0 0 l
    (A ++ L ++ R ++ C) (by omega) (by omega) (by omega) (by simp; omega)
  rw [h]
  subst hl
  simp only [Nat.sub_zero, List.drop_zero]
  have e1 : A ++ L ++ R ++ C = A ++ (L ++ R ++ C) := by simp
  have e2 : A ++ L ++ R ++ C = (A ++ L ++ R) ++ C := by simp
  have e3 : A.length + L.length + R.length = (A ++ L ++ R).length := by
    rw [List.length_append, List.length_append]
  congr 2
  · congr 1
    rw [e1, List.take_left]
  · rw [e3, List.drop_left]

theorem mid_natCast (l r : Nat) (h : l ≤ r) :
    (l : Int) + ((r : Int) - (l : Int)).tdiv 2 = ((l + (r - l) / 2 : Nat) : Int) := by
  rw [Int.tdiv_eq_ediv (by omega) (by norm_num)]
  omega

/-- Function `mergeSort` on an array cut as `A ++ M ++ C`, with `left`, `right` the first and the
last index of the non-empty segment `M`, for a comparison that is non-zero exactly when the key
of its first argument is at most the key of the second: with fuel for `|M| - 1` levels the call
returns, and leaves `A`, a permutation of `M` in key order, and `C`. -/
theorem mergeSort_spec (cmp : P → P → Int) (key : P → Int)
    (hcmp : ∀ a b, cmp a b ≠ 0 ↔ key a ≤ key b) : ∀ (fuel : Nat) (A M C : List P) (l r : Nat),
    l = A.length → r + 1 = A.length + M.length → 0 < M.length → M.length ≤ fuel + 1 →
    ∃ S, mergeSort cmp fuel (A ++ M ++ C) (l : Int) (r : Int) = some (A ++ S ++ C) ∧
      S.Perm M ∧ S.Pairwise (fun a b => key a ≤ key b) := by
  have hone : ∀ (M : List P), M.length = 1 → M.Pairwise (fun a b => key a ≤ key b) := by
    intro M h
    obtain ⟨x, rfl⟩ := List.length_eq_one.mp h
    exact List.pairwise_singleton _ _
  intro fuel
  induction fuel with
  | zero =>
    intro A M C l r hl hr hM hf
    refine ⟨M, ?_, List.Perm.refl _, hone M (by omega)⟩
    simp only [mergeSort]
    rw [if_neg (by omega)]
  | succ fuel ih =>
    intro A M C l r hl hr hM hf
    simp only [mergeSort]
    by_cases hlr : (l : Int) < (r : Int)
    · have hlr2 : l < r := by omega
      rw [if_pos hlr, mid_natCast l r (by omega)]
      have hm1 : (((l + (r - l) / 2 : Nat) : Int) + 1) = ((l + (r - l) / 2 + 1 : Nat) : Int) := by
        push_cast; ring
      rw [hm1]
      have hsplit : M = M.take ((r - l) / 2 + 1) ++ M.drop ((r - l) / 2 + 1) :=
        (List.take_append_drop _ _).symm
      have hlen1 : (M.take ((r - l) / 2 + 1)).length = (r - l) / 2 + 1 := by
        rw [List.length_take]; omega
      have hlen2 : (M.drop ((r - l) / 2 + 1)).length = M.length - ((r - l) / 2 + 1) :=
        List.length_drop _ _
      generalize hM1 : M.take ((r - l) / 2 + 1) = M1 at hsplit hlen1
      generalize hM2 : M.drop ((r - l) / 2 + 1) = M2 at hsplit hlen2
      obtain ⟨S1, hS1, hp1, hs1⟩ := ih A M1 (M2 ++ C) l (l + (r - l) / 2) hl (by omega)
        (by omega) (by omega)
      have hS1len : S1.length = M1.length := hp1.length_eq
      have e1 : A ++ M ++ C = A ++ M1 ++ (M2 ++ C) := by rw [hsplit]; simp
      rw [e1, hS1, Option.some_bind]
      have e2 : A ++ S1 ++ (M2 ++ C) = (A ++ S1) ++ M2 ++ C := by simp
      obtain ⟨S2, hS2, hp2, hs2⟩ := ih (A ++ S1) M2 C (l + (r - l) / 2 + 1) r
        (by rw [List.length_append]; omega) (by rw [List.length_append]; omega) (by omega)
        (by omega)
      have hS2len : S2.length = M2.length := hp2.length_eq
      rw [e2, hS2, Option.some_bind]
      rw [merge_spec cmp A S1 S2 C l (l + (r - l) / 2) r hl (by omega) (by omega) (by omega)
        (by omega)]
      refine ⟨merge_lists cmp S1 S2, rfl, ?_, merge_lists_sorted cmp key hcmp _ S1 S2 rfl hs1 hs2⟩
      have h1 := merge_lists_perm cmp _ S1 S2 rfl
      have h2 : (S1 ++ S2).Perm (M1 ++ M2) := hp1.append hp2
      rw [hsplit]
      exact h1.trans h2
    · have hlr2 : M.length = 1 := by omega
      rw [if_neg hlr]
      exact ⟨M, rfl, List.Perm.refl _, hone M hlr2⟩

theorem sort_eq_mergeSort (fuel : Nat) (p_array : List P) (len : Int) (sortby : sort_by) :
    sort fuel p_array len sortby = mergeSort (sort_cmp sortby) fuel p_array 0 (len - 1) := by
  cases sortby <;> rfl

theorem sort_cmp_key (sortby : sort_by) (a b : P) :
    sort_cmp sortby a b ≠ 0 ↔ sort_key sortby a ≤ sort_key sortby b := by
  cases sortby
  · simp only [sort_cmp, sort_key, cmp_arrival]
    split_ifs with h <;> simp [h]
  · simp only [sort_cmp, sort_key, cmp_shortest_job]
    split_ifs with h <;> simp [h]
  · simp only [sort_cmp, sort_key, cmp_priority]
    split_ifs with h <;> simp [h]

/-- Claim C27 (scheduler sort). For every process array of length `len` (an `int`, so below
`2 ^ 31`; `len = 0` included) and every criterion, `sort(p_array, len, criterion)` returns when
the recursion is given at least `len` levels, and the array it leaves is a permutation of the
input in non-decreasing order of the key of the criterion (`Arrival_Time`, `Burst_Time` or
`Priority`). -/
theorem sort_sorts (p_array : List P) (sortby : sort_by) (fuel : Nat)
    (_hlen : p_array.length < 2 ^ 31) (hfuel : p_array.length ≤ fuel) :
    ∃ out, sort fuel p_array (p_array.length : Int) sortby = some out ∧ out.Perm p_array ∧
      out.Pairwise (fun a b => sort_key sortby a ≤ sort_key sortby b) := by
  rw [sort_eq_mergeSort]
  by_cases hnil : p_array.length = 0
  · have h0 : p_array = [] := List.length_eq_zero.mp hnil
    subst h0
    refine ⟨[], ?_, List.Perm.refl _, List.Pairwise.nil⟩
    cases fuel <;> simp [mergeSort]
  · have hr : ((p_array.length : Int) - 1) = ((p_array.length - 1 : Nat) : Int) := by omega
    obtain ⟨S, hS, hp, hs⟩ := mergeSort_spec (sort_cmp sortby) (sort_key sortby)
      (sort_cmp_key sortby) fuel [] p_array [] 0 (p_array.length - 1) rfl
      (by simp only [List.length_nil]; omega) (by omega) (by omega)
    rw [hr]
    refine ⟨S, ?_, hp, hs⟩
    simpa using hS

/-- Witness for C27: the four processes of `demo_procs` sorted by arrival time. -/
theorem sort_sorts_witness :
    demo_procs.length < 2 ^ 31 ∧ demo_procs.length ≤ 4 ∧
    ∃ out, sort 4 demo_procs (demo_procs.length : Int) sort_by.ARRIVAL = some out ∧
      out.Perm demo_procs ∧
      out.Pairwise (fun a b => sort_key sort_by.ARRIVAL a ≤ sort_key sort_by.ARRIVAL b) :=
  ⟨by decide, by decide, sort_sorts demo_procs sort_by.ARRIVAL 4 (by decide) (by decide)⟩

end Scheduler

namespace FileSync

/-! ## File synchronisation tool: theorems -/

theorem cmp_exit_swap (c1 c2 : Int) : cmp_exit c1 c2 = 1 ↔ cmp_exit c2 c1 = 2 := by
  unfold cmp_exit
  by_cases h : c1 = c2
  · subst h; simp
  · have h2 : ¬ c2 = c1 := fun e => h e.symm
    rw [if_neg h, if_neg h2]
    by_cases h3 : c1 - c2 > 0
    · rw [if_pos h3, if_neg (by omega)]; simp
    · rw [if_neg h3, if_pos (by omega)]; simp

/-- The two non-zero results of `cmp` mirror each other, for all strings. -/
theorem cmp_swap : ∀ (str1 str2 : List Int), cmp str1 str2 = 1 ↔ cmp str2 str1 = 2 := by
  intro str1
  induction str1 with
  | nil =>
    intro str2
    cases str2 with
    | nil => simp [cmp, cmp_exit, deref]
    | cons c2 s2 =>
      simp only [cmp, deref, List.headD_cons]
      exact cmp_exit_swap 0 c2
  | cons c1 s1 ih =>
    intro str2
    cases str2 with
    | nil =>
      simp only [cmp, deref, List.headD_cons]
      exact cmp_exit_swap c1 0
    | cons c2 s2 =>
      simp only [cmp]
      by_cases hnz : c1 ≠ 0 ∧ c2 ≠ 0
      · rw [if_pos hnz, if_pos (And.symm hnz)]
        by_cases h1 : c1 > c2
        · rw [if_pos h1, if_neg (by omega), if_pos (by omega)]; simp
        · rw [if_neg h1]
          by_cases h2 : c1 < c2
          · rw [if_pos h2, if_pos (by omega)]; simp
          · rw [if_neg h2, if_neg (by omega), if_neg (by omega)]
            exact ih s2
      · rw [if_neg hnz, if_neg (fun h => hnz (And.symm h))]
        exact cmp_exit_swap c1 c2

/-- On strings whose characters are all positive (no byte from 0x80 on), `cmp` is the
lexicographic comparison: 0 for equal strings, 2 when the first is smaller, 1 when it is
greater. -/
theorem cmp_positive : ∀ (str1 str2 : List Int), (∀ c ∈ str1, 0 < c) → (∀ c ∈ str2, 0 < c) →
    (str1 = str2 ∧ cmp str1 str2 = 0) ∨ (lex_lt str1 str2 ∧ cmp str1 str2 = 2) ∨
    (lex_lt str2 str1 ∧ cmp str1 str2 = 1) := by
  intro str1
  induction str1 with
  | nil =>
    intro str2 _ h2
    cases str2 with
    | nil => exact Or.inl ⟨rfl, by decide⟩
    | cons c2 s2 =>
      have hc := h2 c2 (List.mem_cons_self _ _)
      refine Or.inr (Or.inl ⟨trivial, ?_⟩)
      simp only [cmp, deref, List.headD_cons, cmp_exit]
      rw [if_neg (by omega), if_neg (by omega)]
  | cons c1 s1 ih =>
    intro str2 h1 h2
    have hc1 := h1 c1 (List.mem_cons_self _ _)
    cases str2 with
    | nil =>
      refine Or.inr (Or.inr ⟨trivial, ?_⟩)
      simp only [cmp, cmp_exit]
      rw [if_neg (by omega), if_pos (by omega)]
    | cons c2 s2 =>
      have hc2 := h2 c2 (List.mem_cons_self _ _)
      simp only [cmp]
      rw [if_pos ⟨by omega, by omega⟩]
      by_cases hgt : c1 > c2
      · rw [if_pos hgt]
        exact Or.inr (Or.inr ⟨Or.inl hgt, rfl⟩)
      · rw [if_neg hgt]
        by_cases hlt : c1 < c2
        · rw [if_pos hlt]
          exact Or.inr (Or.inl ⟨Or.inl hlt, rfl⟩)
        · rw [if_neg hlt]
          have heq : c1 = c2 := by omega
          subst heq
          rcases ih s2 (fun c hc => h1 c (List.mem_cons_of_mem _ hc))
            (fun c hc => h2 c (List.mem_cons_of_mem _ hc)) with ⟨e, h⟩ | ⟨e, h⟩ | ⟨e, h⟩
          · exact Or.inl ⟨by rw [e], h⟩
          · exact Or.inr (Or.inl ⟨Or.inr ⟨rfl, e⟩, h⟩)
          · exact Or.inr (Or.inr ⟨Or.inr ⟨rfl, e⟩, h⟩)

/-- On strings without an embedded terminator, `cmp` is the lexicographic comparison of the
`char` values with the terminator 0 counted as the last character of each string: a character
below 0 sorts before the end of the other string. -/
theorem cmp_terminated : ∀ (str1 str2 : List Int), (∀ c ∈ str1, c ≠ 0) → (∀ c ∈ str2, c ≠ 0) →
    (str1 = str2 ∧ cmp str1 str2 = 0) ∨
    (lex_lt (str1 ++ [0]) (str2 ++ [0]) ∧ cmp str1 str2 = 2) ∨
    (lex_lt (str2 ++ [0]) (str1 ++ [0]) ∧ cmp str1 str2 = 1) := by
  intro str1
  induction str1 with
  | nil =>
    intro str2 _ h2
    cases str2 with
    | nil => exact Or.inl ⟨rfl, by decide⟩
    | cons c2 s2 =>
      have hc := h2 c2 (List.mem_cons_self _ _)
      simp only [cmp, deref, List.headD_cons, cmp_exit, List.nil_append, List.cons_append,
        lex_lt]
      rw [if_neg (fun e => hc e.symm)]
      by_cases hpos : 0 - c2 > 0
      · rw [if_pos hpos]
        exact Or.inr (Or.inr ⟨Or.inl (by omega), rfl⟩)
      · rw [if_neg hpos]
        exact Or.inr (Or.inl ⟨Or.inl (by omega), rfl⟩)
  | cons c1 s1 ih =>
    intro str2 h1 h2
    have hc1 := h1 c1 (List.mem_cons_self _ _)
    cases str2 with
    | nil =>
      simp only [cmp, cmp_exit, List.nil_append, List.cons_append, lex_lt]
      rw [if_neg hc1]
      by_cases hpos : c1 - 0 > 0
      · rw [if_pos hpos]
        exact Or.inr (Or.inr ⟨Or.inl (by omega), rfl⟩)
      · rw [if_neg hpos]
        exact Or.inr (Or.inl ⟨Or.inl (by omega), rfl⟩)
    | cons c2 s2 =>
      have hc2 := h2 c2 (List.mem_cons_self _ _)
      simp only [cmp, List.cons_append, lex_lt]
      rw [if_pos ⟨hc1, hc2⟩]
      by_cases hgt : c1 > c2
      · rw [if_pos hgt]
        exact Or.inr (Or.inr ⟨Or.inl hgt, rfl⟩)
      · rw [if_neg hgt]
        by_cases hlt : c1 < c2
        · rw [if_pos hlt]
          exact Or.inr (Or.inl ⟨Or.inl hlt, rfl⟩)
        · rw [if_neg hlt]
          have heq : c1 = c2 := by omega
          subst heq
          rcases ih s2 (fun c hc => h1 c (List.mem_cons_of_mem _ hc))
            (fun c hc => h2 c (List.mem_cons_of_mem _ hc)) with ⟨e, h⟩ | ⟨e, h⟩ | ⟨e, h⟩
          · exact Or.inl ⟨by rw [e], h⟩
          · exact Or.inr (Or.inl ⟨Or.inr ⟨rfl, e⟩, h⟩)
          · exact Or.inr (Or.inr ⟨Or.inr ⟨rfl, e⟩, h⟩)

theorem lex_lt_irrefl : ∀ (s : List Int), ¬ lex_lt s s := by
  intro s
  induction s with
  | nil => exact fun h => h
  | cons a as ih =>
    intro h
    rcases h with h | ⟨-, h⟩
    · omega
    · exact ih h

/-- The result of `cmp` is 0 exactly for equal strings, for all strings without an embedded
terminator. -/
theorem cmp_zero_iff (str1 str2 : List Int) (h1 : ∀ c ∈ str1, c ≠ 0) (h2 : ∀ c ∈ str2, c ≠ 0) :
    cmp str1 str2 = 0 ↔ str1 = str2 := by
  rcases cmp_terminated str1 str2 h1 h2 with ⟨e, h⟩ | ⟨-, h⟩ | ⟨-, h⟩
  · exact ⟨fun _ => e, fun _ => h⟩
  · refine ⟨fun h0 => ?_, fun e => ?_⟩
    · rw [h] at h0; exact absurd h0 (by decide)
    · subst e
      rcases cmp_terminated str1 str1 h1 h1 with ⟨-, h3⟩ | ⟨h3, -⟩ | ⟨h3, -⟩
      · exact h3
      · exact absurd h3 (lex_lt_irrefl _)
      · exact absurd h3 (lex_lt_irrefl _)
  · refine ⟨fun h0 => ?_, fun e => ?_⟩
    · rw [h] at h0; exact absurd h0 (by decide)
    · subst e
      rcases cmp_terminated str1 str1 h1 h1 with ⟨-, h3⟩ | ⟨h3, -⟩ | ⟨h3, -⟩
      · exact h3
      · exact absurd h3 (lex_lt_irrefl _)
      · exact absurd h3 (lex_lt_irrefl _)

/-- Claim C28 (file-name comparison), evaluated where it breaks. With `char` signed, take the
one-byte string `a` (0x61) against the three-byte string 0x61 0xC3 0xA9 (the UTF-8 name `aé`): the
loop passes the common `a`, `*str1` is the terminator 0 and `*str2` is -61, so
`(*str1 - *str2) > 0` and `cmp` returns 1, although the first string is a proper prefix of the
second and so lexicographically smaller; the call with the arguments exchanged returns 2. -/
theorem cmp_prefix_before_high_byte :
    cmp [97] [97, -61, -87] = 1 ∧ lex_lt [97] [97, -61, -87] ∧
    cmp [97, -61, -87] [97] = 2 ∧ ¬ lex_lt [97, -61, -87] [97] := by
  decide

theorem scan_slash_none (path : List Char) : ∀ (n i lastIndex : Nat),
    (∀ j, i ≤ j → j < i + n → path[j]? ≠ some '/') →
    scan_slash path n i lastIndex = lastIndex := by
  intro n
  induction n with
  | zero => intro i lastIndex _; rfl
  | succ n ih =>
    intro i lastIndex h
    simp only [scan_slash]
    rw [if_neg (h i (le_refl _) (by omega))]
    exact ih (i + 1) lastIndex (fun j h1 h2 => h j (by omega) (by omega))

theorem scan_slash_last (path : List Char) (k : Nat) (hk : path[k]? = some '/') :
    ∀ (n i lastIndex : Nat), i ≤ k → k < i + n →
    (∀ j, k < j → j < i + n → path[j]? ≠ some '/') →
    scan_slash path n i lastIndex = k := by
  intro n
  induction n with
  | zero => intro i lastIndex h1 h2 _; omega
  | succ n ih =>
    intro i lastIndex h1 h2 h
    simp only [scan_slash]
    by_cases hik : i = k
    · subst hik
      rw [if_pos hk]
      exact scan_slash_none path n (i + 1) i (fun j h3 h4 => h j (by omega) (by omega))
    · exact ih (i + 1) _ (by omega) (by omega) (fun j h3 h4 => h j h3 (by omega))

/-- What `extractDirName` returns for a path with a `'/'`: the characters after the last one. -/
theorem extractDirName_after_last_slash (pre suf : List Char) (hsuf : ∀ c ∈ suf, c ≠ '/') :
    extractDirName (pre ++ '/' :: suf) = some suf := by
  have hk : (pre ++ '/' :: suf)[pre.length]? = some '/' := by
    rw [List.getElem?_append_right (le_refl _), Nat.sub_self, List.getElem?_cons_zero]
  have hscan : scan_slash (pre ++ '/' :: suf) (pre ++ '/' :: suf).length 0 0 = pre.length := by
    apply scan_slash_last _ _ hk _ 0 0 (by omega) (by simp)
    intro j h1 h2 hj
    have hj2 : suf[j - pre.length - 1]? = some '/' := by
      rw [List.getElem?_append_right (by omega)] at hj
      have : j - pre.length = (j - pre.length - 1) + 1 := by omega
      rw [this, List.getElem?_cons_succ] at hj
      exact hj
    exact hsuf _ (List.getElem?_mem hj2) rfl
  unfold extractDirName
  rw [hscan, if_pos (by simp)]
  simp

/-- What `extractDirName` returns for a path without `'/'`: the path without its first
character, and no string at all for the empty path. -/
theorem extractDirName_no_slash (path : List Char) (h : ∀ c ∈ path, c ≠ '/') :
    extractDirName path = if path = [] then none else some path.tail := by
  have hscan : scan_slash path path.length 0 0 = 0 :=
    scan_slash_none path _ 0 0 (fun j _ _ hj => h _ (List.getElem?_mem hj) rfl)
  unfold extractDirName
  rw [hscan]
  cases path with
  | nil => simp
  | cons c cs => simp

/-- Claim C29 (last path component), evaluated where it breaks. The path `abc` holds no `'/'`,
so `lastIndex` keeps its initial value 0 and the function returns `path + 1`, the string `bc`,
not the whole path; for `a/bc` it returns `bc`, the characters after the last `'/'`, and for
the empty path the pointer lies beyond the terminator. -/
theorem extractDirName_drops_first_char :
    extractDirName ['a', 'b', 'c'] = some ['b', 'c'] ∧
    extractDirName ['a', 'b', 'c'] ≠ some ['a', 'b', 'c'] ∧
    extractDirName ['a', '/', 'b', 'c'] = some ['b', 'c'] ∧
    extractDirName [] = none := by
  decide

end FileSync

namespace FileProcessor

/-! ## File processor: theorems -/

/-- Claim C30 (instruction validation). For every instruction and every data-file size,
`is_instruction_valid` returns 1 if `start_offset ≥ 0`, `end_offset ≥ 0`,
`start_offset ≤ end_offset` and, for a READ, `end_offset < file_size`, for any other type,
`start_offset < file_size`; it returns 0 otherwise. For a `W` line `fetch_next_instruction`
leaves `end_offset` as the preceding instruction left it, and the instruction comes out as WRITE
exactly when the scanned `start_offset` passes the test against that earlier `end_offset`, and as
INVALID otherwise. -/
theorem is_instruction_valid_iff (ins : instruction) (file_size : Int) :
    (is_instruction_valid ins file_size = 1 ↔
      (0 ≤ ins.start_offset ∧ 0 ≤ ins.end_offset ∧ ins.start_offset ≤ ins.end_offset ∧
        if ins.type = READ then ins.end_offset < file_size
        else ins.start_offset < file_size)) ∧
    (is_instruction_valid ins file_size ≠ 1 ↔ is_instruction_valid ins file_size = 0) ∧
    ∀ (s : Int) (text : List Nat),
      (fetch_next_instruction ins file_size (request.W s text)).end_offset = ins.end_offset ∧
      (fetch_next_instruction ins file_size (request.W s text)).start_offset = s ∧
      ((fetch_next_instruction ins file_size (request.W s text)).type = WRITE ↔
        (0 ≤ s ∧ 0 ≤ ins.end_offset ∧ s ≤ ins.end_offset ∧ s < file_size)) ∧
      ((fetch_next_instruction ins file_size (request.W s text)).type ≠ WRITE ↔
        (fetch_next_instruction ins file_size (request.W s text)).type = INVALID) := by
  have hval : ∀ (i : instruction),
      (is_instruction_valid i file_size = 1 ↔
        (0 ≤ i.start_offset ∧ 0 ≤ i.end_offset ∧ i.start_offset ≤ i.end_offset ∧
          if i.type = READ then i.end_offset < file_size else i.start_offset < file_size)) ∧
      (is_instruction_valid i file_size ≠ 1 ↔ is_instruction_valid i file_size = 0) := by
    intro i
    unfold is_instruction_valid
    by_cases h1 : i.start_offset < 0 ∨ i.end_offset < 0
    · rw [if_pos h1]
      refine ⟨⟨fun h => absurd h (by decide), fun h => ?_⟩, by decide⟩
      omega
    · rw [if_neg h1]
      by_cases h2 : i.start_offset > i.end_offset
      · rw [if_pos h2]
        refine ⟨⟨fun h => absurd h (by decide), fun h => ?_⟩, by decide⟩
        omega
      · rw [if_neg h2]
        by_cases h3 : i.type = READ
        · rw [if_pos h3, if_pos h3]
          by_cases h4 : i.end_offset ≥ file_size
          · rw [if_pos h4]
            refine ⟨⟨fun h => absurd h (by decide), fun h => ?_⟩, by decide⟩
            omega
          · rw [if_neg h4]
            exact ⟨⟨fun _ => ⟨by omega, by omega, by omega, by omega⟩, fun _ => rfl⟩, by decide⟩
        · rw [if_neg h3, if_neg h3]
          by_cases h4 : i.start_offset ≥ file_size
          · rw [if_pos h4]
            refine ⟨⟨fun h => absurd h (by decide), fun h => ?_⟩, by decide⟩
            omega
          · rw [if_neg h4]
            exact ⟨⟨fun _ => ⟨by omega, by omega, by omega, by omega⟩, fun _ => rfl⟩, by decide⟩
  refine ⟨(hval ins).1, (hval ins).2, fun s text => ?_⟩
  obtain ⟨hw1, hw0⟩ := hval { ins with type := WRITE, start_offset := s }
  have hnr : ¬ (WRITE = READ) := by decide
  simp only [if_neg hnr] at hw1
  simp only [fetch_next_instruction]
  by_cases hz : is_instruction_valid { ins with type := WRITE, start_offset := s } file_size = 0
  · rw [if_pos hz]
    have hne : is_instruction_valid { ins with type := WRITE, start_offset := s } file_size ≠ 1 :=
      hw0.mpr hz
    have hiw : ¬ (INVALID = WRITE) := by decide
    refine ⟨rfl, rfl, ⟨fun h => absurd h hiw, fun h => absurd (hw1.mpr h) hne⟩, ?_⟩
    exact ⟨fun _ => rfl, fun _ => hiw⟩
  · rw [if_neg hz]
    have h1 : is_instruction_valid { ins with type := WRITE, start_offset := s } file_size = 1 := by
      by_contra hc
      exact hz (hw0.mp hc)
    have hwi : ¬ (WRITE = INVALID) := by decide
    refine ⟨rfl, rfl, ⟨fun _ => hw1.mp h1, fun _ => rfl⟩, ?_⟩
    exact ⟨fun h => absurd rfl h, fun h => absurd h hwi⟩

/-- After the line `R 3 7` has left `end_offset = 7`, the line `W 5` comes out as WRITE; at the
start of `run`, where `end_offset = 0`, the same line comes out as INVALID. -/
theorem fetch_write_uses_previous_end :
    (fetch_next_instruction (fetch_next_instruction (initial_instruction QUIT) 100
      (request.R 3 7)) 100 (request.W 5 [120])).type = WRITE ∧
    (fetch_next_instruction (initial_instruction QUIT) 100 (request.W 5 [120])).type
      = INVALID := by
  decide

end FileProcessor
